import Mathlib

/-!
Verification of the core election-resolution engine of the GT voting-system
code (`vs.py`, `game_cvxopt.py`).  Ballots, profiles, pairwise preference and
margin matrices, and the individual voting rules are embedded as executable
Lean functions that mirror the Python source, and the specification's claims
about them are proved or refuted below.
-/

namespace VS

/-- A ballot entry: `some c` is the candidate `c`, `none` is the equals sign
`"="` marking the next candidate as tied with the previous one. -/
abbrev Ballot (α : Type) := List (Option α)

/-- A profile: a list of (ballot, multiplicity) pairs, mirroring the Python
dict mapping ballots to nonnegative integer counts. -/
abbrev Profile (α : Type) := List (Ballot α × ℕ)

/-- The `params` dict: `none` models Python `params == None`, `some b` models
`params["missing_preferred_less"] == b`. -/
abbrev Params := Option Bool

/-- The effective `missing_preferred_less` policy: the code takes the branch
when `params==None or params["missing_preferred_less"]`. -/
def mpl (params : Params) : Bool :=
  match params with
  | none => true
  | some b => b

variable {α : Type} [LinearOrder α]

/-- `pref[(y,x)] += w`, as a pointwise function update. -/
def bump (pr : α → α → ℕ) (y x : α) (w : ℕ) : α → α → ℕ :=
  fun u v => if u = y ∧ v = x then pr u v + w else pr u v

/-- `for y in ys: pref[(y,x)] += w`. -/
def bumpAll (pr : α → α → ℕ) (ys : List α) (x : α) (w : ℕ) : α → α → ℕ :=
  ys.foldl (fun p y => bump p y x w) pr

/-- The mutable state of the per-ballot scan loop in `pairwise_prefs`. -/
structure PrefScan (α : Type) where
  remaining : List α
  mentioned : List α
  equivalents : List α
  lastEq : Bool
  pref : α → α → ℕ

/-- One iteration of the `for x in ballot` loop of `pairwise_prefs`. -/
def prefStep [DecidableEq α] (w : ℕ) (st : PrefScan α) (x : Option α) :
    PrefScan α :=
  match x with
  | none => { st with lastEq := true }
  | some c =>
      let remaining := st.remaining.erase c
      let mentioned :=
        if st.lastEq then st.mentioned else st.mentioned ++ st.equivalents
      let equivalents :=
        if st.lastEq then st.equivalents ++ [c] else [c]
      { remaining := remaining, mentioned := mentioned,
        equivalents := equivalents, lastEq := false,
        pref := bumpAll st.pref mentioned c w }

/-- The contribution of one ballot (with multiplicity `w`) to the preference
matrix: the scan loop followed by the `missing_preferred_less` fixup. -/
def ballotPref [DecidableEq α] (A : List α) (useMpl : Bool) (pr0 : α → α → ℕ)
    (ballot : Ballot α) (w : ℕ) : α → α → ℕ :=
  let st := ballot.foldl (prefStep w)
    ⟨A, [], [], false, pr0⟩
  if useMpl then
    let m := st.mentioned ++ st.equivalents
    m.foldl (fun p x => st.remaining.foldl (fun p2 y => bump p2 x y w) p) st.pref
  else st.pref

/-- `pairwise_prefs(A, P, params)` from `vs.py`: for each pair `(i,j)` the
total ballot weight preferring `i` to `j`. -/
def pairwise_prefs (A : List α) (P : Profile α) (params : Params) :
    α → α → ℕ :=
  P.foldl (fun pr bw => ballotPref A (mpl params) pr bw.1 bw.2) (fun _ _ => 0)

/-- `pairwise_margins(A, P, params)` from `vs.py`:
`margin[(x,y)] = pref[(x,y)] - pref[(y,x)]`. -/
def pairwise_margins (A : List α) (P : Profile α) (params : Params) :
    α → α → ℤ :=
  let pref := pairwise_prefs A P params
  fun x y => (pref x y : ℤ) - (pref y x : ℤ)

/-- C9: the margin matrix is the preference difference and is antisymmetric. -/
theorem pairwise_margins_eq_sub_and_antisymm (A : List α) (P : Profile α)
    (params : Params) (x y : α) :
    pairwise_margins A P params x y =
      (pairwise_prefs A P params x y : ℤ) - (pairwise_prefs A P params y x : ℤ) ∧
    pairwise_margins A P params x y = - pairwise_margins A P params y x ∧
    pairwise_margins A P params x x = 0 := by
  refine ⟨rfl, ?_, ?_⟩ <;> simp [pairwise_margins]

/-- `number_of_ballots_in_profile(P)`: the sum of the multiplicities. -/
def number_of_ballots_in_profile (P : Profile α) : ℕ :=
  (P.map (·.2)).sum

/-- The first-choice count of a single candidate: the accumulation loop of
`first_choice_counts` (`count[ballot[0]] += P[ballot]` for nonempty ballots),
expressed as a fold into a count function. -/
def first_choice_count (P : Profile α) : α → ℕ :=
  P.foldl (fun cnt bw =>
    match bw.1 with
    | [] => cnt
    | none :: _ => cnt
    | some c :: _ => fun a => if a = c then cnt a + bw.2 else cnt a)
    (fun _ => 0)

/-- `first_choice_counts(A,P)`: the list `[(count[a],a) for a in A]`, sorted
and reversed, so it is in decreasing lexicographic order. -/
def first_choice_counts (A : List α) (P : Profile α) : List (ℕ ×ₗ α) :=
  ((A.map fun a => toLex (first_choice_count P a, a)).insertionSort (· ≤ ·)).reverse

/-- `majority_winner(A,P,params)`: returns `L[0][1]` when `L[0][0] > n/2`
(Python 2 floor division), else `None`. -/
def majority_winner (A : List α) (P : Profile α) (_params : Params) :
    Option α :=
  let n := number_of_ballots_in_profile P
  match first_choice_counts A P with
  | [] => none
  | p :: _ =>
      if n / 2 < (ofLex p).1 then some (ofLex p).2 else none

section SortLemmas

variable {β : Type} [LinearOrder β]

/-- If the descending sort of `l` (sort ascending, then reverse) starts with
`p`, then `p` is a member of `l` and a maximum of `l`. -/
theorem cons_of_reverse_insertionSort (l : List β) (p : β) (rest : List β)
    (hps : (l.insertionSort (· ≤ ·)).reverse = p :: rest) :
    p ∈ l ∧ ∀ x ∈ l, x ≤ p := by
  have hs : List.Sorted (· ≤ ·) (l.insertionSort (· ≤ ·)) :=
    List.sorted_insertionSort _ l
  have hrev : List.Sorted (· ≥ ·) (p :: rest) := by
    rw [← hps, List.Sorted, List.pairwise_reverse]
    exact hs
  have hmemiff : ∀ x : β, x ∈ p :: rest ↔ x ∈ l := by
    intro x
    rw [← hps, List.mem_reverse, (List.perm_insertionSort _ l).mem_iff]
  constructor
  · exact (hmemiff p).mp (List.mem_cons_self p rest)
  · intro x hx
    rcases List.mem_cons.mp ((hmemiff x).mpr hx) with h1 | h2
    · exact le_of_eq h1
    · exact List.rel_of_sorted_cons hrev x h2

end SortLemmas

/-- `first_choice_count` as a sum over the profile. -/
theorem first_choice_count_eq_sum (P : Profile α) (a : α) :
    first_choice_count P a =
      (P.map (fun bw =>
        match bw.1 with
        | some c :: _ => if a = c then bw.2 else 0
        | _ => 0)).sum := by
  have key : ∀ (P : Profile α) (cnt : α → ℕ),
      (P.foldl (fun cnt bw =>
        match bw.1 with
        | [] => cnt
        | none :: _ => cnt
        | some c :: _ => fun a => if a = c then cnt a + bw.2 else cnt a)
        cnt) a =
      cnt a + (P.map (fun bw =>
        match bw.1 with
        | some c :: _ => if a = c then bw.2 else 0
        | _ => 0)).sum := by
    intro P
    induction P with
    | nil => intro cnt; simp
    | cons bw P ih =>
        intro cnt
        simp only [List.foldl_cons, List.map_cons, List.sum_cons, ih]
        rcases h : bw.1 with _ | ⟨x, rest⟩
        · simp [h]
        · rcases x with _ | c
          · simp [h]
          · by_cases hac : a = c
            · simp only [h, if_pos hac]
              omega
            · simp only [h, if_neg hac]
              omega
  simpa using key P (fun _ => 0)

/-- Summing an indicator for a single candidate over a duplicate-free list
gives at most the weight once. -/
theorem sum_map_ite_le (c : α) (w : ℕ) : ∀ A : List α, A.Nodup →
    (A.map (fun b => if b = c then w else 0)).sum ≤ w := by
  intro A
  induction A with
  | nil => intro _; simp
  | cons a A ih =>
      intro hnd
      have hnd' : A.Nodup := List.Nodup.of_cons hnd
      by_cases hac : a = c
      · subst hac
        have hcA : a ∉ A := (List.nodup_cons.mp hnd).1
        have hz : (A.map (fun b => if b = a then w else 0)).sum = 0 := by
          apply List.sum_eq_zero
          intro x hx
          simp only [List.mem_map] at hx
          obtain ⟨b, hbA, hbx⟩ := hx
          have hba : b ≠ a := fun hbc => hcA (hbc ▸ hbA)
          simpa [hba] using hbx.symm
        rw [List.map_cons, List.sum_cons, hz, if_pos rfl]
        omega
      · simp only [List.map_cons, List.sum_cons, if_neg hac, Nat.zero_add]
        exact ih hnd'

/-- The first-choice counts over a duplicate-free candidate list sum to at
most the total number of ballots. -/
theorem sum_first_choice_count_le (A : List α) (hnd : A.Nodup)
    (P : Profile α) :
    (A.map (first_choice_count P)).sum ≤ number_of_ballots_in_profile P := by
  induction P with
  | nil =>
      simp [first_choice_count, number_of_ballots_in_profile]
  | cons bw P ih =>
      have hsplit : ∀ a, first_choice_count (bw :: P) a =
          (match bw.1 with
            | some c :: _ => if a = c then bw.2 else 0
            | _ => 0) + first_choice_count P a := by
        intro a
        rw [first_choice_count_eq_sum, first_choice_count_eq_sum]
        simp
      have : (A.map (first_choice_count (bw :: P))).sum =
          (A.map (fun a =>
            (match bw.1 with
              | some c :: _ => if a = c then bw.2 else 0
              | _ => 0))).sum + (A.map (first_choice_count P)).sum := by
        rw [← List.sum_map_add]
        congr 1
        exact List.map_congr_left (fun a _ => hsplit a)
      rw [this]
      have hone : (A.map (fun a =>
          (match bw.1 with
            | some c :: _ => if a = c then bw.2 else 0
            | _ => 0))).sum ≤ bw.2 := by
        rcases hb : bw.1 with _ | ⟨x, rest⟩
        · simp
        · rcases x with _ | c
          · simp
          · simpa [hb] using sum_map_ite_le c bw.2 A hnd
      have : number_of_ballots_in_profile (bw :: P) =
          bw.2 + number_of_ballots_in_profile P := by
        simp [number_of_ballots_in_profile]
      omega

/-- C8: `majority_winner` returns `a` iff `a`'s first-choice count strictly
exceeds half (exact rational half) of the total profile weight; otherwise it
returns `None`.  The `n/2` integer comparison of the code is equivalent to
the strict rational-half condition. -/
theorem majority_winner_iff (A : List α) (P : Profile α) (params : Params)
    (hA : A ≠ []) (hnd : A.Nodup) (a : α) :
    majority_winner A P params = some a ↔
      a ∈ A ∧ (number_of_ballots_in_profile P : ℚ) / 2 <
        (first_choice_count P a : ℚ) := by
  set n := number_of_ballots_in_profile P with hn
  have hL : (((A.map fun a => toLex (first_choice_count P a, a)).insertionSort
      (· ≤ ·)).reverse) ≠ [] := by
    intro hnil
    apply hA
    have := congrArg List.length hnil
    simp only [List.length_reverse, List.length_insertionSort,
      List.length_map, List.length_nil] at this
    exact List.eq_nil_of_length_eq_zero this
  obtain ⟨p, rest, hps⟩ := List.exists_cons_of_ne_nil hL
  obtain ⟨hpmem, hpmax⟩ := cons_of_reverse_insertionSort _ p rest hps
  obtain ⟨b, hbA, hbp⟩ := List.mem_map.mp hpmem
  have hpfst : (ofLex p).1 = first_choice_count P b := by rw [← hbp]; rfl
  have hpsnd : (ofLex p).2 = b := by rw [← hbp]; rfl
  have hmax : ∀ c ∈ A, first_choice_count P c ≤ (ofLex p).1 := by
    intro c hc
    have hmem : toLex (first_choice_count P c, c) ∈
        A.map fun a => toLex (first_choice_count P a, a) :=
      List.mem_map.mpr ⟨c, hc, rfl⟩
    have hle := hpmax _ hmem
    have hle' : toLex (first_choice_count P c, c) ≤ toLex (ofLex p) := hle
    rcases (Prod.Lex.le_iff _ _).mp hle' with h1 | h2
    · exact le_of_lt h1
    · exact le_of_eq h2.1
  have hhalf : ∀ c : ℕ, (n / 2 < c) ↔ ((n : ℚ) / 2 < (c : ℚ)) := by
    intro c
    rw [Nat.div_lt_iff_lt_mul (by norm_num : 0 < 2)]
    rw [div_lt_iff₀ (by norm_num : (0:ℚ) < 2)]
    constructor
    · intro h
      exact_mod_cast h
    · intro h
      exact_mod_cast h
  have hmw : majority_winner A P params =
      if n / 2 < (ofLex p).1 then some (ofLex p).2 else none := by
    unfold majority_winner
    rw [← hn]
    unfold first_choice_counts
    rw [hps]
  constructor
  · intro h
    rw [hmw] at h
    by_cases hcond : n / 2 < (ofLex p).1
    · rw [if_pos hcond] at h
      have hab : a = b := by
        have := Option.some.inj h
        rw [← this, hpsnd]
      subst hab
      refine ⟨hbA, ?_⟩
      rw [← hhalf]
      rw [hpfst] at hcond
      exact hcond
    · rw [if_neg hcond] at h
      exact absurd h (by simp)
  · rintro ⟨haA, hagt⟩
    rw [← hhalf] at hagt
    have hple : first_choice_count P a ≤ (ofLex p).1 := hmax a haA
    have hcond : n / 2 < (ofLex p).1 := lt_of_lt_of_le hagt hple
    rw [hmw, if_pos hcond]
    -- the winner's own count also strictly exceeds n/2, and two candidates
    -- cannot both do so because the counts sum to at most n
    have hbgt : n / 2 < first_choice_count P b := by rw [← hpfst]; exact hcond
    have hagt' : n / 2 < first_choice_count P a := hagt
    have hab : a = b := by
      by_contra hne
      have hsum := sum_first_choice_count_le A hnd P
      have hpair : first_choice_count P a + first_choice_count P b ≤
          (A.map (first_choice_count P)).sum := by
        have h1 : A.Perm (a :: A.erase a) := List.perm_cons_erase haA
        have hsum1 : (A.map (first_choice_count P)).sum =
            first_choice_count P a + ((A.erase a).map (first_choice_count P)).sum := by
          have := (h1.map (first_choice_count P)).sum_eq
          simpa using this
        have hb' : b ∈ A.erase a :=
          (List.mem_erase_of_ne (Ne.symm hne)).mpr hbA
        have hble : first_choice_count P b ≤
            ((A.erase a).map (first_choice_count P)).sum :=
          List.single_le_sum (fun x _ => Nat.zero_le x) _
            (List.mem_map.mpr ⟨b, hb', rfl⟩)
        omega
      omega
    rw [hpsnd, hab]

/-- Witness for `majority_winner_iff` at a concrete election. -/
theorem majority_winner_iff_witness :
    (([0,1] : List ℕ) ≠ [] ∧ ([0,1] : List ℕ).Nodup) ∧
    (majority_winner [0,1] [([some 0],2),([some 1],1)] none = some 0 ↔
      0 ∈ ([0,1] : List ℕ) ∧
        (number_of_ballots_in_profile
            ([([some 0],2),([some 1],1)] : Profile ℕ) : ℚ) / 2 <
          (first_choice_count ([([some 0],2),([some 1],1)] : Profile ℕ) 0 : ℚ)) :=
  ⟨⟨by decide, by decide⟩,
    majority_winner_iff [0,1] [([some 0],2),([some 1],1)] none
      (by decide) (by decide) 0⟩

/-! ### The random GT winner picker (`non_uniform_picker`) -/

/-- The `for prob,cand in zip(x,L)` loop of `non_uniform_picker`, with the
uniform draw `test_value` passed in as `t`. -/
def non_uniform_picker_loop {β : Type} (ps : List (ℚ × β)) (cum t : ℚ) :
    Option β :=
  match ps with
  | [] => none
  | (prob, cand) :: rest =>
      if cum + prob > t then some cand
      else non_uniform_picker_loop rest (cum + prob) t

/-- `non_uniform_picker(x, L)` from `vs.py`, with the `random.random()` draw
made explicit as the argument `t`: scan the cumulative probabilities and
return the first candidate whose cumulative probability exceeds `t`; if none
does, fall back to `L[0]`. -/
def non_uniform_picker {β : Type} (x : List ℚ) (L : List β) (t : ℚ) :
    Option β :=
  match non_uniform_picker_loop (x.zip L) 0 t with
  | some c => some c
  | none => L.head?

theorem non_uniform_picker_loop_mem {β : Type} (ps : List (ℚ × β)) :
    ∀ cum t c, non_uniform_picker_loop ps cum t = some c →
      c ∈ ps.map Prod.snd := by
  induction ps with
  | nil => intro cum t c h; simp [non_uniform_picker_loop] at h
  | cons p rest ih =>
      intro cum t c h
      rw [non_uniform_picker_loop] at h
      by_cases hc : cum + p.1 > t
      · rw [if_pos hc] at h
        simp [← Option.some.inj h]
      · rw [if_neg hc] at h
        simp only [List.map_cons, List.mem_cons]
        exact Or.inr (ih _ _ _ h)

theorem non_uniform_picker_loop_none_iff {β : Type} (ps : List (ℚ × β))
    (t : ℚ) : ∀ cum,
    (non_uniform_picker_loop ps cum t = none ↔
      ∀ i < ps.length, ¬ t < cum + ((ps.map Prod.fst).take (i+1)).sum) := by
  induction ps with
  | nil => intro cum; simp [non_uniform_picker_loop]
  | cons p rest ih =>
      intro cum
      rw [non_uniform_picker_loop]
      by_cases hc : cum + p.1 > t
      · rw [if_pos hc]
        simp only [List.length_cons, List.map_cons]
        constructor
        · intro h; exact absurd h (by simp)
        · intro h
          exact absurd (by simpa using hc) (by simpa using h 0 (Nat.succ_pos _))
      · rw [if_neg hc, ih (cum + p.1)]
        constructor
        · intro h i hi
          match i with
          | 0 => simpa using hc
          | j + 1 =>
              have := h j (by simpa using hi)
              simp only [List.map_cons, List.take_succ_cons, List.sum_cons]
              intro habs
              exact this (by linarith)
        · intro h i hi
          have := h (i+1) (by simpa using hi)
          simp only [List.map_cons, List.take_succ_cons, List.sum_cons] at this
          intro habs
          exact this (by linarith)

theorem non_uniform_picker_loop_first {β : Type} (ps : List (ℚ × β))
    (t : ℚ) : ∀ cum i (hi : i < ps.length),
    t < cum + ((ps.map Prod.fst).take (i+1)).sum →
    (∀ j < i, ¬ t < cum + ((ps.map Prod.fst).take (j+1)).sum) →
    non_uniform_picker_loop ps cum t = some (ps.get ⟨i, hi⟩).2 := by
  induction ps with
  | nil => intro cum i hi; exact absurd hi (by simp)
  | cons p rest ih =>
      intro cum i hi hgt hmin
      rw [non_uniform_picker_loop]
      match i with
      | 0 =>
          have : t < cum + p.1 := by
            simpa using hgt
          rw [if_pos this]
          rfl
      | j + 1 =>
          have h0 : ¬ t < cum + p.1 := by
            simpa using hmin 0 (Nat.succ_pos _)
          rw [if_neg h0]
          have hj : j < rest.length := by simpa using hi
          have hgt' : t < (cum + p.1) + ((rest.map Prod.fst).take (j+1)).sum := by
            simp only [List.map_cons, List.take_succ_cons, List.sum_cons] at hgt
            linarith
          have hmin' : ∀ k < j,
              ¬ t < (cum + p.1) + ((rest.map Prod.fst).take (k+1)).sum := by
            intro k hk
            have := hmin (k+1) (by omega)
            simp only [List.map_cons, List.take_succ_cons, List.sum_cons] at this
            intro habs
            exact this (by linarith)
          rw [ih (cum + p.1) j hj hgt' hmin']
          rfl

/-- C10: for every nonempty candidate list and probability list of the same
length, `non_uniform_picker` returns an element of `L`: the first candidate
whose cumulative probability strictly exceeds the draw, falling back to
`L[0]` when no prefix sum exceeds it. -/
theorem non_uniform_picker_spec {β : Type} (x : List ℚ) (L : List β) (t : ℚ)
    (hL : L ≠ []) (hlen : x.length = L.length) :
    (∃ c, non_uniform_picker x L t = some c ∧ c ∈ L) ∧
    (∀ i, i < x.length → t < (x.take (i+1)).sum →
      (∀ j < i, ¬ t < (x.take (j+1)).sum) →
      non_uniform_picker x L t = L[i]?) ∧
    ((∀ i < x.length, ¬ t < (x.take (i+1)).sum) →
      non_uniform_picker x L t = L.head?) := by
  have hxle : x.length ≤ L.length := le_of_eq hlen
  have hLle : L.length ≤ x.length := le_of_eq hlen.symm
  have hfst : (x.zip L).map Prod.fst = x := List.map_fst_zip x L hxle
  have hsnd : (x.zip L).map Prod.snd = L := List.map_snd_zip x L hLle
  have hzlen : (x.zip L).length = x.length := by
    rw [List.length_zip]; omega
  refine ⟨?_, ?_, ?_⟩
  · rcases hres : non_uniform_picker_loop (x.zip L) 0 t with _ | c
    · refine ⟨L.head hL, ?_, List.head_mem hL⟩
      unfold non_uniform_picker
      rw [hres, List.head?_eq_head hL]
    · refine ⟨c, ?_, ?_⟩
      · unfold non_uniform_picker
        rw [hres]
      · have := non_uniform_picker_loop_mem (x.zip L) 0 t c hres
        rwa [hsnd] at this
  · intro i hix hgt hmin
    have hi : i < (x.zip L).length := by omega
    have hgt' : t < 0 + (((x.zip L).map Prod.fst).take (i+1)).sum := by
      rw [hfst, zero_add]; exact hgt
    have hmin' : ∀ j < i,
        ¬ t < 0 + (((x.zip L).map Prod.fst).take (j+1)).sum := by
      intro j hj
      rw [hfst, zero_add]; exact hmin j hj
    have := non_uniform_picker_loop_first (x.zip L) t 0 i hi hgt' hmin'
    unfold non_uniform_picker
    rw [this]
    have hiL : i < L.length := by omega
    have : ((x.zip L).get ⟨i, hi⟩).2 = L[i] := by
      simp [List.get_eq_getElem, List.getElem_zip]
    rw [this]
    exact (List.getElem?_eq_getElem hiL).symm
  · intro h
    unfold non_uniform_picker
    have : non_uniform_picker_loop (x.zip L) 0 t = none := by
      rw [non_uniform_picker_loop_none_iff]
      intro i hi
      rw [hfst, zero_add]
      exact h i (by omega)
    rw [this]

/-- Witness for `non_uniform_picker_spec` at a concrete input. -/
theorem non_uniform_picker_spec_witness :
    (([0,1] : List ℕ) ≠ [] ∧ ([(1:ℚ)/2, 1/2]).length = ([0,1] : List ℕ).length) ∧
    ((∃ c, non_uniform_picker [(1:ℚ)/2, 1/2] [0,1] (3/4) = some c ∧
        c ∈ ([0,1] : List ℕ)) ∧
     (∀ i, i < ([(1:ℚ)/2, 1/2]).length →
        (3/4 : ℚ) < (([(1:ℚ)/2, 1/2]).take (i+1)).sum →
        (∀ j < i, ¬ (3/4 : ℚ) < (([(1:ℚ)/2, 1/2]).take (j+1)).sum) →
        non_uniform_picker [(1:ℚ)/2, 1/2] [0,1] (3/4) = ([0,1] : List ℕ)[i]?) ∧
     ((∀ i < ([(1:ℚ)/2, 1/2]).length,
        ¬ (3/4 : ℚ) < (([(1:ℚ)/2, 1/2]).take (i+1)).sum) →
        non_uniform_picker [(1:ℚ)/2, 1/2] [0,1] (3/4) =
          ([0,1] : List ℕ).head?)) :=
  ⟨⟨by decide, by decide⟩,
    non_uniform_picker_spec [(1:ℚ)/2, 1/2] [0,1] (3/4) (by decide) (by decide)⟩

/-! ### Minimax -/

/-- Python's `max` over a list of integers (the empty case raises in Python
and is given the junk value 0 here; it is never reached from a nonempty
candidate list). -/
def pymax : List ℤ → ℤ
  | [] => 0
  | x :: xs => xs.foldl max x

theorem foldl_max_spec {γ : Type} [LinearOrder γ] (xs : List γ) : ∀ acc : γ,
    (acc ≤ xs.foldl max acc ∧ ∀ y ∈ xs, y ≤ xs.foldl max acc) ∧
    (xs.foldl max acc = acc ∨ xs.foldl max acc ∈ xs) := by
  induction xs with
  | nil => intro acc; simp
  | cons x xs ih =>
      intro acc
      simp only [List.foldl_cons]
      obtain ⟨⟨hle, hall⟩, hmem⟩ := ih (max acc x)
      refine ⟨⟨le_trans (le_max_left _ _) hle, ?_⟩, ?_⟩
      · intro y hy
        rcases List.mem_cons.mp hy with h1 | h2
        · rw [h1]; exact le_trans (le_max_right acc x) hle
        · exact hall y h2
      · rcases hmem with h1 | h2
        · rcases max_choice acc x with h3 | h3
          · exact Or.inl (h1.trans h3)
          · exact Or.inr (by rw [h1, h3]; exact List.mem_cons_self x xs)
        · exact Or.inr (List.mem_cons_of_mem x h2)

theorem pymax_mem (l : List ℤ) (h : l ≠ []) : pymax l ∈ l := by
  match l with
  | x :: xs =>
      rcases (foldl_max_spec xs x).2 with h1 | h2
      · rw [pymax, h1]; exact List.mem_cons_self x xs
      · exact List.mem_cons_of_mem x h2

theorem le_pymax (l : List ℤ) (y : ℤ) (hy : y ∈ l) : y ≤ pymax l := by
  match l with
  | x :: xs =>
      rcases List.mem_cons.mp hy with h1 | h2
      · exact h1 ▸ (foldl_max_spec xs x).1.1
      · exact (foldl_max_spec xs x).1.2 y h2

/-- One iteration of the winner-selection loop of `minimax_winner` (and of
the structurally identical loops elsewhere): keep the pair with the
lexicographically smaller `(score, TB)` value. -/
def minimax_step (f : α → ℤ) (TB : α → ℕ) (st : Option (ℤ × α)) (a : α) :
    Option (ℤ × α) :=
  match st with
  | none => some (f a, a)
  | some (min_score, winner) =>
      if f a < min_score ∨ (f a = min_score ∧ TB a < TB winner)
      then some (f a, a) else some (min_score, winner)

/-- `minimax_winner(A,P,params)` from `vs.py`, with the global tie-break
dict `TB` passed explicitly.  `a_score = max([margin[b,a] for b in A])`. -/
def minimax_winner (A : List α) (P : Profile α) (params : Params)
    (TB : α → ℕ) : Option α :=
  let margin := pairwise_margins A P params
  let score := fun a => pymax (A.map fun b => margin b a)
  (A.foldl (minimax_step score TB) none).map (·.2)

theorem minimax_fold_spec (f : α → ℤ) (TB : α → ℕ) :
    ∀ (l : List α) (m : ℤ) (w : α), m = f w →
    ∃ w', l.foldl (minimax_step f TB) (some (m, w)) = some (f w', w') ∧
      (w' = w ∨ w' ∈ l) ∧
      (f w' < f w ∨ (f w' = f w ∧ TB w' ≤ TB w)) ∧
      ∀ a ∈ l, f w' < f a ∨ (f w' = f a ∧ TB w' ≤ TB a) := by
  intro l
  induction l with
  | nil =>
      intro m w hm
      exact ⟨w, by rw [List.foldl_nil, hm], Or.inl rfl,
        Or.inr ⟨rfl, le_refl _⟩, by simp⟩
  | cons a l ih =>
      intro m w hm
      simp only [List.foldl_cons]
      by_cases hrepl : f a < m ∨ (f a = m ∧ TB a < TB w)
      · rw [minimax_step, if_pos hrepl]
        obtain ⟨w', heq, hmem, hrel, hall⟩ := ih (f a) a rfl
        refine ⟨w', heq, ?_, ?_, ?_⟩
        · rcases hmem with h1 | h2
          · exact Or.inr (h1 ▸ List.mem_cons_self a l)
          · exact Or.inr (List.mem_cons_of_mem a h2)
        · -- (f w', TB w') ≤lex (f a, TB a) <lex (f w, TB w)
          subst hm
          rcases hrel with h1 | h2 <;> rcases hrepl with g1 | g2
          · exact Or.inl (h1.trans g1)
          · exact Or.inl (lt_of_lt_of_le h1 (le_of_eq g2.1))
          · exact Or.inl (lt_of_le_of_lt (le_of_eq h2.1) g1)
          · exact Or.inr ⟨h2.1.trans g2.1, le_trans h2.2 (le_of_lt g2.2)⟩
        · intro b hb
          rcases List.mem_cons.mp hb with h1 | h2
          · subst h1
            rcases hrel with h1 | h2
            · exact Or.inl h1
            · exact Or.inr h2
          · exact hall b h2
      · rw [minimax_step, if_neg hrepl]
        obtain ⟨w', heq, hmem, hrel, hall⟩ := ih m w hm
        push_neg at hrepl
        refine ⟨w', heq, ?_, hrel, ?_⟩
        · rcases hmem with h1 | h2
          · exact Or.inl h1
          · exact Or.inr (List.mem_cons_of_mem a h2)
        · intro b hb
          rcases List.mem_cons.mp hb with h1 | h2
          · -- b = a was not better than (m, w); w' is at least as good as w
            subst h1 hm
            rcases lt_trichotomy (f b) (f w) with g1 | g2 | g3
            · exact absurd g1 (by simpa using hrepl.1)
            · have hTBb : TB w ≤ TB b := hrepl.2 g2
              rcases hrel with h1 | h2
              · exact Or.inl (g2 ▸ h1)
              · exact Or.inr ⟨h2.1.trans g2.symm, le_trans h2.2 hTBb⟩
            · rcases hrel with h1 | h2
              · exact Or.inl (h1.trans g3)
              · exact Or.inl (lt_of_le_of_lt (le_of_eq h2.1) g3)
          · exact hall b h2

theorem pairwise_margins_self (A : List α) (P : Profile α) (params : Params)
    (a : α) : pairwise_margins A P params a a = 0 := by
  simp [pairwise_margins]

theorem pairwise_margins_antisymm (A : List α) (P : Profile α)
    (params : Params) (a b : α) :
    pairwise_margins A P params a b = - pairwise_margins A P params b a := by
  simp [pairwise_margins]

/-- The worst-case margin of `a` against its rivals only, following the
wording of the claim: `max over b ≠ a of margin[b,a]` (the code instead
takes the max over all `b` including `a` itself). -/
def rival_worst_margin (A : List α) (P : Profile α) (params : Params)
    (a : α) : ℤ :=
  pymax ((A.filter (fun b => b ≠ a)).map
    fun b => pairwise_margins A P params b a)

theorem code_score_eq_max_zero_rival (A : List α) (P : Profile α)
    (params : Params) (a : α) (ha : a ∈ A) :
    pymax (A.map fun b => pairwise_margins A P params b a) =
      max 0 (rival_worst_margin A P params a) := by
  have hAne : A ≠ [] := fun h => by simp [h] at ha
  have hL2 : (0:ℤ) ≤ pymax (A.map fun b => pairwise_margins A P params b a) := by
    have hm : pairwise_margins A P params a a ∈
        A.map fun b => pairwise_margins A P params b a :=
      List.mem_map.mpr ⟨a, ha, rfl⟩
    have hle := le_pymax _ _ hm
    rw [pairwise_margins_self A P params a] at hle
    exact hle
  have hL1 : rival_worst_margin A P params a ≤
      pymax (A.map fun b => pairwise_margins A P params b a) := by
    rcases hfil : A.filter (fun b => b ≠ a) with _ | ⟨c, cs⟩
    · rw [rival_worst_margin, hfil]
      exact hL2
    · have hmem : rival_worst_margin A P params a ∈
          (A.filter (fun b => b ≠ a)).map
            fun b => pairwise_margins A P params b a := by
        rw [rival_worst_margin]
        exact pymax_mem _ (by rw [hfil]; simp)
      obtain ⟨b, hb, hba⟩ := List.mem_map.mp hmem
      have hbA : b ∈ A := (List.mem_filter.mp hb).1
      have hm : pairwise_margins A P params b a ∈
          A.map fun b => pairwise_margins A P params b a :=
        List.mem_map.mpr ⟨b, hbA, rfl⟩
      rw [← hba]
      exact le_pymax _ _ hm
  have hL3 : pymax (A.map fun b => pairwise_margins A P params b a) = 0 ∨
      pymax (A.map fun b => pairwise_margins A P params b a) ≤
        rival_worst_margin A P params a := by
    have hmemSC : pymax (A.map fun b => pairwise_margins A P params b a) ∈
        A.map fun b => pairwise_margins A P params b a :=
      pymax_mem _ (by simpa using hAne)
    obtain ⟨b0, hb0A, hb0⟩ := List.mem_map.mp hmemSC
    by_cases hb0a : b0 = a
    · subst hb0a
      rw [← hb0, pairwise_margins_self]
      exact Or.inl rfl
    · right
      have hb0fil : b0 ∈ A.filter (fun b => b ≠ a) :=
        List.mem_filter.mpr ⟨hb0A, by simpa using hb0a⟩
      have hm : pairwise_margins A P params b0 a ∈
          (A.filter (fun b => b ≠ a)).map
            fun b => pairwise_margins A P params b a :=
        List.mem_map.mpr ⟨b0, hb0fil, rfl⟩
      rw [← hb0]
      exact le_pymax _ _ hm
  omega

theorem rival_neg_unique (A : List α) (P : Profile α) (params : Params)
    (a b : α) (haA : a ∈ A) (hbA : b ∈ A) (hab : a ≠ b)
    (hneg : rival_worst_margin A P params a < 0) :
    0 < rival_worst_margin A P params b := by
  set margin := pairwise_margins A P params with hmargin
  have h1 : margin b a ≤ rival_worst_margin A P params a := by
    apply le_pymax
    exact List.mem_map.mpr
      ⟨b, List.mem_filter.mpr ⟨hbA, by simpa using hab.symm⟩, rfl⟩
  have h2 : margin a b ≤ rival_worst_margin A P params b := by
    apply le_pymax
    exact List.mem_map.mpr
      ⟨a, List.mem_filter.mpr ⟨haA, by simpa using hab⟩, rfl⟩
  have h3 : margin a b = - margin b a := pairwise_margins_antisymm A P params a b
  omega

theorem lex_transfer_rival (A : List α) (P : Profile α) (params : Params)
    (TB : α → ℕ) (w a : α) (hw : w ∈ A) (ha : a ∈ A)
    (h : max 0 (rival_worst_margin A P params w) <
          max 0 (rival_worst_margin A P params a) ∨
        (max 0 (rival_worst_margin A P params w) =
          max 0 (rival_worst_margin A P params a) ∧ TB w ≤ TB a)) :
    rival_worst_margin A P params w < rival_worst_margin A P params a ∨
      (rival_worst_margin A P params w = rival_worst_margin A P params a ∧
        TB w ≤ TB a) := by
  by_cases huv : rival_worst_margin A P params w =
      rival_worst_margin A P params a
  · rcases h with h1 | h2
    · rw [huv] at h1
      exact absurd h1 (lt_irrefl _)
    · exact Or.inr ⟨huv, h2.2⟩
  · left
    by_contra hnot
    push_neg at hnot
    have hva : rival_worst_margin A P params a <
        rival_worst_margin A P params w := lt_of_le_of_ne hnot (Ne.symm huv)
    by_cases hvneg : rival_worst_margin A P params a < 0
    · -- a's rival-worst is negative, so w's must be positive; then the
      -- clamped scores also order w strictly above a, contradicting h
      have hwa : a ≠ w := fun hx => huv (by rw [hx])
      have hupos := rival_neg_unique A P params a w ha hw hwa hvneg
      have hMu : max 0 (rival_worst_margin A P params w) =
          rival_worst_margin A P params w := max_eq_right (le_of_lt hupos)
      have hMv : max 0 (rival_worst_margin A P params a) = 0 :=
        max_eq_left (le_of_lt hvneg)
      rcases h with h1 | h2 <;> omega
    · -- both nonnegative: the clamped scores coincide with the raw ones
      push_neg at hvneg
      have hMu : max 0 (rival_worst_margin A P params w) =
          rival_worst_margin A P params w :=
        max_eq_right (le_trans hvneg (le_of_lt hva))
      have hMv : max 0 (rival_worst_margin A P params a) =
          rival_worst_margin A P params a := max_eq_right hvneg
      rcases h with h1 | h2 <;> omega

/-- C7: `minimax_winner` returns the alternative minimizing its worst-case
margin against its rivals (`max over b ≠ a of margin[b,a]`), with ties among
minimizers broken in favor of the lowest TB value. -/
theorem minimax_winner_spec (A : List α) (P : Profile α) (params : Params)
    (TB : α → ℕ) (hA : A ≠ []) :
    ∃ w ∈ A, minimax_winner A P params TB = some w ∧
      ∀ a ∈ A,
        rival_worst_margin A P params w < rival_worst_margin A P params a ∨
        (rival_worst_margin A P params w = rival_worst_margin A P params a ∧
          TB w ≤ TB a) := by
  obtain ⟨a0, rest, hArest⟩ := List.exists_cons_of_ne_nil hA
  subst hArest
  obtain ⟨w', heq, hmem, hrel, hall⟩ :=
    minimax_fold_spec
      (fun a => pymax ((a0 :: rest).map
        fun b => pairwise_margins (a0 :: rest) P params b a)) TB
      rest (pymax ((a0 :: rest).map
        fun b => pairwise_margins (a0 :: rest) P params b a0)) a0 rfl
  have hwA : w' ∈ a0 :: rest := by
    rcases hmem with h1 | h2
    · exact h1 ▸ List.mem_cons_self a0 rest
    · exact List.mem_cons_of_mem a0 h2
  have hwin : minimax_winner (a0 :: rest) P params TB = some w' := by
    show ((a0 :: rest).foldl (minimax_step
      (fun a => pymax ((a0 :: rest).map
        fun b => pairwise_margins (a0 :: rest) P params b a)) TB)
      none).map (·.2) = some w'
    rw [List.foldl_cons]
    have hstep : minimax_step
        (fun a => pymax ((a0 :: rest).map
          fun b => pairwise_margins (a0 :: rest) P params b a)) TB
        none a0 =
        some (pymax ((a0 :: rest).map
          fun b => pairwise_margins (a0 :: rest) P params b a0), a0) := rfl
    rw [hstep, heq]
    rfl
  refine ⟨w', hwA, hwin, ?_⟩
  intro a haA
  have hSC : pymax ((a0 :: rest).map
        fun b => pairwise_margins (a0 :: rest) P params b w') <
        pymax ((a0 :: rest).map
          fun b => pairwise_margins (a0 :: rest) P params b a) ∨
      (pymax ((a0 :: rest).map
        fun b => pairwise_margins (a0 :: rest) P params b w') =
        pymax ((a0 :: rest).map
          fun b => pairwise_margins (a0 :: rest) P params b a) ∧
        TB w' ≤ TB a) := by
    rcases List.mem_cons.mp haA with h1 | h2
    · exact h1 ▸ hrel
    · exact hall a h2
  rw [code_score_eq_max_zero_rival (a0 :: rest) P params w' hwA,
      code_score_eq_max_zero_rival (a0 :: rest) P params a haA] at hSC
  exact lex_transfer_rival (a0 :: rest) P params TB w' a hwA haA hSC

/-- Witness for `minimax_winner_spec` at a concrete election. -/
theorem minimax_winner_spec_witness :
    (([0,1] : List ℕ) ≠ []) ∧
    (∃ w ∈ ([0,1] : List ℕ),
      minimax_winner [0,1] [([some 0, some 1], 3)] none (fun a => a) = some w ∧
      ∀ a ∈ ([0,1] : List ℕ),
        rival_worst_margin [0,1] [([some 0, some 1], 3)] none w <
          rival_worst_margin [0,1] [([some 0, some 1], 3)] none a ∨
        (rival_worst_margin [0,1] [([some 0, some 1], 3)] none w =
          rival_worst_margin [0,1] [([some 0, some 1], 3)] none a ∧
          (fun a : ℕ => a) w ≤ (fun a : ℕ => a) a)) :=
  ⟨by decide,
    minimax_winner_spec [0,1] [([some 0, some 1], 3)] none (fun a => a)
      (by decide)⟩

/-! ### The GT resolver: QP post-processing, GTD winner, GTS support -/

/-- Python's `min` over a list of rationals (junk value 0 on the empty list,
which raises in Python). -/
def pyminQ : List ℚ → ℚ
  | [] => 0
  | x :: xs => xs.foldl min x

theorem foldl_min_spec {γ : Type} [LinearOrder γ] (xs : List γ) : ∀ acc : γ,
    (xs.foldl min acc ≤ acc ∧ ∀ y ∈ xs, xs.foldl min acc ≤ y) := by
  induction xs with
  | nil => intro acc; simp
  | cons x xs ih =>
      intro acc
      simp only [List.foldl_cons]
      obtain ⟨hle, hall⟩ := ih (min acc x)
      refine ⟨le_trans hle (min_le_left _ _), ?_⟩
      intro y hy
      rcases List.mem_cons.mp hy with h1 | h2
      · rw [h1]; exact le_trans hle (min_le_right acc x)
      · exact hall y h2

theorem pyminQ_le (l : List ℚ) (y : ℚ) (hy : y ∈ l) : pyminQ l ≤ y := by
  match l with
  | x :: xs =>
      rcases List.mem_cons.mp hy with h1 | h2
      · exact h1 ▸ (foldl_min_spec xs x).1
      · exact (foldl_min_spec xs x).2 y h2

/-- The all-positive shifted constraint matrix built by `qp_solver`:
`M = -payoff.trans()`, `v = max(1.0, -2.0*min(M))`, `M = M + v`. -/
def qp_shifted_matrix (m : ℕ) (payoff : ℕ → ℕ → ℚ) : ℕ → ℕ → ℚ :=
  let Mneg := fun i j => -(payoff j i)
  let v := max 1 (-2 * pyminQ (((List.range m).map
    (fun i => (List.range m).map fun j => Mneg i j)).flatten))
  fun i j => Mneg i j + v

/-- The post-processing of the raw QP solver output in `qp_solver`: clamp
slightly negative components to zero (`x[i] = max(0.0, x[i])`), then
normalize by the sum (`x = [xi / sumx for xi in x]`). -/
def qp_solver_post (m : ℕ) (sol : ℕ → ℚ) : List ℚ :=
  let clamped := (List.range m).map (fun i => max 0 (sol i))
  let sumx := clamped.sum
  clamped.map (fun xi => xi / sumx)

/-- Python's `max` over a general linearly ordered type, as an `Option`. -/
def pymaxO {γ : Type} [LinearOrder γ] : List γ → Option γ
  | [] => none
  | x :: xs => some (xs.foldl max x)

theorem pymaxO_spec {γ : Type} [LinearOrder γ] (l : List γ) (r : γ)
    (h : pymaxO l = some r) : r ∈ l ∧ ∀ y ∈ l, y ≤ r := by
  match l with
  | x :: xs =>
      have hr : r = xs.foldl max x := (Option.some.inj h).symm
      obtain ⟨⟨hle, hall⟩, hmem⟩ := foldl_max_spec xs x
      subst hr
      refine ⟨?_, ?_⟩
      · rcases hmem with h1 | h2
        · rw [h1]; exact List.mem_cons_self x xs
        · exact List.mem_cons_of_mem x h2
      · intro y hy
        rcases List.mem_cons.mp hy with h1 | h2
        · exact h1 ▸ hle
        · exact hall y h2

/-- `gtd_winner`'s selection step: the `[2]` component of
`max([(x[i],-TB[a],a) for i,a in enumerate(A)])`, operating on a supplied
mixed strategy `x`. -/
def gtd_winner_from (A : List α) (TB : α → ℕ) (x : List ℚ) : Option α :=
  (pymaxO ((x.zip A).map fun p =>
    toLex (p.1, toLex ((-(TB p.2 : ℤ)), p.2)))).map
    (fun t => (ofLex (ofLex t).2).2)

/-- `gt_support(A,x)` from `vs.py`: candidates whose probability is at least
`epsilon = 1e-6`. -/
def gt_support (A : List α) (x : List ℚ) : List α :=
  ((x.zip A).filter (fun p => (1:ℚ)/1000000 ≤ p.1)).map Prod.snd

theorem list_sum_nonpos (l : List ℚ) (h : ∀ y ∈ l, y ≤ 0) : l.sum ≤ 0 := by
  induction l with
  | nil => simp
  | cons x xs ih =>
      simp only [List.sum_cons]
      have h1 := h x (List.mem_cons_self x xs)
      have h2 := ih (fun y hy => h y (List.mem_cons_of_mem x hy))
      linarith

theorem list_sum_div (l : List ℚ) (c : ℚ) :
    (l.map (fun y => y / c)).sum = l.sum / c := by
  induction l with
  | nil => simp
  | cons x xs ih => simp [ih, add_div]

/-- Every entry of the shifted matrix is strictly positive. -/
theorem qp_shifted_matrix_pos (m : ℕ) (payoff : ℕ → ℕ → ℚ) (i j : ℕ)
    (hi : i < m) (hj : j < m) : 0 < qp_shifted_matrix m payoff i j := by
  show (0:ℚ) < -(payoff j i) + max 1 (-2 * pyminQ (((List.range m).map
    (fun i => (List.range m).map fun j => -(payoff j i))).flatten))
  have hmem : -(payoff j i) ∈ ((List.range m).map
      (fun i => (List.range m).map fun j => -(payoff j i))).flatten := by
    rw [List.mem_flatten]
    refine ⟨(List.range m).map fun j => -(payoff j i), ?_, ?_⟩
    · exact List.mem_map.mpr ⟨i, List.mem_range.mpr hi, rfl⟩
    · exact List.mem_map.mpr ⟨j, List.mem_range.mpr hj, rfl⟩
  have hle := pyminQ_le _ _ hmem
  have h1 : (1:ℚ) ≤ max 1 (-2 * pyminQ (((List.range m).map
      (fun i => (List.range m).map fun j => -(payoff j i))).flatten)) :=
    le_max_left _ _
  have h2 : -2 * pyminQ (((List.range m).map
      (fun i => (List.range m).map fun j => -(payoff j i))).flatten) ≤
      max 1 (-2 * pyminQ (((List.range m).map
        (fun i => (List.range m).map fun j => -(payoff j i))).flatten)) :=
    le_max_right _ _
  rcases le_or_lt 0 (pyminQ (((List.range m).map
      (fun i => (List.range m).map fun j => -(payoff j i))).flatten)) with hc | hc
  · linarith
  · linarith

/-- If the solver output satisfies the `M x ≥ 1` feasibility constraints,
then some component is strictly positive, so the clamped sum is positive. -/
theorem qp_clamped_sum_pos (m : ℕ) (payoff : ℕ → ℕ → ℚ) (sol : ℕ → ℚ)
    (hm : 0 < m)
    (hfeas : ∀ i < m, 1 ≤ ((List.range m).map
      (fun j => qp_shifted_matrix m payoff i j * sol j)).sum) :
    0 < ((List.range m).map (fun i => max 0 (sol i))).sum := by
  have hex : ∃ j < m, 0 < sol j := by
    by_contra hall
    push_neg at hall
    have hle := hfeas 0 hm
    have hz : ((List.range m).map
        (fun j => qp_shifted_matrix m payoff 0 j * sol j)).sum ≤ 0 := by
      apply list_sum_nonpos
      intro y hy
      obtain ⟨j, hjr, hjy⟩ := List.mem_map.mp hy
      have hjm : j < m := List.mem_range.mp hjr
      have hMpos := qp_shifted_matrix_pos m payoff 0 j hm hjm
      have hsle : sol j ≤ 0 := hall j hjm
      rw [← hjy]
      exact mul_nonpos_of_nonneg_of_nonpos (le_of_lt hMpos) hsle
    linarith
  obtain ⟨j, hjm, hjpos⟩ := hex
  have hmem : max 0 (sol j) ∈ (List.range m).map (fun i => max 0 (sol i)) :=
    List.mem_map.mpr ⟨j, List.mem_range.mpr hjm, rfl⟩
  have hnonneg : ∀ y ∈ (List.range m).map (fun i => max 0 (sol i)), 0 ≤ y := by
    intro y hy
    obtain ⟨k, _, hky⟩ := List.mem_map.mp hy
    rw [← hky]
    exact le_max_left _ _
  have hsingle := List.single_le_sum hnonneg _ hmem
  have : 0 < max 0 (sol j) := lt_max_of_lt_right hjpos
  linarith

/-- C2: whenever the QP solver returns a solution satisfying the `M x ≥ 1`
feasibility constraints of `qp_solver`, the post-processed mixed strategy
(clamp negatives to zero, renormalize) is componentwise nonnegative and sums
to 1 (hence within the 1e-6 tolerance); the GTD winner is an alternative
whose probability is the maximum of `x`, with ties resolved to the lowest TB
value; and the GTS winner set is exactly the set of alternatives with
probability at least 1e-6. -/
theorem qp_gtd_gts_spec (m : ℕ) (payoff : ℕ → ℕ → ℚ) (sol : ℕ → ℚ)
    (A : List α) (TB : α → ℕ) (hm : 0 < m)
    (hfeas : ∀ i < m, 1 ≤ ((List.range m).map
      (fun j => qp_shifted_matrix m payoff i j * sol j)).sum)
    (hA : A.length = m) :
    (∀ xi ∈ qp_solver_post m sol, 0 ≤ xi) ∧
    (qp_solver_post m sol).sum = 1 ∧
    |(qp_solver_post m sol).sum - 1| ≤ 1/1000000 ∧
    (∃ w, gtd_winner_from A TB (qp_solver_post m sol) = some w ∧
      ∃ i, ∃ hi : i < (qp_solver_post m sol).length, ∃ hiA : i < A.length,
        A.get ⟨i, hiA⟩ = w ∧
        (∀ j, ∀ hj : j < (qp_solver_post m sol).length,
          (qp_solver_post m sol).get ⟨j, hj⟩ ≤
            (qp_solver_post m sol).get ⟨i, hi⟩) ∧
        (∀ j, ∀ hj : j < (qp_solver_post m sol).length, ∀ hjA : j < A.length,
          (qp_solver_post m sol).get ⟨j, hj⟩ =
            (qp_solver_post m sol).get ⟨i, hi⟩ →
          TB w ≤ TB (A.get ⟨j, hjA⟩))) ∧
    (∀ a, a ∈ gt_support A (qp_solver_post m sol) ↔
      ∃ i, ∃ hi : i < (qp_solver_post m sol).length, ∃ hiA : i < A.length,
        A.get ⟨i, hiA⟩ = a ∧
          (1:ℚ)/1000000 ≤ (qp_solver_post m sol).get ⟨i, hi⟩) := by
  have hsumpos := qp_clamped_sum_pos m payoff sol hm hfeas
  have hlen : (qp_solver_post m sol).length = m := by
    simp [qp_solver_post]
  have hnonneg : ∀ xi ∈ qp_solver_post m sol, 0 ≤ xi := by
    intro xi hxi
    obtain ⟨y, hy, hyx⟩ := List.mem_map.mp hxi
    obtain ⟨k, _, hky⟩ := List.mem_map.mp hy
    rw [← hyx]
    exact div_nonneg (by rw [← hky]; exact le_max_left _ _)
      (le_of_lt hsumpos)
  have hsum1 : (qp_solver_post m sol).sum = 1 := by
    show (((List.range m).map (fun i => max 0 (sol i))).map
      (fun xi => xi / ((List.range m).map (fun i => max 0 (sol i))).sum)).sum = 1
    rw [list_sum_div]
    exact div_self (ne_of_gt hsumpos)
  refine ⟨hnonneg, hsum1, by rw [hsum1]; norm_num, ?_, ?_⟩
  · -- the GTD winner
    have hzlen : ((qp_solver_post m sol).zip A).length = m := by
      rw [List.length_zip, hlen, hA, Nat.min_self]
    have hzne : ((qp_solver_post m sol).zip A).map (fun p =>
        toLex (p.1, toLex ((-(TB p.2 : ℤ)), p.2))) ≠ [] := by
      intro hnil
      have := congrArg List.length hnil
      rw [List.length_map, hzlen, List.length_nil] at this
      omega
    obtain ⟨t0, ts, hts⟩ := List.exists_cons_of_ne_nil hzne
    have hsome : pymaxO (((qp_solver_post m sol).zip A).map (fun p =>
        toLex (p.1, toLex ((-(TB p.2 : ℤ)), p.2)))) =
        some (ts.foldl max t0) := by
      rw [hts]; rfl
    obtain ⟨hrmem, hrmax⟩ := pymaxO_spec _ _ hsome
    obtain ⟨p, hp, hpr⟩ := List.mem_map.mp hrmem
    obtain ⟨i, hiz, hizp⟩ := List.mem_iff_getElem.mp hp
    have hix : i < (qp_solver_post m sol).length := by omega
    have hiA : i < A.length := by rw [hA]; omega
    have hpi : p = ((qp_solver_post m sol).get ⟨i, hix⟩, A.get ⟨i, hiA⟩) := by
      rw [← hizp]
      simp [List.getElem_zip]
    refine ⟨A.get ⟨i, hiA⟩, ?_, i, hix, hiA, rfl, ?_, ?_⟩
    · show (pymaxO (((qp_solver_post m sol).zip A).map (fun p =>
        toLex (p.1, toLex ((-(TB p.2 : ℤ)), p.2))))).map
        (fun t => (ofLex (ofLex t).2).2) = _
      rw [hsome, ← hpr, hpi]
      rfl
    · intro j hj
      have hjA : j < A.length := by rw [hA]; omega
      have hjz : j < ((qp_solver_post m sol).zip A).length := by omega
      have htj : toLex ((qp_solver_post m sol).get ⟨j, hj⟩,
          toLex ((-(TB (A.get ⟨j, hjA⟩) : ℤ)), A.get ⟨j, hjA⟩)) ∈
          ((qp_solver_post m sol).zip A).map (fun p =>
            toLex (p.1, toLex ((-(TB p.2 : ℤ)), p.2))) := by
        apply List.mem_map.mpr
        refine ⟨((qp_solver_post m sol).get ⟨j, hj⟩, A.get ⟨j, hjA⟩), ?_, rfl⟩
        have : ((qp_solver_post m sol).zip A)[j] =
            ((qp_solver_post m sol).get ⟨j, hj⟩, A.get ⟨j, hjA⟩) := by
          simp [List.getElem_zip]
        rw [← this]
        exact List.getElem_mem hjz
      have hle := hrmax _ htj
      rw [← hpr, hpi] at hle
      dsimp only at hle
      rcases (Prod.Lex.le_iff _ _).mp hle with h1 | h2
      · exact le_of_lt h1
      · exact le_of_eq h2.1
    · intro j hj hjA heq
      have hjz : j < ((qp_solver_post m sol).zip A).length := by omega
      have htj : toLex ((qp_solver_post m sol).get ⟨j, hj⟩,
          toLex ((-(TB (A.get ⟨j, hjA⟩) : ℤ)), A.get ⟨j, hjA⟩)) ∈
          ((qp_solver_post m sol).zip A).map (fun p =>
            toLex (p.1, toLex ((-(TB p.2 : ℤ)), p.2))) := by
        apply List.mem_map.mpr
        refine ⟨((qp_solver_post m sol).get ⟨j, hj⟩, A.get ⟨j, hjA⟩), ?_, rfl⟩
        have : ((qp_solver_post m sol).zip A)[j] =
            ((qp_solver_post m sol).get ⟨j, hj⟩, A.get ⟨j, hjA⟩) := by
          simp [List.getElem_zip]
        rw [← this]
        exact List.getElem_mem hjz
      have hle := hrmax _ htj
      rw [← hpr, hpi] at hle
      dsimp only at hle
      rcases (Prod.Lex.le_iff _ _).mp hle with h1 | h2
      · rw [heq] at h1
        exact absurd h1 (lt_irrefl _)
      · rcases (Prod.Lex.le_iff _ _).mp h2.2 with h3 | h4
        · have : (TB (A.get ⟨i, hiA⟩) : ℤ) < TB (A.get ⟨j, hjA⟩) := by omega
          exact_mod_cast le_of_lt this
        · have : (TB (A.get ⟨i, hiA⟩) : ℤ) = TB (A.get ⟨j, hjA⟩) := by omega
          exact le_of_eq (by exact_mod_cast this)
  · -- the GTS support set
    intro a
    constructor
    · intro ha
      obtain ⟨p, hpf, hpa⟩ := List.mem_map.mp ha
      have hpz := List.mem_filter.mp hpf
      obtain ⟨i, hiz, hizp⟩ := List.mem_iff_getElem.mp hpz.1
      have hzlen : ((qp_solver_post m sol).zip A).length = m := by
        rw [List.length_zip, hlen, hA, Nat.min_self]
      have hix : i < (qp_solver_post m sol).length := by omega
      have hiA : i < A.length := by rw [hA]; omega
      have hpi : p = ((qp_solver_post m sol).get ⟨i, hix⟩, A.get ⟨i, hiA⟩) := by
        rw [← hizp]
        simp [List.getElem_zip]
      refine ⟨i, hix, hiA, ?_, ?_⟩
      · rw [← hpa, hpi]
      · have := hpz.2
        rw [hpi] at this
        simpa using this
    · rintro ⟨i, hix, hiA, hia, hge⟩
      apply List.mem_map.mpr
      refine ⟨((qp_solver_post m sol).get ⟨i, hix⟩, A.get ⟨i, hiA⟩),
        List.mem_filter.mpr ⟨?_, by simpa using hge⟩, hia⟩
      have hzlen : ((qp_solver_post m sol).zip A).length = m := by
        rw [List.length_zip, hlen, hA, Nat.min_self]
      have hiz : i < ((qp_solver_post m sol).zip A).length := by omega
      have : ((qp_solver_post m sol).zip A)[i] =
          ((qp_solver_post m sol).get ⟨i, hix⟩, A.get ⟨i, hiA⟩) := by
        simp [List.getElem_zip]
      rw [← this]
      exact List.getElem_mem hiz

/-- Witness for `qp_gtd_gts_spec` at a concrete solver output. -/
theorem qp_gtd_gts_spec_witness :
    (0 < 1) ∧
    (∀ i < 1, (1:ℚ) ≤ ((List.range 1).map
      (fun j => qp_shifted_matrix 1 (fun _ _ => (0:ℚ)) i j *
        (fun _ => (1:ℚ)) j)).sum) ∧
    (([0] : List ℕ).length = 1) ∧
    (qp_solver_post 1 (fun _ => (1:ℚ))).sum = 1 :=
  ⟨by decide,
    by
      intro i hi
      have hz : i = 0 := by omega
      subst hz
      norm_num [qp_shifted_matrix, pyminQ, List.range_succ],
    by decide,
    (qp_gtd_gts_spec 1 (fun _ _ => (0:ℚ)) (fun _ => (1:ℚ)) ([0] : List ℕ)
      (fun a => a) (by decide)
      (by
        intro i hi
        have hz : i = 0 := by omega
        subst hz
        norm_num [qp_shifted_matrix, pyminQ, List.range_succ])
      (by decide)).2.1⟩

/-! ### IRV -/

/-- The filter used by `ballots_for`: keep entries that are neither `"="`
nor eliminated candidates. -/
def irv_keep (elim : List α) (x : Option α) : Bool :=
  match x with
  | none => false
  | some c => decide (c ∉ elim)

/-- `ballots_for(B, c, elim)` from `vs.py`: ballots whose first remaining
(non-`"="`, non-eliminated) entry is `c`. -/
def ballots_for (B : List (Ballot α)) (c : α) (elim : List α) :
    List (Ballot α) :=
  B.filter (fun ballot =>
    (ballot.filter (irv_keep elim)).head? = some (some c))

/-- `IRV_count(A,P,elim)` at a single candidate: the total multiplicity of
the ballots of `P` voting for `c` once `elim` is eliminated (the sum
`sum([P[b] for b in ballots_for(P.keys(), c, elim)])`, expressed directly
over the profile entries).  The parameter `A` (the dict's key domain in the
Python code) does not affect the count at any candidate. -/
def IRV_count (_A : List α) (P : Profile α) (elim : List α) (c : α) : ℕ :=
  ((P.filter (fun bw =>
    (bw.1.filter (irv_keep elim)).head? = some (some c))).map Prod.snd).sum

/-- The `while len(remaining)>1` elimination loop of `IRV_winner`, with
explicit fuel (the loop runs at most `len(A)-1` times).  Each round sorts
`(count[c], -TB[c], c)` over the remaining candidates and eliminates the
first component of the sorted list. -/
def IRV_loop (A : List α) (P : Profile α) (TB : α → ℕ) :
    ℕ → List α → List α → List α × List α
  | 0, remaining, elim => (remaining, elim)
  | fuel+1, remaining, elim =>
      if 1 < remaining.length then
        match (remaining.map fun c =>
            toLex (IRV_count A P elim c, toLex ((-(TB c : ℤ)), c))).insertionSort
            (· ≤ ·) with
        | [] => (remaining, elim)
        | t :: _ =>
            IRV_loop A P TB fuel (remaining.erase ((ofLex (ofLex t).2).2))
              (elim ++ [(ofLex (ofLex t).2).2])
      else (remaining, elim)

/-- `IRV_winner(A,P,params)` from `vs.py`, with the tie-break dict passed
explicitly: run the elimination loop, return the remaining candidate. -/
def IRV_winner (A : List α) (P : Profile α) (_params : Params)
    (TB : α → ℕ) : Option α :=
  (IRV_loop A P TB A.length A []).1.head?

section SortMinLemma

variable {β : Type} [LinearOrder β]

/-- If the ascending sort of `l` starts with `p`, then `p` is a member of
`l` and a minimum of `l`. -/
theorem cons_of_insertionSort (l : List β) (p : β) (rest : List β)
    (hps : l.insertionSort (· ≤ ·) = p :: rest) :
    p ∈ l ∧ ∀ x ∈ l, p ≤ x := by
  have hs : List.Sorted (· ≤ ·) (p :: rest) := by
    rw [← hps]; exact List.sorted_insertionSort _ l
  have hmemiff : ∀ x : β, x ∈ p :: rest ↔ x ∈ l := by
    intro x
    rw [← hps, (List.perm_insertionSort _ l).mem_iff]
  constructor
  · exact (hmemiff p).mp (List.mem_cons_self p rest)
  · intro x hx
    rcases List.mem_cons.mp ((hmemiff x).mpr hx) with h1 | h2
    · exact le_of_eq h1.symm
    · exact List.rel_of_sorted_cons hs x h2

end SortMinLemma

/-- Behaviour of one full run of the IRV elimination loop: it ends with a
single candidate, performs one elimination per round, and each eliminated
candidate minimizes the current count among those remaining, with count
ties resolved against the candidate with the largest TB value. -/
theorem IRV_loop_spec (A : List α) (P : Profile α) (TB : α → ℕ) :
    ∀ (fuel : ℕ) (remaining elim : List α), remaining ≠ [] →
      remaining.length ≤ fuel + 1 →
    ∃ w elims,
      IRV_loop A P TB fuel remaining elim = ([w], elim ++ elims) ∧
      elims.length = remaining.length - 1 ∧
      w ∈ remaining ∧
      ∀ k, ∀ hk : k < elims.length,
        elims.get ⟨k, hk⟩ ∈
          (elims.take k).foldl (fun l e => l.erase e) remaining ∧
        ∀ c ∈ (elims.take k).foldl (fun l e => l.erase e) remaining,
          IRV_count A P (elim ++ elims.take k) (elims.get ⟨k, hk⟩) ≤
            IRV_count A P (elim ++ elims.take k) c ∧
          (IRV_count A P (elim ++ elims.take k) (elims.get ⟨k, hk⟩) =
            IRV_count A P (elim ++ elims.take k) c →
            TB c ≤ TB (elims.get ⟨k, hk⟩)) := by
  intro fuel
  induction fuel with
  | zero =>
      intro remaining elim hne hlen
      obtain ⟨w, rest, hw⟩ := List.exists_cons_of_ne_nil hne
      have : rest = [] := by
        have := congrArg List.length hw
        simp at this
        rcases rest with _ | ⟨x, xs⟩
        · rfl
        · exfalso
          simp at this
          omega
      subst this
      subst hw
      refine ⟨w, [], ?_, by simp, List.mem_cons_self _ _, by simp⟩
      simp [IRV_loop]
  | succ fuel ih =>
      intro remaining elim hne hlen
      by_cases hlong : 1 < remaining.length
      · -- a genuine elimination round
        have hmapne : (remaining.map fun c =>
            toLex (IRV_count A P elim c, toLex ((-(TB c : ℤ)), c))) ≠ [] := by
          intro h
          apply hne
          simpa using congrArg List.length h
        have hsortne : ((remaining.map fun c =>
            toLex (IRV_count A P elim c, toLex ((-(TB c : ℤ)), c))).insertionSort
            (· ≤ ·)) ≠ [] := by
          intro h
          apply hmapne
          have := congrArg List.length h
          rw [List.length_insertionSort] at this
          exact List.eq_nil_of_length_eq_zero (by simpa using this)
        obtain ⟨t, ts, hts⟩ := List.exists_cons_of_ne_nil hsortne
        obtain ⟨htmem, htmin⟩ := cons_of_insertionSort _ t ts hts
        obtain ⟨c0, hc0mem, hc0⟩ := List.mem_map.mp htmem
        have hloser : (ofLex (ofLex t).2).2 = c0 := by
          rw [← hc0]
          rfl
        have hstep : IRV_loop A P TB (fuel+1) remaining elim =
            IRV_loop A P TB fuel (remaining.erase c0) (elim ++ [c0]) := by
          rw [IRV_loop, if_pos hlong, hts]
          dsimp only
          rw [hloser]
        have hc0len : (remaining.erase c0).length = remaining.length - 1 := by
          rw [List.length_erase_of_mem hc0mem]
        have hne' : remaining.erase c0 ≠ [] := by
          intro h
          have := congrArg List.length h
          rw [hc0len] at this
          simp at this
          omega
        have hlen' : (remaining.erase c0).length ≤ fuel + 1 := by
          rw [hc0len]; omega
        obtain ⟨w, elims', heq, hlen2, hwmem, hsteps⟩ :=
          ih (remaining.erase c0) (elim ++ [c0]) hne' hlen'
        refine ⟨w, c0 :: elims', ?_, ?_, ?_, ?_⟩
        · rw [hstep, heq]
          simp
        · simp only [List.length_cons]
          omega
        · exact List.mem_of_mem_erase hwmem
        · intro k hk
          match k with
          | 0 =>
              simp only [List.take_zero, List.foldl_nil, List.get_cons_zero,
                List.append_nil]
              refine ⟨hc0mem, ?_⟩
              intro c hc
              have hcmem : toLex (IRV_count A P elim c,
                  toLex ((-(TB c : ℤ)), c)) ∈ remaining.map fun c =>
                  toLex (IRV_count A P elim c, toLex ((-(TB c : ℤ)), c)) :=
                List.mem_map.mpr ⟨c, hc, rfl⟩
              have hcle := htmin _ hcmem
              rw [← hc0] at hcle
              rcases (Prod.Lex.le_iff _ _).mp hcle with h1 | h2
              · exact ⟨le_of_lt h1, fun heq => absurd heq (ne_of_lt h1)⟩
              · refine ⟨le_of_eq h2.1, fun _ => ?_⟩
                rcases (Prod.Lex.le_iff _ _).mp h2.2 with h3 | h4
                · have : (TB c : ℤ) ≤ TB c0 := by omega
                  exact_mod_cast this
                · have : (TB c : ℤ) = TB c0 := by omega
                  exact le_of_eq (by exact_mod_cast this)
          | j + 1 =>
              have hj : j < elims'.length := by
                simpa using hk
              have hget : (c0 :: elims').get ⟨j+1, hk⟩ = elims'.get ⟨j, hj⟩ :=
                rfl
              have htake : (c0 :: elims').take (j+1) = c0 :: elims'.take j :=
                rfl
              rw [hget, htake]
              have hfold : (c0 :: elims'.take j).foldl
                  (fun l e => l.erase e) remaining =
                  (elims'.take j).foldl (fun l e => l.erase e)
                    (remaining.erase c0) := rfl
              rw [hfold]
              have happ : elim ++ (c0 :: elims'.take j) =
                  (elim ++ [c0]) ++ elims'.take j := by
                simp
              rw [happ]
              exact hsteps j hj
      · -- remaining is already a single candidate
        have hlen1 : remaining.length = 1 := by
          have : 0 < remaining.length := List.length_pos_of_ne_nil hne
          omega
        obtain ⟨w, rest, hw⟩ := List.exists_cons_of_ne_nil hne
        have : rest = [] := by
          subst hw
          simp at hlen1
          exact hlen1
        subst this
        subst hw
        refine ⟨w, [], ?_, by simp, List.mem_cons_self _ _, by simp⟩
        rw [IRV_loop, if_neg hlong]
        simp

/-- C6: for a nonempty candidate list, `IRV_winner` performs exactly
`|A| - 1` elimination rounds and returns the single remaining candidate;
each round recomputes first-choice counts from the profile via `IRV_count`
(which drops `"="` markers and eliminated candidates, crediting a ballot's
first listed remaining candidate) and eliminates a remaining candidate of
minimal count, breaking count ties by eliminating the tied candidate with
the largest TB value. -/
theorem IRV_winner_spec (A : List α) (P : Profile α) (params : Params)
    (TB : α → ℕ) (hA : A ≠ []) :
    ∃ w elims,
      IRV_winner A P params TB = some w ∧
      IRV_loop A P TB A.length A [] = ([w], elims) ∧
      elims.length = A.length - 1 ∧
      w ∈ A ∧
      ∀ k, ∀ hk : k < elims.length,
        elims.get ⟨k, hk⟩ ∈
          (elims.take k).foldl (fun l e => l.erase e) A ∧
        ∀ c ∈ (elims.take k).foldl (fun l e => l.erase e) A,
          IRV_count A P (elims.take k) (elims.get ⟨k, hk⟩) ≤
            IRV_count A P (elims.take k) c ∧
          (IRV_count A P (elims.take k) (elims.get ⟨k, hk⟩) =
            IRV_count A P (elims.take k) c →
            TB c ≤ TB (elims.get ⟨k, hk⟩)) := by
  have hlen : A.length ≤ A.length - 1 + 1 := by
    have : 0 < A.length := List.length_pos_of_ne_nil hA
    omega
  obtain ⟨w, elims, heq, hlen2, hwmem, hsteps⟩ :=
    IRV_loop_spec A P TB A.length A [] hA (by omega)
  refine ⟨w, elims, ?_, by simpa using heq, hlen2, hwmem, ?_⟩
  · show (IRV_loop A P TB A.length A []).1.head? = some w
    rw [heq]
    rfl
  · intro k hk
    have := hsteps k hk
    simpa using this

/-- Witness for `IRV_winner_spec` at a concrete election. -/
theorem IRV_winner_spec_witness :
    (([0,1] : List ℕ) ≠ []) ∧
    (∃ w elims,
      IRV_winner [0,1] [([some 0, some 1], 2), ([some 1, some 0], 1)] none
        (fun a => a) = some w ∧
      IRV_loop [0,1] [([some 0, some 1], 2), ([some 1, some 0], 1)]
        (fun a => a) ([0,1] : List ℕ).length [0,1] [] = ([w], elims) ∧
      elims.length = ([0,1] : List ℕ).length - 1 ∧
      w ∈ ([0,1] : List ℕ) ∧
      ∀ k, ∀ hk : k < elims.length,
        elims.get ⟨k, hk⟩ ∈
          (elims.take k).foldl (fun l e => l.erase e) [0,1] ∧
        ∀ c ∈ (elims.take k).foldl (fun l e => l.erase e) [0,1],
          IRV_count [0,1] [([some 0, some 1], 2), ([some 1, some 0], 1)]
              (elims.take k) (elims.get ⟨k, hk⟩) ≤
            IRV_count [0,1] [([some 0, some 1], 2), ([some 1, some 0], 1)]
              (elims.take k) c ∧
          (IRV_count [0,1] [([some 0, some 1], 2), ([some 1, some 0], 1)]
              (elims.take k) (elims.get ⟨k, hk⟩) =
            IRV_count [0,1] [([some 0, some 1], 2), ([some 1, some 0], 1)]
              (elims.take k) c →
            (fun a : ℕ => a) c ≤ (fun a : ℕ => a) (elims.get ⟨k, hk⟩))) :=
  ⟨by decide,
    IRV_winner_spec [0,1] [([some 0, some 1], 2), ([some 1, some 0], 1)] none
      (fun a => a) (by decide)⟩

/-! ### Per-ballot semantics of `pairwise_prefs` (C5) -/

/-- Token encoding of one equivalence class of a validated ballot: the
first member, then each further member preceded by the `"="` marker. -/
def encodeGroup (g : List α) : Ballot α :=
  match g with
  | [] => []
  | c :: cs => some c :: cs.flatMap (fun x => [none, some x])

/-- Token encoding of a validated ballot given as its list of equivalence
classes (consecutive classes are juxtaposed; members within a class are
separated by `"="`). -/
def encodeBallot (gs : List (List α)) : Ballot α :=
  (gs.map encodeGroup).flatten

theorem bump_apply (pr : α → α → ℕ) (y x : α) (w : ℕ) (u v : α) :
    bump pr y x w u v = pr u v + (if u = y ∧ v = x then w else 0) := by
  by_cases h : u = y ∧ v = x
  · simp [bump, h]
  · simp [bump, h]

theorem bumpAll_apply (ys : List α) : ∀ (pr : α → α → ℕ) (x : α) (w : ℕ)
    (u v : α), bumpAll pr ys x w u v =
      pr u v + (if v = x then w * ys.count u else 0) := by
  induction ys with
  | nil => intro pr x w u v; simp [bumpAll]
  | cons y ys ih =>
      intro pr x w u v
      show bumpAll (bump pr y x w) ys x w u v = _
      rw [ih, bump_apply, List.count_cons]
      by_cases hv : v = x
      · subst hv
        by_cases hu : u = y
        · subst hu
          simp
          ring
        · simp [hu]
          exact Or.inl (fun h => hu h.symm)
      · simp [hv, fun h : u = y ∧ v = x => hv h.2]
/-- The inner `for y in remaining` loop of the `missing_preferred_less`
fixup, pointwise. -/
theorem bumpRow_apply (ys : List α) : ∀ (pr : α → α → ℕ) (x : α) (w : ℕ)
    (u v : α),
    (ys.foldl (fun p2 y => bump p2 x y w) pr) u v =
      pr u v + (if u = x then w * ys.count v else 0) := by
  induction ys with
  | nil => intro pr x w u v; simp
  | cons y ys ih =>
      intro pr x w u v
      rw [List.foldl_cons, ih, bump_apply, List.count_cons]
      by_cases hu : u = x
      · subst hu
        by_cases hv : v = y
        · subst hv
          simp
          ring
        · simp [hv]
          exact Or.inl (fun h => hv h.symm)
      · simp [hu, fun h : u = x ∧ v = y => hu h.1]
/-- The full `missing_preferred_less` double loop, pointwise. -/
theorem mplFold_apply (m : List α) : ∀ (rem : List α) (pr : α → α → ℕ)
    (w : ℕ) (u v : α),
    (m.foldl (fun p x => rem.foldl (fun p2 y => bump p2 x y w) p) pr) u v =
      pr u v + w * m.count u * rem.count v := by
  induction m with
  | nil => intro rem pr w u v; simp
  | cons x m ih =>
      intro rem pr w u v
      rw [List.foldl_cons, ih, bumpRow_apply, List.count_cons]
      by_cases hu : u = x
      · subst hu
        simp
        ring
      · simp [hu]
        exact Or.inl (Or.inl (fun h : x = u => hu h.symm))
/-- Effect of the scan loop on the tail of one equivalence class (the
`= x` token pairs): each member is credited as dominated by exactly the
previously completed classes (`mentioned`), never by its own class. -/
theorem scan_group_tail (w : ℕ) : ∀ (cs : List α) (st : PrefScan α),
    st.lastEq = false →
    ((cs.flatMap fun x => [none, some x]).foldl (prefStep w) st) =
      ⟨cs.foldl (fun l e => l.erase e) st.remaining,
       st.mentioned,
       st.equivalents ++ cs,
       false,
       fun u v => st.pref u v + w * st.mentioned.count u * cs.count v⟩ := by
  intro cs
  induction cs with
  | nil =>
      intro st h
      cases st with
      | mk rem men eq lastEq pref =>
          simp only at h
          subst h
          simp
  | cons x cs ih =>
      intro st h
      have htok : ((x :: cs).flatMap fun x => [none, some x]) =
          none :: some x :: (cs.flatMap fun x => [none, some x]) := rfl
      rw [htok, List.foldl_cons, List.foldl_cons]
      have h1 : prefStep w st none = { st with lastEq := true } := rfl
      have h2 : prefStep w { st with lastEq := true } (some x) =
          ⟨st.remaining.erase x, st.mentioned, st.equivalents ++ [x], false,
            bumpAll st.pref st.mentioned x w⟩ := by
        simp [prefStep]
      rw [h1, h2, ih _ rfl]
      congr 1
      · simp
      funext u v
      dsimp only
      rw [bumpAll_apply, List.count_cons]
      simp only [beq_iff_eq]
      by_cases hv : v = x
      · rw [if_pos hv, if_pos hv.symm]
        ring
      · rw [if_neg hv, if_neg (fun hh : x = v => hv hh.symm)]
        ring
/-- Effect of the scan loop on one full nonempty equivalence class. -/
theorem scan_group (w : ℕ) (g : List α) (hg : g ≠ []) (st : PrefScan α)
    (h : st.lastEq = false) :
    ((encodeGroup g).foldl (prefStep w) st) =
      ⟨g.foldl (fun l e => l.erase e) st.remaining,
       st.mentioned ++ st.equivalents,
       g,
       false,
       fun u v => st.pref u v +
         w * (st.mentioned ++ st.equivalents).count u * g.count v⟩ := by
  match g with
  | c :: cs =>
      have htok : encodeGroup (c :: cs) =
          some c :: (cs.flatMap fun x => [none, some x]) := rfl
      rw [htok, List.foldl_cons]
      have h1 : prefStep w st (some c) =
          ⟨st.remaining.erase c, st.mentioned ++ st.equivalents, [c], false,
            bumpAll st.pref (st.mentioned ++ st.equivalents) c w⟩ := by
        simp [prefStep, h]
      rw [h1, scan_group_tail w cs _ rfl]
      congr 1
      funext u v
      dsimp only
      rw [bumpAll_apply, List.count_cons]
      simp only [beq_iff_eq]
      by_cases hv : v = c
      · rw [if_pos hv, if_pos hv.symm]
        ring
      · rw [if_neg hv, if_neg (fun hh : c = v => hv hh.symm)]
        ring
/-- The preference credit accumulated by the scan loop over a ballot's
equivalence classes: for each class index `j`, members of classes completed
before `j` (together with an initial `mentioned` prefix `m0`) are credited
over the members of class `j`. -/
def groupCredit (gs : List (List α)) (m0 : List α) (w : ℕ) (u v : α) : ℕ :=
  ∑ j ∈ Finset.range gs.length,
    w * (m0 ++ (gs.take j).flatten).count u * (gs.getD j []).count v

theorem groupCredit_nil (m0 : List α) (w : ℕ) (u v : α) :
    groupCredit [] m0 w u v = 0 := by
  simp [groupCredit]

theorem groupCredit_cons (g : List α) (gs : List (List α)) (m0 : List α)
    (w : ℕ) (u v : α) :
    groupCredit (g :: gs) m0 w u v =
      w * m0.count u * g.count v + groupCredit gs (m0 ++ g) w u v := by
  unfold groupCredit
  rw [List.length_cons, Finset.sum_range_succ']
  rw [Nat.add_comm]
  congr 1
  · congr 1
    · simp
  · apply Finset.sum_congr rfl
    intro j _
    have h1 : (g :: gs).take (j+1) = g :: gs.take j := rfl
    have h2 : (g :: gs).getD (j+1) [] = gs.getD j [] := rfl
    rw [h1, h2]
    have h3 : m0 ++ (g :: gs.take j).flatten = (m0 ++ g) ++ (gs.take j).flatten := by
      simp
    rw [h3]

/-- Effect of the scan loop over a whole ballot (a list of nonempty
equivalence classes): the final `remaining`, the combined
`mentioned ++ equivalents`, and the accumulated preference credits. -/
theorem scan_groups (w : ℕ) : ∀ (gs : List (List α)) (st : PrefScan α),
    (∀ g ∈ gs, g ≠ []) → st.lastEq = false →
    ∃ men equiv,
      (((gs.map encodeGroup).flatten).foldl (prefStep w) st) =
        ⟨gs.flatten.foldl (fun l e => l.erase e) st.remaining,
         men, equiv, false,
         fun u v => st.pref u v +
           groupCredit gs (st.mentioned ++ st.equivalents) w u v⟩ ∧
      men ++ equiv = st.mentioned ++ st.equivalents ++ gs.flatten := by
  intro gs
  induction gs with
  | nil =>
      intro st hg h
      refine ⟨st.mentioned, st.equivalents, ?_, by simp⟩
      cases st with
      | mk rem men eq lastEq pref =>
          simp only at h
          subst h
          simp [groupCredit_nil]
  | cons g gs ih =>
      intro st hg h
      have hgne : g ≠ [] := hg g (List.mem_cons_self _ _)
      have htok : (((g :: gs).map encodeGroup).flatten) =
          encodeGroup g ++ ((gs.map encodeGroup).flatten) := by
        simp
      rw [htok, List.foldl_append, scan_group w g hgne st h]
      obtain ⟨men, equiv, heq, hme⟩ := ih
        ⟨g.foldl (fun l e => l.erase e) st.remaining,
         st.mentioned ++ st.equivalents, g, false,
         fun u v => st.pref u v +
           w * (st.mentioned ++ st.equivalents).count u * g.count v⟩
        (fun g' hg' => hg g' (List.mem_cons_of_mem _ hg')) rfl
      refine ⟨men, equiv, ?_, ?_⟩
      · rw [heq]
        congr 1
        · show gs.flatten.foldl (fun l e => l.erase e)
            (g.foldl (fun l e => l.erase e) st.remaining) =
            (g :: gs).flatten.foldl (fun l e => l.erase e) st.remaining
          rw [show (g :: gs).flatten = g ++ gs.flatten from rfl,
            List.foldl_append]
        · funext u v
          dsimp only
          rw [groupCredit_cons]
          ring_nf
      · rw [hme]
        dsimp only
        rw [show (g :: gs).flatten = g ++ gs.flatten from rfl]
        simp

/-- Pointwise value of the full per-ballot contribution of `pairwise_prefs`
on an encoded validated ballot: the class-ordering credits plus, under
`missing_preferred_less`, the mentioned-over-remaining credits. -/
theorem ballotPref_apply (A : List α) (useMpl : Bool) (pr0 : α → α → ℕ)
    (gs : List (List α)) (w : ℕ) (hg : ∀ g ∈ gs, g ≠ []) (u v : α) :
    ballotPref A useMpl pr0 (encodeBallot gs) w u v =
      pr0 u v + groupCredit gs [] w u v +
      (if useMpl then w * gs.flatten.count u *
        (gs.flatten.foldl (fun l e => l.erase e) A).count v else 0) := by
  obtain ⟨men, equiv, heq, hme⟩ :=
    scan_groups w gs ⟨A, [], [], false, pr0⟩ hg rfl
  dsimp only at heq hme
  simp only [List.nil_append] at hme
  simp only [ballotPref, encodeBallot]
  rw [heq]
  dsimp only
  cases useMpl with
  | false => rfl
  | true =>
      simp only [if_true]
      rw [mplFold_apply, hme]
      rfl

theorem mem_getD_mem_flatten (gs : List (List α)) (j : ℕ) (v : α)
    (h : v ∈ gs.getD j []) : v ∈ gs.flatten := by
  by_cases hj : j < gs.length
  · rw [List.getD_eq_getElem gs [] hj] at h
    exact List.mem_flatten.mpr ⟨gs[j], List.getElem_mem hj, h⟩
  · rw [List.getD_eq_default gs [] (by omega)] at h
    exact absurd h (List.not_mem_nil v)

theorem foldl_erase_spec (xs : List α) : ∀ (A : List α), A.Nodup →
    (xs.foldl (fun l e => l.erase e) A).Nodup ∧
    ∀ v, v ∈ xs.foldl (fun l e => l.erase e) A ↔ v ∈ A ∧ v ∉ xs := by
  induction xs with
  | nil =>
      intro A hA
      exact ⟨hA, by simp⟩
  | cons x xs ih =>
      intro A hA
      rw [List.foldl_cons]
      obtain ⟨hnd, hmem⟩ := ih (A.erase x) (hA.erase x)
      refine ⟨hnd, ?_⟩
      intro v
      rw [hmem v, hA.mem_erase_iff]
      constructor
      · rintro ⟨⟨hvx, hvA⟩, hvxs⟩
        exact ⟨hvA, by simp [hvx, hvxs]⟩
      · rintro ⟨hvA, hvxxs⟩
        simp only [List.mem_cons, not_or] at hvxxs
        exact ⟨⟨hvxxs.1, hvA⟩, hvxxs.2⟩

/-- With a duplicate-free ballot, the accumulated class credits reduce to a
0/1 indicator: `u` is credited over `v` exactly when `v` lies in some class
and `u` lies in the initial prefix or an earlier class. -/
theorem groupCredit_indicator : ∀ (gs : List (List α)) (m0 : List α),
    (m0 ++ gs.flatten).Nodup → ∀ (w : ℕ) (u v : α),
    groupCredit gs m0 w u v =
      w * (if (∃ j, j < gs.length ∧ v ∈ gs.getD j [] ∧
        (u ∈ m0 ∨ ∃ i < j, u ∈ gs.getD i [])) then 1 else 0) := by
  intro gs
  induction gs with
  | nil =>
      intro m0 h w u v
      simp [groupCredit_nil]
  | cons g gs ih =>
      intro m0 hnd w u v
      have hnd' : ((m0 ++ g) ++ gs.flatten).Nodup := by
        have : (g :: gs).flatten = g ++ gs.flatten := rfl
        rw [this] at hnd
        rwa [List.append_assoc]
      rw [groupCredit_cons, ih (m0 ++ g) hnd']
      have hgflat : (g :: gs).flatten = g ++ gs.flatten := rfl
      rw [hgflat] at hnd
      have hgnodup : g.Nodup := by
        have h1 := (List.nodup_append.mp hnd).2.1
        exact (List.nodup_append.mp h1).1
      have hdisj : ∀ y ∈ g, y ∉ gs.flatten := by
        have h1 := (List.nodup_append.mp hnd).2.1
        exact fun y hy => (List.nodup_append.mp h1).2.2 hy
      have hm0disj : ∀ y ∈ m0, y ∉ g ++ gs.flatten :=
        fun y hy => (List.nodup_append.mp hnd).2.2 hy
      by_cases hvg : v ∈ g
      · -- v is in the head class: only the j = 0 case of the new indicator
        have hvflat : v ∉ gs.flatten := hdisj v hvg
        have hih0 : ¬ (∃ j, j < gs.length ∧ v ∈ gs.getD j [] ∧
            (u ∈ m0 ++ g ∨ ∃ i < j, u ∈ gs.getD i [])) := by
          rintro ⟨j, _, hvj, _⟩
          exact hvflat (mem_getD_mem_flatten gs j v hvj)
        rw [if_neg hih0, Nat.mul_zero, Nat.add_zero]
        rw [List.count_eq_one_of_mem hgnodup hvg]
        have hcond : (∃ j, j < (g :: gs).length ∧ v ∈ (g :: gs).getD j [] ∧
            (u ∈ m0 ∨ ∃ i < j, u ∈ (g :: gs).getD i [])) ↔ u ∈ m0 := by
          constructor
          · rintro ⟨j, hj, hvj, hu⟩
            match j with
            | 0 =>
                rcases hu with h1 | ⟨i, hi, _⟩
                · exact h1
                · omega
            | j' + 1 =>
                exact absurd (mem_getD_mem_flatten gs j' v hvj) hvflat
          · intro hu
            exact ⟨0, by simp, hvg, Or.inl hu⟩
        rw [if_congr hcond rfl rfl]
        by_cases hum : u ∈ m0
        · rw [if_pos hum, List.count_eq_one_of_mem
            (List.nodup_append.mp hnd).1 hum]
          ring
        · rw [if_neg hum, List.count_eq_zero_of_not_mem hum]
          ring
      · -- v is not in the head class: shift indices by one
        have hcnt : g.count v = 0 := List.count_eq_zero_of_not_mem hvg
        rw [hcnt, Nat.mul_zero, Nat.zero_add]
        congr 1
        apply if_congr _ rfl rfl
        constructor
        · rintro ⟨j, hj, hvj, hu⟩
          refine ⟨j + 1, by simpa using hj, hvj, ?_⟩
          rcases hu with h1 | h2
          · rcases List.mem_append.mp h1 with h3 | h4
            · exact Or.inl h3
            · exact Or.inr ⟨0, by omega, h4⟩
          · obtain ⟨i, hi, hui⟩ := h2
            exact Or.inr ⟨i + 1, by omega, hui⟩
        · rintro ⟨j, hj, hvj, hu⟩
          match j with
          | 0 => exact absurd hvj hvg
          | j' + 1 =>
              refine ⟨j', by simpa using hj, hvj, ?_⟩
              rcases hu with h1 | ⟨i, hi, hui⟩
              · exact Or.inl (List.mem_append.mpr (Or.inl h1))
              · match i with
                | 0 => exact Or.inl (List.mem_append.mpr (Or.inr hui))
                | i' + 1 => exact Or.inr ⟨i', by omega, hui⟩

/-- Indicator form of a validated ballot's contribution: weight `w` flows
from `u` to `v` exactly once when `u`'s class precedes `v`'s class, and —
under `missing_preferred_less` — exactly once when `u` is mentioned and `v`
is an unmentioned alternative of `A`. -/
theorem ballotPref_indicator (A : List α) (useMpl : Bool) (pr0 : α → α → ℕ)
    (gs : List (List α)) (w : ℕ) (hA : A.Nodup)
    (hg : ∀ g ∈ gs, g ≠ []) (hnd : gs.flatten.Nodup) (u v : α) :
    ballotPref A useMpl pr0 (encodeBallot gs) w u v =
      pr0 u v + w *
        ((if (∃ j, j < gs.length ∧ v ∈ gs.getD j [] ∧
            ∃ i < j, u ∈ gs.getD i []) then 1 else 0) +
         (if useMpl = true ∧ u ∈ gs.flatten ∧ v ∈ A ∧ v ∉ gs.flatten
            then 1 else 0)) := by
  rw [ballotPref_apply A useMpl pr0 gs w hg u v]
  have hnd0 : (([] : List α) ++ gs.flatten).Nodup := by simpa using hnd
  rw [groupCredit_indicator gs [] hnd0 w u v]
  have hcond1 : (∃ j, j < gs.length ∧ v ∈ gs.getD j [] ∧
      (u ∈ ([] : List α) ∨ ∃ i < j, u ∈ gs.getD i [])) ↔
      (∃ j, j < gs.length ∧ v ∈ gs.getD j [] ∧ ∃ i < j, u ∈ gs.getD i []) := by
    constructor
    · rintro ⟨j, hj, hvj, h1 | h2⟩
      · exact absurd h1 (List.not_mem_nil u)
      · exact ⟨j, hj, hvj, h2⟩
    · rintro ⟨j, hj, hvj, h2⟩
      exact ⟨j, hj, hvj, Or.inr h2⟩
  rw [if_congr hcond1 rfl rfl]
  obtain ⟨hndrem, hmemrem⟩ := foldl_erase_spec gs.flatten A hA
  have hmpl : (if useMpl then w * gs.flatten.count u *
      (gs.flatten.foldl (fun l e => l.erase e) A).count v else 0) =
      w * (if useMpl = true ∧ u ∈ gs.flatten ∧ v ∈ A ∧ v ∉ gs.flatten
        then 1 else 0) := by
    cases useMpl with
    | false => simp
    | true =>
        rw [if_pos rfl]
        by_cases hu : u ∈ gs.flatten
        · rw [List.count_eq_one_of_mem hnd hu]
          by_cases hv : v ∈ A ∧ v ∉ gs.flatten
          · rw [List.count_eq_one_of_mem hndrem ((hmemrem v).mpr hv)]
            rw [if_pos ⟨rfl, hu, hv.1, hv.2⟩]
            ring
          · rw [List.count_eq_zero_of_not_mem
              (fun hmem => hv ((hmemrem v).mp hmem))]
            rw [if_neg (fun hh => hv ⟨hh.2.2.1, hh.2.2.2⟩)]
            ring
        · rw [List.count_eq_zero_of_not_mem hu,
            if_neg (fun hh => hu hh.2.1)]
          ring
  rw [hmpl]
  ring

/-- C5: over a profile of validated ballots (given by their equivalence
classes), `pairwise_prefs` credits, per ballot and weighted by its
multiplicity, every alternative of an earlier equivalence class over every
alternative of a later class — never two members of the same class — and,
exactly when `missing_preferred_less` holds, additionally every mentioned
alternative over every unmentioned alternative of `A`; with the policy
false, unmentioned alternatives neither receive nor contribute preference
from that ballot. -/
theorem pairwise_prefs_spec (A : List α) (PG : List (List (List α) × ℕ))
    (params : Params) (hA : A.Nodup)
    (hval : ∀ gw ∈ PG, (∀ g ∈ gw.1, g ≠ []) ∧ (gw.1.flatten).Nodup ∧
      ∀ x ∈ gw.1.flatten, x ∈ A)
    (u v : α) :
    pairwise_prefs A (PG.map fun gw => (encodeBallot gw.1, gw.2)) params u v =
      (PG.map fun gw => gw.2 *
        ((if (∃ j, j < gw.1.length ∧ v ∈ gw.1.getD j [] ∧
            ∃ i < j, u ∈ gw.1.getD i []) then 1 else 0) +
         (if mpl params = true ∧ u ∈ gw.1.flatten ∧ v ∈ A ∧ v ∉ gw.1.flatten
            then 1 else 0))).sum := by
  suffices h : ∀ (PG : List (List (List α) × ℕ)) (pr0 : α → α → ℕ),
      (∀ gw ∈ PG, (∀ g ∈ gw.1, g ≠ []) ∧ (gw.1.flatten).Nodup ∧
        ∀ x ∈ gw.1.flatten, x ∈ A) →
      ((PG.map fun gw => (encodeBallot gw.1, gw.2)).foldl
        (fun pr bw => ballotPref A (mpl params) pr bw.1 bw.2) pr0) u v =
      pr0 u v + (PG.map fun gw => gw.2 *
        ((if (∃ j, j < gw.1.length ∧ v ∈ gw.1.getD j [] ∧
            ∃ i < j, u ∈ gw.1.getD i []) then 1 else 0) +
         (if mpl params = true ∧ u ∈ gw.1.flatten ∧ v ∈ A ∧ v ∉ gw.1.flatten
            then 1 else 0))).sum by
    have := h PG (fun _ _ => 0) hval
    simpa [pairwise_prefs] using this
  intro PG
  induction PG with
  | nil =>
      intro pr0 _
      simp
  | cons gw PG ih =>
      intro pr0 hval'
      obtain ⟨hg, hnd, _⟩ := hval' gw (List.mem_cons_self _ _)
      rw [List.map_cons, List.foldl_cons,
        ih _ (fun g' hg' => hval' g' (List.mem_cons_of_mem _ hg'))]
      rw [ballotPref_indicator A (mpl params) pr0 gw.1 gw.2 hA hg hnd u v]
      rw [List.map_cons, List.sum_cons]
      ring

/-- Witness for `pairwise_prefs_spec` at a concrete validated profile. -/
theorem pairwise_prefs_spec_witness :
    (([0,1,2] : List ℕ).Nodup) ∧
    (∀ gw ∈ ([([[0],[1]], 2)] : List (List (List ℕ) × ℕ)),
      (∀ g ∈ gw.1, g ≠ []) ∧ (gw.1.flatten).Nodup ∧
        ∀ x ∈ gw.1.flatten, x ∈ ([0,1,2] : List ℕ)) ∧
    (pairwise_prefs [0,1,2]
        (([([[0],[1]], 2)] : List (List (List ℕ) × ℕ)).map
          fun gw => (encodeBallot gw.1, gw.2)) (some true) 0 2 =
      (([([[0],[1]], 2)] : List (List (List ℕ) × ℕ)).map fun gw => gw.2 *
        ((if (∃ j, j < gw.1.length ∧ 2 ∈ gw.1.getD j [] ∧
            ∃ i < j, 0 ∈ gw.1.getD i []) then 1 else 0) +
         (if mpl (some true) = true ∧ 0 ∈ gw.1.flatten ∧
            2 ∈ ([0,1,2] : List ℕ) ∧ 2 ∉ gw.1.flatten
            then 1 else 0))).sum) :=
  ⟨by decide, by decide,
    pairwise_prefs_spec [0,1,2] [([[0],[1]], 2)] (some true)
      (by decide) (by decide) 0 2⟩

/-! ### Smith set (Tarjan-style SCC search from `Smith_set` / `Smith_aux`) -/

/-- Pointwise function update (the dict assignments `I[a] = …`, `L[a] = …`). -/
def updf {β : Type} (f : α → β) (a : α) (x : β) : α → β :=
  fun y => if y = a then x else f y

/-- The mutable state of the SCC search: the DFS counter `index`, the
discovery-index dict `I`, the lowlink dict `L`, and the explicit `stack`
(head = top; the Python `in_stack` set mirrors stack membership). -/
structure SmithState (α : Type) where
  index : ℕ
  I : α → Option ℕ
  L : α → ℕ
  stack : List α

/-- Pop the stack down to and including `a`, returning the popped vertices
(in pop order) and the rest of the stack (the `while stack[-1]!=a` loop). -/
def popUntil : List α → α → (List α × List α)
  | [], _ => ([], [])
  | b :: rest, a =>
      if b = a then ([b], rest)
      else
        let (p, r) := popUntil rest a
        (b :: p, r)

/-- The `for b in A` successor loop inside `Smith_aux`, parameterized by
the recursive-call function. -/
def Smith_loopF (pref : α → α → ℕ)
    (auxf : α → SmithState α → SmithState α × Option (List α)) :
    α → List α → SmithState α × Option (List α) →
    SmithState α × Option (List α)
  | _, [], p => p
  | a, b :: bs, (st, scc) =>
      if b ≠ a ∧ pref b a ≤ pref a b then
        if st.I b = none then
          let q := auxf b st
          Smith_loopF pref auxf a bs
            ({ q.1 with L := updf q.1.L a (min (q.1.L a) (q.1.L b)) }, q.2)
        else if b ∈ st.stack then
          Smith_loopF pref auxf a bs
            ({ st with
               L := updf st.L a (min (st.L a) ((st.I b).getD 0)) }, scc)
        else Smith_loopF pref auxf a bs (st, scc)
      else Smith_loopF pref auxf a bs (st, scc)

/-- `Smith_aux(a, A, index, I, L, stack, in_stack, pref, n)` from `vs.py`,
with explicit fuel for the recursion. -/
def Smith_aux (pref : α → α → ℕ) (A : List α) :
    ℕ → α → SmithState α → SmithState α × Option (List α)
  | 0, _, st => (st, none)
  | fuel+1, a, st =>
      let st1 : SmithState α :=
        { index := st.index + 1,
          I := updf st.I a (some st.index),
          L := updf st.L a st.index,
          stack := a :: st.stack }
      let p := Smith_loopF pref (Smith_aux pref A fuel) a A (st1, none)
      if p.1.I a = some (p.1.L a) then
        let pr := popUntil p.1.stack a
        ({ p.1 with stack := pr.2 }, some pr.1)
      else p

/-- The successor loop with the fuel-indexed recursive call plugged in. -/
def Smith_loop (pref : α → α → ℕ) (A : List α) (fuel : ℕ) :
    α → List α → SmithState α × Option (List α) →
    SmithState α × Option (List α) :=
  Smith_loopF pref (Smith_aux pref A fuel)

/-- `Smith_set(A,P,params)` from `vs.py`: run the SCC search from each
unvisited vertex; the `scc` variable after the loop (the last completed
SCC) is sorted and returned. -/
def Smith_set (A : List α) (P : Profile α) (params : Params) : List α :=
  let pref := pairwise_prefs A P params
  let p := A.foldl (fun (p : SmithState α × Option (List α)) a =>
    if p.1.I a = none then Smith_aux pref A A.length a p.1 else p)
    (⟨0, fun _ => none, fun _ => 0, []⟩, none)
  (p.2.getD []).insertionSort (· ≤ ·)

/-- The weak-beat edge used by the SCC search: `a` beats-or-ties `b`
(for distinct members of `A`). -/
def edgeA (pref : α → α → ℕ) (A : List α) (a b : α) : Prop :=
  a ∈ A ∧ b ∈ A ∧ a ≠ b ∧ pref b a ≤ pref a b

/-- Reachability in the weak-beat graph on `A`. -/
def reachA (pref : α → α → ℕ) (A : List α) : α → α → Prop :=
  Relation.ReflTransGen (edgeA pref A)

/-- The number of vertices of `A` not yet visited. -/
def unvisN (A : List α) (st : SmithState α) : ℕ :=
  (A.filter (fun v => st.I v = none)).length

theorem updf_same {β : Type} (f : α → β) (a : α) (x : β) :
    updf f a x a = x := by
  simp [updf]

theorem updf_ne {β : Type} (f : α → β) (a : α) (x : β) (y : α) (h : y ≠ a) :
    updf f a x y = f y := by
  simp [updf, h]

theorem updf_self {β : Type} (f : α → β) (a : α) :
    updf f a (f a) = f := by
  funext y
  by_cases h : y = a
  · rw [h, updf_same]
  · rw [updf_ne _ _ _ _ h]

theorem semicompleteA (pref : α → α → ℕ) (A : List α) (a b : α)
    (ha : a ∈ A) (hb : b ∈ A) (hab : a ≠ b) :
    edgeA pref A a b ∨ edgeA pref A b a := by
  rcases le_total (pref b a) (pref a b) with h | h
  · exact Or.inl ⟨ha, hb, hab, h⟩
  · exact Or.inr ⟨hb, ha, hab.symm, h⟩

theorem reachA_mem_right (pref : α → α → ℕ) (A : List α) (a b : α)
    (h : reachA pref A a b) (hne : a ≠ b) : b ∈ A := by
  induction h with
  | refl => exact absurd rfl hne
  | tail _ e _ => exact e.2.1

/-- A path from outside `T` to inside `T` crosses an edge into `T`. -/
theorem reach_crossing (pref : α → α → ℕ) (A : List α) (T : List α) :
    ∀ u t, reachA pref A u t → u ∉ T → t ∈ T →
    ∃ x y, x ∉ T ∧ y ∈ T ∧ edgeA pref A x y := by
  intro u t h
  induction h with
  | refl => intro h1 h2; exact absurd h2 h1
  | tail hst e ih =>
      rename_i s t'
      intro hu ht
      by_cases hs : s ∈ T
      · exact ih hu hs
      · exact ⟨s, t', hs, ht, e⟩

theorem popUntil_spec : ∀ (l : List α) (a : α), a ∈ l →
    ∃ p1, (popUntil l a).1 = p1 ++ [a] ∧ a ∉ p1 ∧
      l = (p1 ++ [a]) ++ (popUntil l a).2 := by
  intro l
  induction l with
  | nil => intro a ha; exact absurd ha (List.not_mem_nil a)
  | cons b rest ih =>
      intro a ha
      by_cases hba : b = a
      · subst hba
        refine ⟨[], ?_, by simp, ?_⟩
        · simp [popUntil]
        · simp [popUntil]
      · have ha' : a ∈ rest := by
          rcases List.mem_cons.mp ha with h1 | h2
          · exact absurd h1.symm hba
          · exact h2
        obtain ⟨p1, hp1, hnm, hsplit⟩ := ih a ha'
        refine ⟨b :: p1, ?_, ?_, ?_⟩
        · show (popUntil (b :: rest) a).1 = (b :: p1) ++ [a]
          rw [popUntil, if_neg hba]
          simp [hp1]
        · intro hmem
          rcases List.mem_cons.mp hmem with h1 | h2
          · exact hba h1.symm
          · exact hnm h2
        · show b :: rest = ((b :: p1) ++ [a]) ++ (popUntil (b :: rest) a).2
          rw [popUntil, if_neg hba]
          simpa using hsplit

theorem unvisN_le_of_mono (A : List α) (st st' : SmithState α)
    (h : ∀ v i, st.I v = some i → st'.I v = some i) :
    unvisN A st' ≤ unvisN A st := by
  unfold unvisN
  apply List.Sublist.length_le
  apply List.monotone_filter_right
  intro v hv
  simp only [decide_eq_true_eq] at hv ⊢
  rcases h2 : st.I v with _ | i
  · rfl
  · exact absurd (h v i h2) (by simp [hv])

theorem unvisN_lt_of_new (A : List α) (st st' : SmithState α) (a : α)
    (hmono : ∀ v i, st.I v = some i → st'.I v = some i)
    (haA : a ∈ A) (ha : st.I a = none) (ha' : st'.I a ≠ none) :
    unvisN A st' < unvisN A st := by
  unfold unvisN
  have hsub : (A.filter (fun v => st'.I v = none)).Sublist
      (A.filter (fun v => st.I v = none)) := by
    apply List.monotone_filter_right
    intro v hv
    simp only [decide_eq_true_eq] at hv ⊢
    rcases h2 : st.I v with _ | i
    · rfl
    · exact absurd (hmono v i h2) (by simp [hv])
  have hmem : a ∈ A.filter (fun v => st.I v = none) :=
    List.mem_filter.mpr ⟨haA, by simp [ha]⟩
  have hnmem : a ∉ A.filter (fun v => st'.I v = none) := by
    intro hmem'
    have := (List.mem_filter.mp hmem').2
    simp only [decide_eq_true_eq] at this
    exact ha' this
  rcases Nat.lt_or_ge (A.filter (fun v => st'.I v = none)).length
      (A.filter (fun v => st.I v = none)).length with hlt | hge
  · exact hlt
  · have heq := hsub.eq_of_length (Nat.le_antisymm hsub.length_le hge)
    rw [heq] at hnmem
    exact absurd hmem hnmem

theorem one_le_unvisN (A : List α) (st : SmithState α) (a : α)
    (haA : a ∈ A) (ha : st.I a = none) : 1 ≤ unvisN A st := by
  unfold unvisN
  have hmem : a ∈ A.filter (fun v => st.I v = none) :=
    List.mem_filter.mpr ⟨haA, by simp [ha]⟩
  exact List.length_pos_of_mem hmem

/-- The discovery index of a visited vertex (0 if unvisited). -/
def idxV (st : SmithState α) (v : α) : ℕ := (st.I v).getD 0

/-- Well-formedness invariant of the Tarjan traversal state.  `grays` is the
list of vertices whose DFS call frame is still active (innermost first). -/
structure Inv (pref : α → α → ℕ) (A : List α) (grays : List α)
    (st : SmithState α) : Prop where
  vis_mem : ∀ v i, st.I v = some i → v ∈ A ∧ i < st.index
  inj : ∀ u v i, st.I u = some i → st.I v = some i → u = v
  stack_vis : ∀ v ∈ st.stack, ∃ i, st.I v = some i
  stack_sorted : st.stack.Pairwise (fun x y => idxV st y < idxV st x)
  low_le : ∀ v i, st.I v = some i → st.L v ≤ i
  low_witness : ∀ v ∈ st.stack, ∀ i, st.I v = some i → st.L v < i →
      ∃ y ∈ st.stack, st.I y = some (st.L v) ∧ reachA pref A v y
  popped_closed : ∀ u, st.I u ≠ none → u ∉ st.stack →
      ∀ w, edgeA pref A u w → st.I w ≠ none ∧ w ∉ st.stack
  gray_stack : ∀ g ∈ grays, g ∈ st.stack
  completed : ∀ s, st.I s ≠ none → s ∉ grays → s ∈ st.stack →
      ∀ w, edgeA pref A s w → st.I w ≠ none ∧
        (w ∈ st.stack → ∀ iw, st.I w = some iw → st.L s ≤ iw)

/-- Postcondition of a completed recursive call `Smith_aux … a st`. -/
structure AuxPost (pref : α → α → ℕ) (A grays : List α) (a : α)
    (st st' : SmithState α) (res : Option (List α)) : Prop where
  inv : Inv pref A grays st'
  index_mono : st.index < st'.index
  I_mono : ∀ v i, st.I v = some i → st'.I v = some i
  Ia : st'.I a = some st.index
  L_frozen : ∀ v, st.I v ≠ none → st'.L v = st.L v
  new_reach : ∀ v, st'.I v ≠ none → st.I v = none → reachA pref A a v
  new_idx : ∀ v i, st'.I v = some i → st.index ≤ i → st.I v = none
  unvis_lt : unvisN A st' < unvisN A st
  split :
    (∃ popped, res = some popped ∧ st'.stack = st.stack ∧
        st'.L a = st.index ∧ popped.Nodup ∧
        ∀ v, v ∈ popped ↔ (v ∈ A ∧ reachA pref A a v ∧ reachA pref A v a)) ∨
    (∃ news, st'.stack = news ++ st.stack ∧ a ∈ news ∧
        (∀ x ∈ news, ∃ i, st'.I x = some i ∧ st.index ≤ i ∧ st'.L x < i) ∧
        (∀ x ∈ news, st'.L a ≤ st'.L x))

/-- Precondition of the successor loop inside the frame of vertex `a`
(discovered with index `ia`), with `bs` the alternatives still to scan. -/
structure LoopPre (pref : α → α → ℕ) (A grays : List α) (a : α) (ia : ℕ)
    (bs : List α) (st : SmithState α) : Prop where
  inv : Inv pref A (a :: grays) st
  aA : a ∈ A
  aStack : a ∈ st.stack
  Ia : st.I a = some ia
  sub : bs.Sublist A
  processed : ∀ b ∈ A, b ∉ bs → edgeA pref A a b →
      st.I b ≠ none ∧ (b ∈ st.stack → ∀ ib, st.I b = some ib → st.L a ≤ ib)
  prop : ∀ x ∈ st.stack, ∀ ix, st.I x = some ix → ia ≤ ix → st.L a ≤ st.L x

/-- Postcondition of the successor loop inside the frame of vertex `a`. -/
structure LoopPost (pref : α → α → ℕ) (A grays : List α) (a : α) (ia : ℕ)
    (st st' : SmithState α) : Prop where
  inv : Inv pref A (a :: grays) st'
  index_mono : st.index ≤ st'.index
  I_mono : ∀ v i, st.I v = some i → st'.I v = some i
  Ia : st'.I a = some ia
  aStack : a ∈ st'.stack
  L_frozen : ∀ v, st.I v ≠ none → v ≠ a → st'.L v = st.L v
  La_mono : st'.L a ≤ st.L a
  new_reach : ∀ v, st'.I v ≠ none → st.I v = none → reachA pref A a v
  new_idx : ∀ v i, st'.I v = some i → st.index ≤ i → st.I v = none
  unvis_le : unvisN A st' ≤ unvisN A st
  stack_shape : ∃ news, st'.stack = news ++ st.stack ∧
      ∀ x ∈ news, st.I x = none ∧
        ∃ i, st'.I x = some i ∧ st'.L x < i ∧ st.index ≤ i
  processed : ∀ b ∈ A, edgeA pref A a b →
      st'.I b ≠ none ∧ (b ∈ st'.stack → ∀ ib, st'.I b = some ib → st'.L a ≤ ib)
  prop : ∀ x ∈ st'.stack, ∀ ix, st'.I x = some ix → ia ≤ ix → st'.L a ≤ st'.L x

theorem Smith_loop_nil (pref : α → α → ℕ) (A : List α) (fuel : ℕ) (a : α)
    (p : SmithState α × Option (List α)) :
    Smith_loop pref A fuel a [] p = p := by
  simp only [Smith_loop]
  rw [Smith_loopF]

theorem Smith_loop_cons (pref : α → α → ℕ) (A : List α) (fuel : ℕ) (a b : α)
    (bs : List α) (st : SmithState α) (scc : Option (List α)) :
    Smith_loop pref A fuel a (b :: bs) (st, scc) =
      if b ≠ a ∧ pref b a ≤ pref a b then
        if st.I b = none then
          let q := Smith_aux pref A fuel b st
          Smith_loop pref A fuel a bs
            ({ q.1 with L := updf q.1.L a (min (q.1.L a) (q.1.L b)) }, q.2)
        else if b ∈ st.stack then
          Smith_loop pref A fuel a bs
            ({ st with
               L := updf st.L a (min (st.L a) ((st.I b).getD 0)) }, scc)
        else Smith_loop pref A fuel a bs (st, scc)
      else Smith_loop pref A fuel a bs (st, scc) := by
  simp only [Smith_loop]
  rw [Smith_loopF]

theorem Smith_aux_succ (pref : α → α → ℕ) (A : List α) (fuel : ℕ) (a : α)
    (st : SmithState α) :
    Smith_aux pref A (fuel+1) a st =
      (let st1 : SmithState α :=
        { index := st.index + 1,
          I := updf st.I a (some st.index),
          L := updf st.L a st.index,
          stack := a :: st.stack }
      let p := Smith_loop pref A fuel a A (st1, none)
      if p.1.I a = some (p.1.L a) then
        let pr := popUntil p.1.stack a
        ({ p.1 with stack := pr.2 }, some pr.1)
      else p) := by
  simp only [Smith_loop]
  rw [Smith_aux]

/-- Lowering the active vertex's lowlink (to a value that still has an
on-stack witness) preserves the invariant. -/
theorem Inv_lower_La (pref : α → α → ℕ) (A grays : List α) (a : α)
    (st : SmithState α) (m : ℕ)
    (hinv : Inv pref A (a :: grays) st)
    (hm : m ≤ st.L a)
    (hwit : ∀ i, st.I a = some i → m < i →
      ∃ y ∈ st.stack, st.I y = some m ∧ reachA pref A a y) :
    Inv pref A (a :: grays) { st with L := updf st.L a m } := by
  refine ⟨?_, ?_, ?_, ?_, ?_, ?_, ?_, ?_, ?_⟩
  · exact hinv.vis_mem
  · exact hinv.inj
  · exact hinv.stack_vis
  · exact hinv.stack_sorted
  · intro v i hvi
    dsimp only
    by_cases hv : v = a
    · subst hv
      rw [updf_same]
      exact le_trans hm (hinv.low_le v i hvi)
    · rw [updf_ne _ _ _ _ hv]
      exact hinv.low_le v i hvi
  · intro v hvstack i hvi hlt
    dsimp only at hvi hlt ⊢
    by_cases hv : v = a
    · subst hv
      rw [updf_same] at hlt ⊢
      exact hwit i hvi hlt
    · rw [updf_ne _ _ _ _ hv] at hlt ⊢
      obtain ⟨y, hy, hyi, hyr⟩ := hinv.low_witness v hvstack i hvi hlt
      exact ⟨y, hy, hyi, hyr⟩
  · exact hinv.popped_closed
  · exact hinv.gray_stack
  · intro s hs hsg hstk w hw
    dsimp only at *
    have hsa : s ≠ a := fun h => hsg (h ▸ List.mem_cons_self a grays)
    obtain ⟨h1, h2⟩ := hinv.completed s hs hsg hstk w hw
    refine ⟨h1, ?_⟩
    intro hwstk iw hiw
    rw [updf_ne _ _ _ _ hsa]
    exact h2 hwstk iw hiw

/-- The `Smith_aux` contract at a given fuel level. -/
def AuxStatement (pref : α → α → ℕ) (A : List α) (fuel : ℕ) : Prop :=
  ∀ (a : α) (st : SmithState α) (grays : List α),
    Inv pref A grays st → a ∈ A → st.I a = none → unvisN A st ≤ fuel →
    AuxPost pref A grays a st (Smith_aux pref A fuel a st).1
      (Smith_aux pref A fuel a st).2

/-- The `Smith_loop` contract at a given fuel level. -/
def LoopStatement (pref : α → α → ℕ) (A : List α) (fuel : ℕ) : Prop :=
  ∀ (a : α) (ia : ℕ) (bs : List α) (st : SmithState α)
    (scc : Option (List α)) (grays : List α),
    LoopPre pref A grays a ia bs st → unvisN A st ≤ fuel →
    LoopPost pref A grays a ia st
      (Smith_loop pref A fuel a bs (st, scc)).1

theorem aux_spec_zero (pref : α → α → ℕ) (A : List α) :
    AuxStatement pref A 0 := by
  intro a st grays _ haA ha hfuel
  exact absurd (one_le_unvisN A st a haA ha) (by omega)

theorem append_cons_inj (a : α) : ∀ (xs xs' ys ys' : List α),
    a ∉ xs → a ∉ xs' → xs ++ a :: ys = xs' ++ a :: ys' →
    xs = xs' ∧ ys = ys' := by
  intro xs
  induction xs with
  | nil =>
      intro xs' ys ys' _ ha' h
      cases xs' with
      | nil =>
          rw [List.nil_append, List.nil_append] at h
          injection h with _ h2
          exact ⟨rfl, h2⟩
      | cons x t =>
          rw [List.nil_append, List.cons_append] at h
          injection h with h1 _
          subst h1
          exact absurd (List.mem_cons_self a t) ha'
  | cons x t ih =>
      intro xs' ys ys' ha ha' h
      cases xs' with
      | nil =>
          rw [List.cons_append, List.nil_append] at h
          injection h with h1 _
          subst h1
          exact absurd (List.mem_cons_self x t) ha
      | cons x' t' =>
          rw [List.cons_append, List.cons_append] at h
          injection h with h1 h2
          subst h1
          obtain ⟨e1, e2⟩ := ih t' ys ys'
            (fun hh => ha (List.mem_cons_of_mem _ hh))
            (fun hh => ha' (List.mem_cons_of_mem _ hh)) h2
          exact ⟨by rw [e1], e2⟩

theorem loop_spec_of_aux (pref : α → α → ℕ) (A : List α) (fuel : ℕ)
    (haux : AuxStatement pref A fuel) : LoopStatement pref A fuel := by
  intro a ia bs
  induction bs with
  | nil =>
      intro st scc grays hpre hfuel
      rw [Smith_loop_nil]
      refine ⟨hpre.inv, le_refl _, fun v i h => h, hpre.Ia, hpre.aStack,
        fun v _ _ => rfl, le_refl _, ?_, ?_, le_refl _, ⟨[], rfl, by simp⟩,
        ?_, hpre.prop⟩
      · intro v h1 h2
        exact absurd h2 h1
      · intro v i hvi hle
        exact absurd (hpre.inv.vis_mem v i hvi).2 (by omega)
      · intro b hb hedge
        exact hpre.processed b hb (List.not_mem_nil b) hedge
  | cons b bs ih =>
      intro st scc grays hpre hfuel
      rw [Smith_loop_cons]
      have hsub' : bs.Sublist A := (List.sublist_cons_self b bs).trans hpre.sub
      by_cases hcond : b ≠ a ∧ pref b a ≤ pref a b
      · rw [if_pos hcond]
        have hbA : b ∈ A := hpre.sub.subset (List.mem_cons_self b bs)
        have hedgeab : edgeA pref A a b :=
          ⟨hpre.aA, hbA, fun h => hcond.1 h.symm, hcond.2⟩
        have hIane : st.I a ≠ none := by simp [hpre.Ia]
        have hia_lt : ia < st.index := (hpre.inv.vis_mem a ia hpre.Ia).2
        have hLa_le : st.L a ≤ ia := hpre.inv.low_le a ia hpre.Ia
        by_cases hIb : st.I b = none
        · -- unvisited successor: recursive call
          rw [if_pos hIb]
          have hauxpost := haux b st (a :: grays) hpre.inv hbA hIb hfuel
          rcases hq : Smith_aux pref A fuel b st with ⟨st1, scc1⟩
          rw [hq] at hauxpost
          dsimp only at hauxpost ⊢
          have hIa1 : st1.I a = some ia := hauxpost.I_mono a ia hpre.Ia
          have hLa1 : st1.L a = st.L a := hauxpost.L_frozen a hIane
          have hIb1 : st1.I b = some st.index := hauxpost.Ia
          have hLb_le : st1.L b ≤ st.index := hauxpost.inv.low_le b _ hIb1
          have haStack1 : a ∈ st1.stack := by
            rcases hauxpost.split with ⟨_, _, hstk, _, _, _⟩ |
                ⟨news, hstk, _, _, _⟩
            · rw [hstk]; exact hpre.aStack
            · rw [hstk]; exact List.mem_append_right news hpre.aStack
          have hold_stack : ∀ x ∈ st1.stack, st.I x ≠ none → x ∈ st.stack := by
            intro x hx hvis
            rcases hauxpost.split with ⟨_, _, hstk, _, _, _⟩ |
                ⟨news, hstk, hnews0, hnewsI, _⟩
            · rw [hstk] at hx; exact hx
            · rw [hstk] at hx
              rcases List.mem_append.mp hx with hxn | hxo
              · obtain ⟨i, hi1, hge, _⟩ := hnewsI x hxn
                exact absurd (hauxpost.new_idx x i hi1 hge) hvis
              · exact hxo
          have hI1_of : ∀ x j, st.I x = some j → st1.I x = some j :=
            hauxpost.I_mono
          have hL1_of : ∀ x, st.I x ≠ none → st1.L x = st.L x :=
            hauxpost.L_frozen
          have hm : min (st1.L a) (st1.L b) ≤ st1.L a := min_le_left _ _
          have hwit : ∀ i, st1.I a = some i → min (st1.L a) (st1.L b) < i →
              ∃ y ∈ st1.stack, st1.I y = some (min (st1.L a) (st1.L b)) ∧
                reachA pref A a y := by
            intro i hi hlt
            have hieq : i = ia := by rw [hi] at hIa1; exact Option.some.inj hIa1
            subst hieq
            rcases min_cases (st1.L a) (st1.L b) with ⟨hmeq, _⟩ | ⟨hmeq, hlt2⟩
            · rw [hmeq] at hlt ⊢
              exact hauxpost.inv.low_witness a haStack1 i hIa1 hlt
            · rw [hmeq] at hlt ⊢
              rcases hauxpost.split with ⟨_, _, _, hLbeq, _, _⟩ |
                  ⟨news, hstk, hbnews, hnewsI, _⟩
              · exfalso
                rw [hLbeq] at hlt
                omega
              · have hbstk1 : b ∈ st1.stack := by
                  rw [hstk]; exact List.mem_append_left _ hbnews
                obtain ⟨i', hi', _, hLlt⟩ := hnewsI b hbnews
                have : i' = st.index := by
                  rw [hi'] at hIb1; exact Option.some.inj hIb1
                subst this
                obtain ⟨y, hy, hyi, hyr⟩ :=
                  hauxpost.inv.low_witness b hbstk1 st.index hIb1 hLlt
                exact ⟨y, hy, hyi, Relation.ReflTransGen.head hedgeab hyr⟩
          have hinvU := Inv_lower_La pref A grays a st1
            (min (st1.L a) (st1.L b)) hauxpost.inv hm hwit
          have hpre' : LoopPre pref A grays a ia bs
              { st1 with L := updf st1.L a (min (st1.L a) (st1.L b)) } := by
            refine ⟨hinvU, hpre.aA, haStack1, hIa1, hsub', ?_, ?_⟩
            · intro b' hb'A hb'bs hedge'
              by_cases hb'b : b' = b
              · subst hb'b
                refine ⟨by simp [hIb1], ?_⟩
                intro _ ib' hib'
                dsimp only at hib' ⊢
                have : ib' = st.index := by
                  rw [hib'] at hIb1; exact Option.some.inj hIb1
                subst this
                rw [updf_same]
                exact le_trans (min_le_right _ _) hLb_le
              · have hnot : b' ∉ b :: bs := by
                  simp only [List.mem_cons, not_or]; exact ⟨hb'b, hb'bs⟩
                obtain ⟨h1, h2⟩ := hpre.processed b' hb'A hnot hedge'
                obtain ⟨j, hj⟩ := Option.ne_none_iff_exists'.mp h1
                refine ⟨by simp [hI1_of b' j hj], ?_⟩
                intro hstk2 ib' hib'
                dsimp only at hstk2 hib' ⊢
                have hb'old : b' ∈ st.stack := hold_stack b' hstk2 h1
                have : ib' = j := by
                  have := hI1_of b' j hj
                  rw [hib'] at this; exact Option.some.inj this
                subst this
                rw [updf_same]
                calc min (st1.L a) (st1.L b) ≤ st1.L a := min_le_left _ _
                  _ = st.L a := hLa1
                  _ ≤ ib' := h2 hb'old ib' hj
            · intro x hx ix hix hiax
              dsimp only at hx hix ⊢
              by_cases hxa : x = a
              · subst hxa; exact le_refl _
              · rw [updf_same, updf_ne _ _ _ _ hxa]
                rcases hauxpost.split with ⟨_, _, hstk, _, _, _⟩ |
                    ⟨news, hstk, _, hnewsI, hnewsL⟩
                · rw [hstk] at hx
                  obtain ⟨jx, hjx⟩ := hpre.inv.stack_vis x hx
                  have : ix = jx := by
                    have := hI1_of x jx hjx
                    rw [hix] at this; exact Option.some.inj this
                  subst this
                  calc min (st1.L a) (st1.L b) ≤ st1.L a := min_le_left _ _
                    _ = st.L a := hLa1
                    _ ≤ st.L x := hpre.prop x hx ix hjx hiax
                    _ = st1.L x := (hL1_of x (by simp [hjx])).symm
                · rw [hstk] at hx
                  rcases List.mem_append.mp hx with hxn | hxo
                  · calc min (st1.L a) (st1.L b) ≤ st1.L b := min_le_right _ _
                      _ ≤ st1.L x := hnewsL x hxn
                  · obtain ⟨jx, hjx⟩ := hpre.inv.stack_vis x hxo
                    have : ix = jx := by
                      have := hI1_of x jx hjx
                      rw [hix] at this; exact Option.some.inj this
                    subst this
                    calc min (st1.L a) (st1.L b) ≤ st1.L a := min_le_left _ _
                      _ = st.L a := hLa1
                      _ ≤ st.L x := hpre.prop x hxo ix hjx hiax
                      _ = st1.L x := (hL1_of x (by simp [hjx])).symm
          have hfuel2 : unvisN A
              { st1 with L := updf st1.L a (min (st1.L a) (st1.L b)) } ≤
              fuel := by
            have h1 : unvisN A
                { st1 with L := updf st1.L a (min (st1.L a) (st1.L b)) } =
                unvisN A st1 := rfl
            rw [h1]
            exact le_trans (le_of_lt hauxpost.unvis_lt) hfuel
          have post2 := ih _ scc1 grays hpre' hfuel2
          refine ⟨post2.inv, ?_, ?_, post2.Ia, post2.aStack, ?_, ?_, ?_, ?_,
            ?_, ?_, post2.processed, post2.prop⟩
          · exact le_trans (le_of_lt hauxpost.index_mono) post2.index_mono
          · intro v i h
            exact post2.I_mono v i (hI1_of v i h)
          · intro v hv hva
            have hv1 : st1.I v ≠ none := by
              obtain ⟨j, hj⟩ := Option.ne_none_iff_exists'.mp hv
              simp [hI1_of v j hj]
            have := post2.L_frozen v hv1 hva
            rw [this]
            dsimp only
            rw [updf_ne _ _ _ _ hva]
            exact hL1_of v hv
          · have h1 := post2.La_mono
            dsimp only at h1
            rw [updf_same] at h1
            calc _ ≤ min (st1.L a) (st1.L b) := h1
              _ ≤ st1.L a := min_le_left _ _
              _ = st.L a := hLa1
          · intro v hfinal hstnone
            by_cases hstU : st1.I v = none
            · exact post2.new_reach v hfinal hstU
            · exact Relation.ReflTransGen.head hedgeab
                (hauxpost.new_reach v hstU hstnone)
          · intro v i hfi hge
            rcases h : st.I v with _ | j
            · rfl
            · exfalso
              have := post2.I_mono v j (hI1_of v j h)
              rw [hfi] at this
              have hij : i = j := Option.some.inj this
              have := (hpre.inv.vis_mem v j h).2
              omega
          · calc unvisN A (Smith_loop pref A fuel a bs
                  ({ st1 with
                     L := updf st1.L a (min (st1.L a) (st1.L b)) },
                   scc1)).1 ≤ _ := post2.unvis_le
              _ = unvisN A st1 := rfl
              _ ≤ unvisN A st := le_of_lt hauxpost.unvis_lt
          · obtain ⟨news2, hfs, hprops2⟩ := post2.stack_shape
            dsimp only at hfs hprops2
            have hidx : st.index < st1.index := hauxpost.index_mono
            rcases hauxpost.split with ⟨_, _, hstk, _, _, _⟩ |
                ⟨news, hstk, _, hnewsI, _⟩
            · refine ⟨news2, by rw [hfs, hstk], ?_⟩
              intro x hx
              obtain ⟨hx0, i, hi1, hi2, hi3⟩ := hprops2 x hx
              refine ⟨?_, i, hi1, hi2, ?_⟩
              · rcases h : st.I x with _ | j
                · rfl
                · exact absurd (hI1_of x j h) (by simp [hx0])
              · omega
            · refine ⟨news2 ++ news, by rw [hfs, hstk, List.append_assoc], ?_⟩
              intro x hx
              rcases List.mem_append.mp hx with hx2 | hxn
              · obtain ⟨hx0, i, hi1, hi2, hi3⟩ := hprops2 x hx2
                refine ⟨?_, i, hi1, hi2, ?_⟩
                · rcases h : st.I x with _ | j
                  · rfl
                  · exact absurd (hI1_of x j h) (by simp [hx0])
                · omega
              · obtain ⟨i, hi1, hge, hLlt⟩ := hnewsI x hxn
                have hx0 : st.I x = none := hauxpost.new_idx x i hi1 hge
                have hxa : x ≠ a := by
                  intro h; rw [h] at hx0; exact hIane hx0
                have hfi : (Smith_loop pref A fuel a bs
                    ({ st1 with
                       L := updf st1.L a (min (st1.L a) (st1.L b)) },
                     scc1)).1.I x = some i := post2.I_mono x i hi1
                have hfL := post2.L_frozen x (by simp [hi1]) hxa
                dsimp only at hfL
                rw [updf_ne _ _ _ _ hxa] at hfL
                exact ⟨hx0, i, hfi, by rw [hfL]; exact hLlt, hge⟩
        · -- visited successor
          rw [if_neg hIb]
          obtain ⟨ib, hib⟩ := Option.ne_none_iff_exists'.mp hIb
          by_cases hbstk : b ∈ st.stack
          · -- on stack: lowlink update
            rw [if_pos hbstk]
            have hgetD : (st.I b).getD 0 = ib := by rw [hib]; rfl
            have hLb_le2 : st.L b ≤ ib := hpre.inv.low_le b ib hib
            have hm : min (st.L a) ((st.I b).getD 0) ≤ st.L a := min_le_left _ _
            have hwit : ∀ i, st.I a = some i →
                min (st.L a) ((st.I b).getD 0) < i →
                ∃ y ∈ st.stack, st.I y = some
                    (min (st.L a) ((st.I b).getD 0)) ∧
                  reachA pref A a y := by
              intro i hi hlt
              rcases min_cases (st.L a) ((st.I b).getD 0) with
                  ⟨hmeq, _⟩ | ⟨hmeq, _⟩
              · rw [hmeq] at hlt ⊢
                exact hpre.inv.low_witness a hpre.aStack i hi hlt
              · rw [hmeq, hgetD]
                exact ⟨b, hbstk, hib, Relation.ReflTransGen.single hedgeab⟩
            have hinvU := Inv_lower_La pref A grays a st
              (min (st.L a) ((st.I b).getD 0)) hpre.inv hm hwit
            have hpre' : LoopPre pref A grays a ia bs
                { st with
                  L := updf st.L a (min (st.L a) ((st.I b).getD 0)) } := by
              refine ⟨hinvU, hpre.aA, hpre.aStack, hpre.Ia, hsub', ?_, ?_⟩
              · intro b' hb'A hb'bs hedge'
                by_cases hb'b : b' = b
                · subst hb'b
                  refine ⟨hIb, ?_⟩
                  intro _ ib' hib'
                  dsimp only at hib' ⊢
                  have : ib' = ib := by
                    rw [hib'] at hib; exact Option.some.inj hib
                  subst this
                  rw [updf_same, hgetD]
                  exact min_le_right _ _
                · have hnot : b' ∉ b :: bs := by
                    simp only [List.mem_cons, not_or]; exact ⟨hb'b, hb'bs⟩
                  obtain ⟨h1, h2⟩ := hpre.processed b' hb'A hnot hedge'
                  refine ⟨h1, ?_⟩
                  intro hstk2 ib' hib'
                  dsimp only at hstk2 hib' ⊢
                  rw [updf_same]
                  exact le_trans (min_le_left _ _) (h2 hstk2 ib' hib')
              · intro x hx ix hix hiax
                dsimp only at hx hix ⊢
                by_cases hxa : x = a
                · subst hxa; exact le_refl _
                · rw [updf_same, updf_ne _ _ _ _ hxa]
                  exact le_trans (min_le_left _ _)
                    (hpre.prop x hx ix hix hiax)
            have post2 := ih _ scc grays hpre' hfuel
            refine ⟨post2.inv, post2.index_mono, post2.I_mono, post2.Ia,
              post2.aStack, ?_, ?_, post2.new_reach, post2.new_idx,
              post2.unvis_le, post2.stack_shape, post2.processed, post2.prop⟩
            · intro v hv hva
              have := post2.L_frozen v hv hva
              rw [this]
              dsimp only
              rw [updf_ne _ _ _ _ hva]
            · have h1 := post2.La_mono
              dsimp only at h1
              rw [updf_same] at h1
              exact le_trans h1 (min_le_left _ _)
          · -- visited, off stack: no update
            rw [if_neg hbstk]
            have hpre' : LoopPre pref A grays a ia bs st := by
              refine ⟨hpre.inv, hpre.aA, hpre.aStack, hpre.Ia, hsub', ?_,
                hpre.prop⟩
              intro b' hb'A hb'bs hedge'
              by_cases hb'b : b' = b
              · subst hb'b
                exact ⟨hIb, fun hstk2 _ _ => absurd hstk2 hbstk⟩
              · have hnot : b' ∉ b :: bs := by
                  simp only [List.mem_cons, not_or]; exact ⟨hb'b, hb'bs⟩
                exact hpre.processed b' hb'A hnot hedge'
            exact ih st scc grays hpre' hfuel
      · rw [if_neg hcond]
        have hnedge : ¬ edgeA pref A a b := by
          intro he
          exact hcond ⟨fun h => he.2.2.1 h.symm, he.2.2.2⟩
        have hpre' : LoopPre pref A grays a ia bs st := by
          refine ⟨hpre.inv, hpre.aA, hpre.aStack, hpre.Ia, hsub', ?_,
            hpre.prop⟩
          intro b' hb'A hb'bs hedge'
          by_cases hb'b : b' = b
          · subst hb'b
            exact absurd hedge' hnedge
          · have hnot : b' ∉ b :: bs := by
              simp only [List.mem_cons, not_or]; exact ⟨hb'b, hb'bs⟩
            exact hpre.processed b' hb'A hnot hedge'
        exact ih st scc grays hpre' hfuel

theorem aux_spec_succ (pref : α → α → ℕ) (A : List α) (fuel : ℕ)
    (hloop : LoopStatement pref A fuel) : AuxStatement pref A (fuel+1) := by
  intro a st grays hinv haA ha hfuel
  have hanstk : a ∉ st.stack := by
    intro h
    obtain ⟨i, hi⟩ := hinv.stack_vis a h
    rw [ha] at hi
    cases hi
  have hgrays_vis : ∀ g ∈ grays, ∃ j, st.I g = some j :=
    fun g hg => hinv.stack_vis g (hinv.gray_stack g hg)
  have hinv1 : Inv pref A (a :: grays)
      { index := st.index + 1, I := updf st.I a (some st.index),
        L := updf st.L a st.index, stack := a :: st.stack } := by
    refine ⟨?_, ?_, ?_, ?_, ?_, ?_, ?_, ?_, ?_⟩
    · intro v i hvi
      dsimp only at hvi ⊢
      by_cases hva : v = a
      · subst hva
        rw [updf_same] at hvi
        injection hvi with h
        exact ⟨haA, by omega⟩
      · rw [updf_ne _ _ _ _ hva] at hvi
        obtain ⟨h1, h2⟩ := hinv.vis_mem v i hvi
        exact ⟨h1, by omega⟩
    · intro u v i hu hv
      dsimp only at hu hv
      by_cases hua : u = a <;> by_cases hva : v = a
      · rw [hua, hva]
      · exfalso
        subst hua
        rw [updf_same] at hu
        rw [updf_ne _ _ _ _ hva] at hv
        injection hu with h
        have := (hinv.vis_mem v i hv).2
        omega
      · exfalso
        subst hva
        rw [updf_same] at hv
        rw [updf_ne _ _ _ _ hua] at hu
        injection hv with h
        have := (hinv.vis_mem u i hu).2
        omega
      · rw [updf_ne _ _ _ _ hua] at hu
        rw [updf_ne _ _ _ _ hva] at hv
        exact hinv.inj u v i hu hv
    · intro v hv
      dsimp only at hv ⊢
      rcases List.mem_cons.mp hv with hva | hvo
      · subst hva
        exact ⟨st.index, updf_same _ _ _⟩
      · have hvna : v ≠ a := fun h => hanstk (h ▸ hvo)
        obtain ⟨j, hj⟩ := hinv.stack_vis v hvo
        exact ⟨j, by rw [updf_ne _ _ _ _ hvna]; exact hj⟩
    · dsimp only
      rw [List.pairwise_cons]
      constructor
      · intro y hy
        have hyna : y ≠ a := fun h => hanstk (h ▸ hy)
        obtain ⟨j, hj⟩ := hinv.stack_vis y hy
        show idxV _ y < idxV _ a
        unfold idxV
        dsimp only
        rw [updf_same, updf_ne _ _ _ _ hyna, hj]
        exact (hinv.vis_mem y j hj).2
      · refine List.Pairwise.imp_of_mem ?_ hinv.stack_sorted
        intro x y hx hy hxy
        have hxna : x ≠ a := fun h => hanstk (h ▸ hx)
        have hyna : y ≠ a := fun h => hanstk (h ▸ hy)
        unfold idxV at hxy ⊢
        dsimp only
        rw [updf_ne _ _ _ _ hxna, updf_ne _ _ _ _ hyna]
        exact hxy
    · intro v i hvi
      dsimp only at hvi ⊢
      by_cases hva : v = a
      · subst hva
        rw [updf_same] at hvi ⊢
        injection hvi with h
        omega
      · rw [updf_ne _ _ _ _ hva] at hvi
        rw [updf_ne _ _ _ _ hva]
        exact hinv.low_le v i hvi
    · intro v hv i hvi hlt
      dsimp only at hv hvi hlt ⊢
      by_cases hva : v = a
      · exfalso
        subst hva
        rw [updf_same] at hvi
        rw [updf_same] at hlt
        injection hvi with h
        omega
      · rw [updf_ne _ _ _ _ hva] at hvi
        rw [updf_ne _ _ _ _ hva] at hlt ⊢
        have hvo : v ∈ st.stack := by
          rcases List.mem_cons.mp hv with h1 | h2
          · exact absurd h1 hva
          · exact h2
        obtain ⟨y, hy, hyI, hyr⟩ := hinv.low_witness v hvo i hvi hlt
        have hyna : y ≠ a := fun h => hanstk (h ▸ hy)
        exact ⟨y, List.mem_cons_of_mem a hy,
          by rw [updf_ne _ _ _ _ hyna]; exact hyI, hyr⟩
    · intro u hu hustk w hw
      dsimp only at hu hustk ⊢
      have huna : u ≠ a := fun h => hustk (h ▸ List.mem_cons_self a st.stack)
      rw [updf_ne _ _ _ _ huna] at hu
      have hustk' : u ∉ st.stack := fun h => hustk (List.mem_cons_of_mem a h)
      obtain ⟨h1, h2⟩ := hinv.popped_closed u hu hustk' w hw
      have hwna : w ≠ a := fun h => h1 (h ▸ ha)
      refine ⟨by rw [updf_ne _ _ _ _ hwna]; exact h1, ?_⟩
      intro hwmem
      rcases List.mem_cons.mp hwmem with h3 | h4
      · exact hwna h3
      · exact h2 h4
    · intro g hg
      dsimp only
      rcases List.mem_cons.mp hg with h1 | h2
      · exact h1 ▸ List.mem_cons_self a st.stack
      · exact List.mem_cons_of_mem a (hinv.gray_stack g h2)
    · intro s hs hsg hstk w hw
      dsimp only at hs hstk ⊢
      have hsa : s ≠ a := fun h => hsg (h ▸ List.mem_cons_self a grays)
      rw [updf_ne _ _ _ _ hsa] at hs
      have hsg' : s ∉ grays := fun h => hsg (List.mem_cons_of_mem a h)
      have hstk' : s ∈ st.stack := by
        rcases List.mem_cons.mp hstk with h1 | h2
        · exact absurd h1 hsa
        · exact h2
      obtain ⟨h1, h2⟩ := hinv.completed s hs hsg' hstk' w hw
      have hwna : w ≠ a := fun h => h1 (h ▸ ha)
      refine ⟨by rw [updf_ne _ _ _ _ hwna]; exact h1, ?_⟩
      intro hwstk iw hiw
      rw [updf_ne _ _ _ _ hwna] at hiw
      rw [updf_ne _ _ _ _ hsa]
      have hwstk' : w ∈ st.stack := by
        rcases List.mem_cons.mp hwstk with h3 | h4
        · exact absurd h3 hwna
        · exact h4
      exact h2 hwstk' iw hiw
  have hpre1 : LoopPre pref A grays a st.index A
      { index := st.index + 1, I := updf st.I a (some st.index),
        L := updf st.L a st.index, stack := a :: st.stack } := by
    refine ⟨hinv1, haA, List.mem_cons_self a st.stack,
      by dsimp only; rw [updf_same], List.Sublist.refl A, ?_, ?_⟩
    · intro b hbA hbnA _
      exact absurd hbA hbnA
    · intro x hx ix hix hge
      dsimp only at hx hix ⊢
      by_cases hxa : x = a
      · subst hxa
        exact le_refl _
      · exfalso
        rw [updf_ne _ _ _ _ hxa] at hix
        have hxo : x ∈ st.stack := by
          rcases List.mem_cons.mp hx with h1 | h2
          · exact absurd h1 hxa
          · exact h2
        have := (hinv.vis_mem x ix hix).2
        omega
  have hunv1 : unvisN A
      { index := st.index + 1, I := updf st.I a (some st.index),
        L := updf st.L a st.index, stack := a :: st.stack } < unvisN A st := by
    apply unvisN_lt_of_new A st _ a ?_ haA ha ?_
    · intro v i h
      have hva : v ≠ a := fun hh => by rw [hh, ha] at h; cases h
      dsimp only
      rw [updf_ne _ _ _ _ hva]
      exact h
    · dsimp only
      rw [updf_same]
      simp
  have hfuel1 : unvisN A
      { index := st.index + 1, I := updf st.I a (some st.index),
        L := updf st.L a st.index, stack := a :: st.stack } ≤ fuel := by
    omega
  rw [Smith_aux_succ]
  dsimp only
  rcases hp : Smith_loop pref A fuel a A
      ({ index := st.index + 1, I := updf st.I a (some st.index),
         L := updf st.L a st.index, stack := a :: st.stack }, none) with
    ⟨st2, scc2⟩
  have post2 := hloop a st.index A _ none grays hpre1 hfuel1
  rw [hp] at post2
  dsimp only at post2 ⊢
  have hIa2 : st2.I a = some st.index := post2.Ia
  have haStk2 : a ∈ st2.stack := post2.aStack
  obtain ⟨news, hsh, hnprops⟩ := post2.stack_shape
  dsimp only at hsh hnprops
  have hnews_na : ∀ x ∈ news, x ≠ a ∧ st.I x = none := by
    intro x hx
    obtain ⟨h0, _⟩ := hnprops x hx
    by_cases hxa : x = a
    · subst hxa
      rw [updf_same] at h0
      cases h0
    · rw [updf_ne _ _ _ _ hxa] at h0
      exact ⟨hxa, h0⟩
  have hanews : a ∉ news := fun h => (hnews_na a h).1 rfl
  have hImono2 : ∀ v j, st.I v = some j → st2.I v = some j := by
    intro v j h
    have hva : v ≠ a := fun hh => by rw [hh, ha] at h; cases h
    apply post2.I_mono
    dsimp only
    rw [updf_ne _ _ _ _ hva]
    exact h
  have hLfro2 : ∀ v, st.I v ≠ none → st2.L v = st.L v := by
    intro v hv
    have hva : v ≠ a := fun hh => hv (hh ▸ ha)
    have h1 := post2.L_frozen v
      (by dsimp only; rw [updf_ne _ _ _ _ hva]; exact hv) hva
    dsimp only at h1
    rw [h1, updf_ne _ _ _ _ hva]
  have hold_idx : ∀ x ∈ st.stack,
      ∃ j, st.I x = some j ∧ st2.I x = some j ∧ j < st.index := by
    intro x hx
    obtain ⟨j, hj⟩ := hinv.stack_vis x hx
    exact ⟨j, hj, hImono2 x j hj, (hinv.vis_mem x j hj).2⟩
  have hzone : ∀ x ∈ st2.stack, ∀ ix, st2.I x = some ix → st.index ≤ ix →
      x = a ∨ x ∈ news := by
    intro x hx ix hix hge
    rw [hsh] at hx
    rcases List.mem_append.mp hx with hxn | hxc
    · exact Or.inr hxn
    · rcases List.mem_cons.mp hxc with hxa | hxo
      · exact Or.inl hxa
      · exfalso
        obtain ⟨j, _, hj2, hjlt⟩ := hold_idx x hxo
        rw [hix] at hj2
        have := Option.some.inj hj2
        omega
  have hnews_stk : ∀ x ∈ news, x ∈ st2.stack := by
    intro x hx
    rw [hsh]
    exact List.mem_append_left _ hx
  have hnews_vis : ∀ x ∈ news,
      ∃ i, st2.I x = some i ∧ st2.L x < i ∧ st.index + 1 ≤ i := by
    intro x hx
    obtain ⟨_, i, h1, h2, h3⟩ := hnprops x hx
    exact ⟨i, h1, h2, h3⟩
  have hnews_A : ∀ x ∈ news, x ∈ A := by
    intro x hx
    obtain ⟨i, h1, _, _⟩ := hnews_vis x hx
    exact (post2.inv.vis_mem x i h1).1
  have hnews_nogray : ∀ x ∈ news, x ∉ a :: grays := by
    intro x hx hmem
    rcases List.mem_cons.mp hmem with h1 | h2
    · exact (hnews_na x hx).1 h1
    · obtain ⟨j, hj⟩ := hgrays_vis x h2
      rw [(hnews_na x hx).2] at hj
      cases hj
  have hescape : ∀ v w, reachA pref A v w → st2.I v ≠ none →
      v ∉ st2.stack → st2.I w ≠ none ∧ w ∉ st2.stack := by
    intro v w h
    induction h with
    | refl =>
        intro h1 h2
        exact ⟨h1, h2⟩
    | tail hvx e ihx =>
        rename_i x w'
        intro h1 h2
        obtain ⟨hx1, hx2⟩ := ihx h1 h2
        exact post2.inv.popped_closed x hx1 hx2 w' e
  have hidx2 : st.index + 1 ≤ st2.index := post2.index_mono
  by_cases hroot : st2.I a = some (st2.L a)
  · rw [if_pos hroot]
    dsimp only
    have hLa2 : st2.L a = st.index := by
      rw [hIa2] at hroot
      exact (Option.some.inj hroot).symm
    obtain ⟨p1, hp1, hnp1, hsplit⟩ := popUntil_spec st2.stack a haStk2
    have hsplit2 : p1 ++ a :: (popUntil st2.stack a).2 =
        news ++ a :: st.stack := by
      have h := hsplit.symm.trans hsh
      rw [← h]
      simp
    obtain ⟨hpn, hrs⟩ := append_cons_inj a p1 news (popUntil st2.stack a).2
      st.stack hnp1 hanews hsplit2
    have hreach_a : ∀ n, ∀ v ∈ st2.stack, ∀ iv, st2.I v = some iv →
        st.index ≤ iv → iv < n → reachA pref A v a := by
      intro n
      induction n with
      | zero =>
          intro v _ iv _ _ h
          exact absurd h (by omega)
      | succ n ihn =>
          intro v hv iv hIv hge hlt
          by_cases hva : v = a
          · subst hva
            exact Relation.ReflTransGen.refl
          · have hvnews : v ∈ news := by
              rcases hzone v hv iv hIv hge with h1 | h2
              · exact absurd h1 hva
              · exact h2
            obtain ⟨i, hi, hLlt, _⟩ := hnews_vis v hvnews
            have hieq : i = iv := by
              rw [hIv] at hi
              exact (Option.some.inj hi).symm
            subst hieq
            obtain ⟨y, hy, hyI, hyr⟩ :=
              post2.inv.low_witness v hv i hIv hLlt
            have hyzone : st.index ≤ st2.L v := by
              have := post2.prop v hv i hIv hge
              omega
            have hLv_lt : st2.L v < n := by omega
            exact Relation.ReflTransGen.trans hyr
              (ihn y hy (st2.L v) hyI hyzone hLv_lt)
    have hfwd : ∀ v, reachA pref A a v →
        (v = a ∨ v ∈ news) ∨ (st2.I v ≠ none ∧ v ∉ st2.stack) := by
      intro v h
      induction h with
      | refl => exact Or.inl (Or.inl rfl)
      | tail hax e ihx =>
          rename_i x w
          rcases ihx with hZ | hoff
          · have hfacts : st2.I w ≠ none ∧
                (w ∈ st2.stack → ∀ iw, st2.I w = some iw →
                  st.index ≤ iw) := by
              rcases hZ with hxa | hxn
              · subst hxa
                obtain ⟨h1, h2⟩ := post2.processed w e.2.1 e
                refine ⟨h1, fun hw iw hiw => ?_⟩
                have := h2 hw iw hiw
                omega
              · obtain ⟨ix, hix, _, hixge⟩ := hnews_vis x hxn
                obtain ⟨h1, h2⟩ := post2.inv.completed x (by simp [hix])
                  (hnews_nogray x hxn) (hnews_stk x hxn) w e
                refine ⟨h1, fun hw iw hiw => ?_⟩
                have h3 := h2 hw iw hiw
                have h4 := post2.prop x (hnews_stk x hxn) ix hix (by omega)
                omega
            by_cases hw : w ∈ st2.stack
            · obtain ⟨iw, hiw⟩ := post2.inv.stack_vis w hw
              exact Or.inl ((hzone w hw iw hiw
                (hfacts.2 hw iw hiw)).elim Or.inl Or.inr)
            · exact Or.inr ⟨hfacts.1, hw⟩
          · exact Or.inr (post2.inv.popped_closed x hoff.1 hoff.2 w e)
    have hSCC : ∀ v, v ∈ (popUntil st2.stack a).1 ↔
        v ∈ A ∧ reachA pref A a v ∧ reachA pref A v a := by
      intro v
      rw [hp1]
      constructor
      · intro hvp
        rcases List.mem_append.mp hvp with hvn | hva
        · rw [hpn] at hvn
          obtain ⟨i, hi, _, hge⟩ := hnews_vis v hvn
          refine ⟨hnews_A v hvn, ?_, ?_⟩
          · apply post2.new_reach v (by simp [hi])
            dsimp only
            rw [updf_ne _ _ _ _ (hnews_na v hvn).1]
            exact (hnews_na v hvn).2
          · exact hreach_a (i+1) v (hnews_stk v hvn) i hi
              (by omega) (by omega)
        · have hva2 : v = a := by simpa using hva
          subst hva2
          exact ⟨haA, Relation.ReflTransGen.refl, Relation.ReflTransGen.refl⟩
      · rintro ⟨hvA, hav, hva2⟩
        rcases hfwd v hav with hZ | hoff
        · rcases hZ with h1 | h2
          · subst h1
            exact List.mem_append_right _ (by simp)
          · exact List.mem_append_left _ (by rw [hpn]; exact h2)
        · exfalso
          obtain ⟨_, hna⟩ := hescape v a hva2 hoff.1 hoff.2
          exact hna haStk2
    rw [hrs]
    have hstk3 : ∀ w ∈ st.stack, w ∈ st2.stack := by
      intro w hw
      rw [hsh]
      exact List.mem_append_right _ (List.mem_cons_of_mem a hw)
    refine ⟨?_, by dsimp only; omega, hImono2, hIa2, hLfro2, ?_, ?_, ?_, ?_⟩
    · -- invariant for the popped state
      refine ⟨post2.inv.vis_mem, post2.inv.inj, ?_, ?_, post2.inv.low_le,
        ?_, ?_, hinv.gray_stack, ?_⟩
      · intro v hv
        obtain ⟨j, _, hj2, _⟩ := hold_idx v hv
        exact ⟨j, hj2⟩
      · refine List.Pairwise.sublist ?_ post2.inv.stack_sorted
        rw [hsh]
        exact (List.sublist_cons_self a st.stack).trans
          (List.sublist_append_right news _)
      · intro v hv i hvi hlt
        dsimp only at hvi hlt ⊢
        obtain ⟨j, hj0, hj2, hjlt⟩ := hold_idx v hv
        have hji : j = i := by
          rw [hvi] at hj2
          exact (Option.some.inj hj2).symm
        subst hji
        obtain ⟨y, hy, hyI, hyr⟩ :=
          post2.inv.low_witness v (hstk3 v hv) j hvi hlt
        have hLv : st2.L v ≤ j := post2.inv.low_le v j hvi
        refine ⟨y, ?_, hyI, hyr⟩
        rw [hsh] at hy
        rcases List.mem_append.mp hy with hyn | hyc
        · exfalso
          obtain ⟨iy, hiy, _, hiyge⟩ := hnews_vis y hyn
          rw [hyI] at hiy
          have := Option.some.inj hiy
          omega
        · rcases List.mem_cons.mp hyc with hya | hyo
          · exfalso
            subst hya
            rw [hIa2] at hyI
            have := Option.some.inj hyI
            omega
          · exact hyo
      · intro u hu hustk w hw
        dsimp only at hustk ⊢
        by_cases hu2 : u ∈ st2.stack
        · have huz : u = a ∨ u ∈ news := by
            rw [hsh] at hu2
            rcases List.mem_append.mp hu2 with h1 | h2
            · exact Or.inr h1
            · rcases List.mem_cons.mp h2 with h3 | h4
              · exact Or.inl h3
              · exact absurd h4 hustk
          have hfacts : st2.I w ≠ none ∧
              (w ∈ st2.stack → ∀ iw, st2.I w = some iw →
                st.index ≤ iw) := by
            rcases huz with hua | hun
            · subst hua
              obtain ⟨h1, h2⟩ := post2.processed w hw.2.1 hw
              refine ⟨h1, fun hw2 iw hiw => ?_⟩
              have := h2 hw2 iw hiw
              omega
            · obtain ⟨ix, hix, _, hixge⟩ := hnews_vis u hun
              obtain ⟨h1, h2⟩ := post2.inv.completed u (by simp [hix])
                (hnews_nogray u hun) (hnews_stk u hun) w hw
              refine ⟨h1, fun hw2 iw hiw => ?_⟩
              have h3 := h2 hw2 iw hiw
              have h4 := post2.prop u (hnews_stk u hun) ix hix (by omega)
              omega
          refine ⟨hfacts.1, ?_⟩
          intro hwr
          obtain ⟨j, _, hj2, hjlt⟩ := hold_idx w hwr
          have := hfacts.2 (hstk3 w hwr) j hj2
          omega
        · obtain ⟨h1, h2⟩ := post2.inv.popped_closed u hu hu2 w hw
          exact ⟨h1, fun hwr => h2 (hstk3 w hwr)⟩
      · intro s hs hsg hstk w hw
        dsimp only at hstk ⊢
        have hsa : s ≠ a := fun h => hanstk (h ▸ hstk)
        obtain ⟨h1, h2⟩ := post2.inv.completed s hs
          (by simp only [List.mem_cons, not_or]; exact ⟨hsa, hsg⟩)
          (hstk3 s hstk) w hw
        exact ⟨h1, fun hwstk iw hiw => h2 (hstk3 w hwstk) iw hiw⟩
    · intro v hv hnone
      by_cases hva : v = a
      · subst hva
        exact Relation.ReflTransGen.refl
      · apply post2.new_reach v hv
        dsimp only
        rw [updf_ne _ _ _ _ hva]
        exact hnone
    · intro v i hvi hge
      rcases h : st.I v with _ | j
      · rfl
      · exfalso
        have h2 := hImono2 v j h
        rw [hvi] at h2
        have := Option.some.inj h2
        have := (hinv.vis_mem v j h).2
        omega
    · have h1 : unvisN A { st2 with stack := st.stack } = unvisN A st2 := rfl
      rw [h1]
      have h2 := post2.unvis_le
      omega
    · left
      have hstk_nd : st2.stack.Nodup :=
        post2.inv.stack_sorted.imp
          (fun h he => absurd h (by rw [he]; exact lt_irrefl _))
      have hsub : (p1 ++ [a]).Sublist st2.stack := by
        rw [hsplit]
        exact List.sublist_append_left _ _
      have hpop_nd : (popUntil st2.stack a).1.Nodup := by
        rw [hp1]
        exact List.Nodup.sublist hsub hstk_nd
      exact ⟨(popUntil st2.stack a).1, rfl, rfl, hLa2, hpop_nd, hSCC⟩
  · rw [if_neg hroot]
    dsimp only
    have hLa2lt : st2.L a < st.index := by
      have h1 := post2.La_mono
      dsimp only at h1
      rw [updf_same] at h1
      have h2 : st2.L a ≠ st.index := fun h => hroot (by rw [hIa2, h])
      omega
    refine ⟨?_, by omega, hImono2, hIa2, hLfro2, ?_, ?_, ?_, ?_⟩
    · refine ⟨post2.inv.vis_mem, post2.inv.inj, post2.inv.stack_vis,
        post2.inv.stack_sorted, post2.inv.low_le, post2.inv.low_witness,
        post2.inv.popped_closed, ?_, ?_⟩
      · intro g hg
        rw [hsh]
        exact List.mem_append_right _
          (List.mem_cons_of_mem a (hinv.gray_stack g hg))
      · intro s hs hsg hstk w hw
        by_cases hsa : s = a
        · subst hsa
          exact post2.processed w hw.2.1 hw
        · exact post2.inv.completed s hs
            (by simp only [List.mem_cons, not_or]; exact ⟨hsa, hsg⟩)
            hstk w hw
    · intro v hv hnone
      by_cases hva : v = a
      · subst hva
        exact Relation.ReflTransGen.refl
      · apply post2.new_reach v hv
        dsimp only
        rw [updf_ne _ _ _ _ hva]
        exact hnone
    · intro v i hvi hge
      rcases h : st.I v with _ | j
      · rfl
      · exfalso
        have h2 := hImono2 v j h
        rw [hvi] at h2
        have := Option.some.inj h2
        have := (hinv.vis_mem v j h).2
        omega
    · have h2 := post2.unvis_le
      omega
    · right
      refine ⟨news ++ [a], by rw [hsh]; simp, by simp, ?_, ?_⟩
      · intro x hx
        rcases List.mem_append.mp hx with hxn | hxa
        · obtain ⟨i, hi, hLlt, hge⟩ := hnews_vis x hxn
          exact ⟨i, hi, by omega, hLlt⟩
        · have hxa2 : x = a := by simpa using hxa
          subst hxa2
          exact ⟨st.index, hIa2, le_refl _, hLa2lt⟩
      · intro x hx
        rcases List.mem_append.mp hx with hxn | hxa
        · obtain ⟨i, hi, _, hge⟩ := hnews_vis x hxn
          exact post2.prop x (hnews_stk x hxn) i hi (by omega)
        · have hxa2 : x = a := by simpa using hxa
          subst hxa2
          exact le_refl _

theorem aux_spec (pref : α → α → ℕ) (A : List α) :
    ∀ fuel, AuxStatement pref A fuel := by
  intro fuel
  induction fuel with
  | zero => exact aux_spec_zero pref A
  | succ n ih => exact aux_spec_succ pref A n (loop_spec_of_aux pref A n ih)

/-- Invariant of the top-level loop over unvisited vertices in `Smith_set`:
between calls the stack is empty and the last popped component (if any)
is the mutual-reachability class of some root `r` that reaches every
visited vertex. -/
def TInv (pref : α → α → ℕ) (A : List α)
    (p : SmithState α × Option (List α)) : Prop :=
  Inv pref A [] p.1 ∧ p.1.stack = [] ∧
    ((p.2 = none ∧ ∀ v, p.1.I v = none) ∨
     (∃ r lst, p.2 = some lst ∧ r ∈ A ∧ p.1.I r ≠ none ∧ lst.Nodup ∧
       (∀ v, v ∈ lst ↔ v ∈ A ∧ reachA pref A r v ∧ reachA pref A v r) ∧
       (∀ v, p.1.I v ≠ none → reachA pref A r v)))

theorem TInv_step (pref : α → α → ℕ) (A : List α) (a : α) (haA : a ∈ A)
    (p : SmithState α × Option (List α)) (hT : TInv pref A p) :
    TInv pref A
      (if p.1.I a = none then Smith_aux pref A A.length a p.1 else p) ∧
    (∀ v, p.1.I v ≠ none →
      (if p.1.I a = none then
        Smith_aux pref A A.length a p.1 else p).1.I v ≠ none) ∧
    (if p.1.I a = none then
      Smith_aux pref A A.length a p.1 else p).1.I a ≠ none := by
  by_cases ha : p.1.I a = none
  · rw [if_pos ha]
    obtain ⟨hinv, hstk, hbranch⟩ := hT
    have hfuel : unvisN A p.1 ≤ A.length := List.length_filter_le _ _
    have post := aux_spec pref A A.length a p.1 [] hinv haA ha hfuel
    rcases hq : Smith_aux pref A A.length a p.1 with ⟨st', res⟩
    rw [hq] at post
    dsimp only at post ⊢
    have hIa' : st'.I a = some p.1.index := post.Ia
    rcases post.split with ⟨popped, hres, hstq, _, hnd, hiff⟩ |
        ⟨news, hstq, hanews, hnewsI, _⟩
    · -- the call popped a component; the stack is empty again
      have hreach_all : ∀ v, st'.I v ≠ none → reachA pref A a v := by
        intro v hv
        by_cases hv0 : p.1.I v = none
        · exact post.new_reach v hv hv0
        · obtain ⟨j, hj⟩ := Option.ne_none_iff_exists'.mp hv0
          have hvA : v ∈ A := (hinv.vis_mem v j hj).1
          have hva : v ≠ a := fun h => (h ▸ hv0) ha
          rcases semicompleteA pref A a v haA hvA (fun h => hva h.symm) with
            he | he
          · exact Relation.ReflTransGen.single he
          · exfalso
            have := (hinv.popped_closed v hv0
              (by rw [hstk]; exact List.not_mem_nil v) a he).1
            exact this ha
      refine ⟨⟨post.inv, by rw [hstq, hstk], Or.inr
        ⟨a, popped, hres, haA, by simp [hIa'], hnd, hiff, hreach_all⟩⟩,
        ?_, by simp [hIa']⟩
      intro v hv
      obtain ⟨j, hj⟩ := Option.ne_none_iff_exists'.mp hv
      simp [post.I_mono v j hj]
    · -- impossible: with an empty pre-stack the root test must succeed
      exfalso
      obtain ⟨i, hIa2, hge, hLlt⟩ := hnewsI a hanews
      have hieq : i = p.1.index := by
        rw [hIa2] at hIa'
        exact Option.some.inj hIa'
      subst hieq
      have haStk' : a ∈ st'.stack := by
        rw [hstq]
        exact List.mem_append_left _ hanews
      obtain ⟨y, hy, hyI, _⟩ :=
        post.inv.low_witness a haStk' p.1.index hIa2 hLlt
      have hynews : y ∈ news := by
        rw [hstq, hstk] at hy
        simpa using hy
      obtain ⟨iy, hIy, hgey, _⟩ := hnewsI y hynews
      rw [hyI] at hIy
      have := Option.some.inj hIy
      omega
  · rw [if_neg ha]
    exact ⟨hT, fun v h => h, ha⟩

theorem TInv_foldl (pref : α → α → ℕ) (A : List α) :
    ∀ (rest : List α), (∀ x ∈ rest, x ∈ A) →
    ∀ p, TInv pref A p →
    TInv pref A (rest.foldl (fun p a =>
        if p.1.I a = none then Smith_aux pref A A.length a p.1 else p) p) ∧
    (∀ v, p.1.I v ≠ none → (rest.foldl (fun p a =>
        if p.1.I a = none then
          Smith_aux pref A A.length a p.1 else p) p).1.I v ≠ none) ∧
    (∀ v ∈ rest, (rest.foldl (fun p a =>
        if p.1.I a = none then
          Smith_aux pref A A.length a p.1 else p) p).1.I v ≠ none) := by
  intro rest
  induction rest with
  | nil =>
      intro _ p hT
      exact ⟨hT, fun v h => h, fun v hv => absurd hv (List.not_mem_nil v)⟩
  | cons a rest ih =>
      intro hsub p hT
      rw [List.foldl_cons]
      obtain ⟨h1, h2, h3⟩ :=
        TInv_step pref A a (hsub a (List.mem_cons_self a rest)) p hT
      obtain ⟨g1, g2, g3⟩ :=
        ih (fun x hx => hsub x (List.mem_cons_of_mem _ hx)) _ h1
      refine ⟨g1, fun v hv => g2 v (h2 v hv), ?_⟩
      intro v hv
      rcases List.mem_cons.mp hv with h | h
      · exact g2 v (h ▸ h3)
      · exact g3 v h

theorem TInv_init (pref : α → α → ℕ) (A : List α) :
    TInv pref A (⟨0, fun _ => none, fun _ => 0, []⟩, none) := by
  refine ⟨⟨?_, ?_, ?_, ?_, ?_, ?_, ?_, ?_, ?_⟩, rfl,
    Or.inl ⟨rfl, fun v => rfl⟩⟩
  · intro v i h
    exact Option.noConfusion h
  · intro u v i hu
    exact Option.noConfusion hu
  · intro v hv
    exact absurd hv (List.not_mem_nil v)
  · exact List.Pairwise.nil
  · intro v i h
    exact Option.noConfusion h
  · intro v hv
    exact absurd hv (List.not_mem_nil v)
  · intro u hu
    exact absurd rfl hu
  · intro g hg
    exact absurd hg (List.not_mem_nil g)
  · intro s hs
    exact absurd rfl hs

theorem Smith_set_main (A : List α) (P : Profile α) (params : Params)
    (hA : A ≠ []) :
    ∃ r ∈ A, (Smith_set A P params).Nodup ∧
      (∀ v, v ∈ Smith_set A P params ↔ v ∈ A ∧
        reachA (pairwise_prefs A P params) A r v ∧
        reachA (pairwise_prefs A P params) A v r) ∧
      (∀ v ∈ A, reachA (pairwise_prefs A P params) A r v) := by
  obtain ⟨a0, ha0⟩ := List.exists_mem_of_ne_nil A hA
  obtain ⟨⟨hinv, hstk, hbr⟩, _, hall⟩ :=
    TInv_foldl (pairwise_prefs A P params) A A (fun x hx => hx) _
      (TInv_init (pairwise_prefs A P params) A)
  rcases hbr with ⟨_, hnone⟩ | ⟨r, lst, hsome, hrA, _, hnd, hiff, hreach⟩
  · exact absurd (hnone a0) (hall a0 ha0)
  · have hW : Smith_set A P params =
        ((A.foldl (fun p a =>
          if p.1.I a = none then
            Smith_aux (pairwise_prefs A P params) A A.length a p.1
          else p)
          (⟨0, fun _ => none, fun _ => 0, []⟩, none)).2.getD
            []).insertionSort (· ≤ ·) := rfl
    rw [hsome] at hW
    have hperm : (Smith_set A P params).Perm lst := by
      rw [hW]
      exact List.perm_insertionSort _ _
    refine ⟨r, hrA, hperm.nodup_iff.mpr hnd, ?_, ?_⟩
    · intro v
      rw [hperm.mem_iff]
      exact hiff v
    · intro v hv
      exact hreach v (hall v hv)

/-- C1 (amended): for every nonempty alternative list `A`, profile `P`
and policy `params`, `Smith_set` returns a nonempty subset of `A` that
(i) strictly beats every outside alternative, (ii) is contained in every
nonempty set with that strict-domination property (so it is the unique
minimal one), and (iii) consists exactly of the alternatives that reach
every alternative of `A` in the weak-beat graph — i.e. the dominant
strongly connected component, the one completed last by the traversal. -/
theorem Smith_set_spec (A : List α) (P : Profile α) (params : Params)
    (hA : A ≠ []) :
    (Smith_set A P params ≠ [] ∧ ∀ w ∈ Smith_set A P params, w ∈ A) ∧
    (∀ w ∈ Smith_set A P params, ∀ b ∈ A, b ∉ Smith_set A P params →
      pairwise_prefs A P params b w < pairwise_prefs A P params w b) ∧
    (∀ T : List α, T ≠ [] → (∀ t ∈ T, t ∈ A) →
      (∀ t ∈ T, ∀ b ∈ A, b ∉ T →
        pairwise_prefs A P params b t < pairwise_prefs A P params t b) →
      ∀ w ∈ Smith_set A P params, w ∈ T) ∧
    (∀ v, v ∈ Smith_set A P params ↔
      v ∈ A ∧ ∀ b ∈ A, reachA (pairwise_prefs A P params) A v b) := by
  obtain ⟨r, hrA, hnd, hiff, hrall⟩ := Smith_set_main A P params hA
  have htop : ∀ v, v ∈ Smith_set A P params ↔
      v ∈ A ∧ ∀ b ∈ A, reachA (pairwise_prefs A P params) A v b := by
    intro v
    rw [hiff v]
    constructor
    · rintro ⟨hvA, _, hvr⟩
      exact ⟨hvA, fun b hb => Relation.ReflTransGen.trans hvr (hrall b hb)⟩
    · rintro ⟨hvA, hall2⟩
      exact ⟨hvA, hrall v hvA, hall2 r hrA⟩
  have hrW : r ∈ Smith_set A P params :=
    (hiff r).mpr ⟨hrA, Relation.ReflTransGen.refl, Relation.ReflTransGen.refl⟩
  refine ⟨⟨List.ne_nil_of_mem hrW, fun w hw => ((hiff w).mp hw).1⟩,
    ?_, ?_, htop⟩
  · intro w hw b hbA hbW
    by_contra hcon
    push_neg at hcon
    have hbw : b ≠ w := fun h => hbW (h ▸ hw)
    have he : edgeA (pairwise_prefs A P params) A b w :=
      ⟨hbA, ((hiff w).mp hw).1, hbw, hcon⟩
    have hwall := ((htop w).mp hw).2
    have : b ∈ Smith_set A P params :=
      (htop b).mpr ⟨hbA, fun c hc =>
        Relation.ReflTransGen.head he (hwall c hc)⟩
    exact hbW this
  · intro T hTne hTsub hTdom w hw
    by_contra hwT
    obtain ⟨t, ht⟩ := List.exists_mem_of_ne_nil T hTne
    have hwt : reachA (pairwise_prefs A P params) A w t :=
      ((htop w).mp hw).2 t (hTsub t ht)
    obtain ⟨x, y, hxT, hyT, hedge⟩ :=
      reach_crossing (pairwise_prefs A P params) A T w t hwt hwT ht
    have h1 := hTdom y hyT x hedge.1 hxT
    have h2 := hedge.2.2.2
    omega

/-- C1 witness: a concrete instance of the amended Smith-set theorem. -/
theorem Smith_set_spec_witness :
    (([0, 1] : List ℕ) ≠ []) ∧
    ((Smith_set [0, 1] [([some 0, some 1], 1)] none ≠ [] ∧
        ∀ w ∈ Smith_set [0, 1] [([some 0, some 1], 1)] none,
          w ∈ ([0, 1] : List ℕ)) ∧
      (∀ w ∈ Smith_set [0, 1] [([some 0, some 1], 1)] none,
        ∀ b ∈ ([0, 1] : List ℕ),
          b ∉ Smith_set [0, 1] [([some 0, some 1], 1)] none →
          pairwise_prefs [0, 1] [([some 0, some 1], 1)] none b w <
          pairwise_prefs [0, 1] [([some 0, some 1], 1)] none w b) ∧
      (∀ T : List ℕ, T ≠ [] → (∀ t ∈ T, t ∈ ([0, 1] : List ℕ)) →
        (∀ t ∈ T, ∀ b ∈ ([0, 1] : List ℕ), b ∉ T →
          pairwise_prefs [0, 1] [([some 0, some 1], 1)] none b t <
          pairwise_prefs [0, 1] [([some 0, some 1], 1)] none t b) →
        ∀ w ∈ Smith_set [0, 1] [([some 0, some 1], 1)] none, w ∈ T) ∧
      (∀ v, v ∈ Smith_set [0, 1] [([some 0, some 1], 1)] none ↔
        v ∈ ([0, 1] : List ℕ) ∧ ∀ b ∈ ([0, 1] : List ℕ),
          reachA (pairwise_prefs [0, 1] [([some 0, some 1], 1)] none)
            [0, 1] v b)) :=
  ⟨by decide, Smith_set_spec [0, 1] [([some 0, some 1], 1)] none (by decide)⟩

/-- C1 counterexample: with two candidates tied head-to-head, `Smith_set`
returns both, although the singleton `[0]` is a strictly smaller nonempty
set whose member weakly beats the outside alternative — so the returned
set is not the minimal nonempty set whose members weakly beat every
outsider, contrary to the claim's wording. -/
theorem Smith_set_counterexample :
    Smith_set [0, 1] [([some 0, some 1], 1), ([some 1, some 0], 1)] none
      = [0, 1] ∧
    (∀ b ∈ ([0, 1] : List ℕ), b ∉ ([0] : List ℕ) →
      pairwise_prefs [0, 1] [([some 0, some 1], 1), ([some 1, some 0], 1)]
        none b 0 ≤
      pairwise_prefs [0, 1] [([some 0, some 1], 1), ([some 1, some 0], 1)]
        none 0 b) ∧
    ([0] : List ℕ).length <
      (Smith_set [0, 1] [([some 0, some 1], 1), ([some 1, some 0], 1)]
        none).length := by
  refine ⟨?_, ?_, ?_⟩ <;> decide

/-- `Condorcet_winner(A, P, params)` from `vs.py`: the first alternative
that strictly beats every rival head-to-head, if any. -/
def Condorcet_winner (A : List α) (P : Profile α) (params : Params) :
    Option α :=
  let pref := pairwise_prefs A P params
  A.find? (fun a => A.all (fun b => b == a || decide (pref b a < pref a b)))

theorem eq_singleton_of_nodup (l : List α) (c : α) (hnd : l.Nodup)
    (h : ∀ v, v ∈ l ↔ v = c) : l = [c] := by
  cases l with
  | nil => exact absurd ((h c).mpr rfl) (List.not_mem_nil c)
  | cons x t =>
      have hx : x = c := (h x).mp (List.mem_cons_self x t)
      subst hx
      cases t with
      | nil => rfl
      | cons y t2 =>
          exfalso
          have hy : y = x :=
            (h y).mp (List.mem_cons_of_mem _ (List.mem_cons_self y t2))
          exact (List.nodup_cons.mp hnd).1 (hy ▸ List.mem_cons_self y t2)

/-- C3: at most one alternative strictly beats every rival;
`Condorcet_winner` returns `some c` exactly when `c` is such an
alternative (hence `none` when no Condorcet winner exists); and when a
Condorcet winner exists, `Smith_set` returns exactly that singleton. -/
theorem Condorcet_winner_spec (A : List α) (P : Profile α)
    (params : Params) :
    (∀ a b, (a ∈ A ∧ ∀ x ∈ A, x ≠ a →
        pairwise_prefs A P params x a < pairwise_prefs A P params a x) →
      (b ∈ A ∧ ∀ x ∈ A, x ≠ b →
        pairwise_prefs A P params x b < pairwise_prefs A P params b x) →
      a = b) ∧
    (∀ c, Condorcet_winner A P params = some c ↔
      c ∈ A ∧ ∀ x ∈ A, x ≠ c →
        pairwise_prefs A P params x c < pairwise_prefs A P params c x) ∧
    (∀ c, c ∈ A → (∀ x ∈ A, x ≠ c →
        pairwise_prefs A P params x c < pairwise_prefs A P params c x) →
      Smith_set A P params = [c]) := by
  have huniq : ∀ a b, (a ∈ A ∧ ∀ x ∈ A, x ≠ a →
      pairwise_prefs A P params x a < pairwise_prefs A P params a x) →
      (b ∈ A ∧ ∀ x ∈ A, x ≠ b →
        pairwise_prefs A P params x b < pairwise_prefs A P params b x) →
      a = b := by
    intro a b ha hb
    by_contra hab
    have h1 := ha.2 b hb.1 (fun h => hab h.symm)
    have h2 := hb.2 a ha.1 hab
    omega
  have hpred : ∀ c, c ∈ A →
      ((A.all (fun b => b == c ||
        decide (pairwise_prefs A P params b c <
          pairwise_prefs A P params c b))) = true ↔
      (∀ x ∈ A, x ≠ c →
        pairwise_prefs A P params x c < pairwise_prefs A P params c x)) := by
    intro c _
    rw [List.all_eq_true]
    constructor
    · intro h x hx hxc
      have := h x hx
      rcases Bool.or_eq_true_iff.mp this with h1 | h2
      · exact absurd (beq_iff_eq.mp h1) hxc
      · exact of_decide_eq_true h2
    · intro h x hx
      by_cases hxc : x = c
      · subst hxc
        simp
      · simp only [Bool.or_eq_true, beq_iff_eq, decide_eq_true_eq]
        exact Or.inr (h x hx hxc)
  have hiffc : ∀ c, Condorcet_winner A P params = some c ↔
      c ∈ A ∧ ∀ x ∈ A, x ≠ c →
        pairwise_prefs A P params x c < pairwise_prefs A P params c x := by
    intro c
    constructor
    · intro h
      have hcA : c ∈ A := List.mem_of_find?_eq_some h
      have hp := List.find?_some h
      exact ⟨hcA, (hpred c hcA).mp hp⟩
    · rintro ⟨hcA, hcw⟩
      rcases hfind : Condorcet_winner A P params with _ | c'
      · exfalso
        have := List.find?_eq_none.mp hfind c hcA
        exact this ((hpred c hcA).mpr hcw)
      · have hc'A : c' ∈ A := List.mem_of_find?_eq_some hfind
        have hp' := List.find?_some hfind
        have hcw' := (hpred c' hc'A).mp hp'
        have : c' = c := huniq c' c ⟨hc'A, hcw'⟩ ⟨hcA, hcw⟩
        rw [this]
  refine ⟨huniq, hiffc, ?_⟩
  intro c hcA hcw
  have hA : A ≠ [] := List.ne_nil_of_mem hcA
  obtain ⟨r, hrA, hnd, hiff, hrall⟩ := Smith_set_main A P params hA
  have hcreach : ∀ b ∈ A, reachA (pairwise_prefs A P params) A c b := by
    intro b hb
    by_cases hbc : b = c
    · subst hbc
      exact Relation.ReflTransGen.refl
    · exact Relation.ReflTransGen.single
        ⟨hcA, hb, fun h => hbc h.symm, le_of_lt (hcw b hb hbc)⟩
  have hnoedge : ∀ x, ¬ edgeA (pairwise_prefs A P params) A x c := by
    intro x he
    have := hcw x he.1 he.2.2.1
    have := he.2.2.2
    omega
  apply eq_singleton_of_nodup _ _ hnd
  intro v
  constructor
  · intro hv
    obtain ⟨hvA, hrv, hvr⟩ := (hiff v).mp hv
    have hvc : reachA (pairwise_prefs A P params) A v c :=
      Relation.ReflTransGen.trans hvr (hrall c hcA)
    rcases Relation.ReflTransGen.cases_tail hvc with h | ⟨x, _, hxc⟩
    · exact h.symm
    · exact absurd hxc (hnoedge x)
  · intro hv
    subst hv
    exact (hiff v).mpr ⟨hcA, hrall v hcA, hcreach r hrA⟩

/-- C3 witness: on a concrete profile with Condorcet winner 0, the
theorem yields `Smith_set = [0]`. -/
theorem Condorcet_winner_spec_witness :
    Smith_set [0, 1] [([some 0, some 1], 1)] none = [0] :=
  (Condorcet_winner_spec [0, 1] [([some 0, some 1], 1)] none).2.2 0
    (by decide) (by decide)

/-- `greaterD(ef, gh)` from `vs.py`: the Schulze win-order on pairs
`(pref[e,f], pref[f,e])`. -/
def greaterD (ef gh : ℕ × ℕ) : Bool :=
  if ef.2 < ef.1 ∧ gh.1 ≤ gh.2 then true
  else if ef.2 ≤ ef.1 ∧ gh.1 < gh.2 then true
  else if ef.2 < ef.1 ∧ gh.2 < gh.1 ∧ gh.1 < ef.1 then true
  else if ef.2 < ef.1 ∧ gh.2 < gh.1 ∧ ef.1 = gh.1 ∧ ef.2 < gh.2 then true
  else false

/-- `minD(p, q)` from `vs.py`. -/
def minD (p q : ℕ × ℕ) : ℕ × ℕ := if greaterD p q then q else p

/-- `maxD(p, q)` from `vs.py`. -/
def maxD (p q : ℕ × ℕ) : ℕ × ℕ := if greaterD p q then p else q

/-- A linearization of the Schulze win-order: `greaterD p q` holds iff
`keyD q < keyD p` in the lexicographic order. -/
def keyD (p : ℕ × ℕ) : ℤ ×ₗ (ℤ ×ₗ ℤ) :=
  if p.2 < p.1 then toLex ((2:ℤ), toLex ((p.1:ℤ), -(p.2:ℤ)))
  else if p.1 = p.2 then toLex ((1:ℤ), toLex (0, 0))
  else toLex ((0:ℤ), toLex (0, 0))

theorem lex3_lt_iff (x y z x' y' z' : ℤ) :
    toLex (x, toLex (y, z)) < toLex (x', toLex (y', z')) ↔
    (x < x' ∨ (x = x' ∧ (y < y' ∨ (y = y' ∧ z < z')))) := by
  rw [Prod.Lex.lt_iff]
  dsimp only
  rw [Prod.Lex.lt_iff]

theorem keyD_win (p : ℕ × ℕ) (h : p.2 < p.1) :
    keyD p = toLex ((2:ℤ), toLex ((p.1:ℤ), -(p.2:ℤ))) := by
  unfold keyD
  rw [if_pos h]

theorem keyD_tie (p : ℕ × ℕ) (h : p.1 = p.2) :
    keyD p = toLex ((1:ℤ), toLex (0, 0)) := by
  unfold keyD
  rw [if_neg (by omega), if_pos h]

theorem keyD_loss (p : ℕ × ℕ) (h : p.1 < p.2) :
    keyD p = toLex ((0:ℤ), toLex (0, 0)) := by
  unfold keyD
  rw [if_neg (by omega), if_neg (by omega)]

theorem greaterD_eq_true_iff (p q : ℕ × ℕ) :
    greaterD p q = true ↔
      ((p.2 < p.1 ∧ q.1 ≤ q.2) ∨ (p.2 ≤ p.1 ∧ q.1 < q.2) ∨
       (p.2 < p.1 ∧ q.2 < q.1 ∧ q.1 < p.1) ∨
       (p.2 < p.1 ∧ q.2 < q.1 ∧ p.1 = q.1 ∧ p.2 < q.2)) := by
  unfold greaterD
  split_ifs with h1 h2 h3 h4
  · exact iff_of_true rfl (Or.inl h1)
  · exact iff_of_true rfl (Or.inr (Or.inl h2))
  · exact iff_of_true rfl (Or.inr (Or.inr (Or.inl h3)))
  · exact iff_of_true rfl (Or.inr (Or.inr (Or.inr h4)))
  · refine iff_of_false (by simp) ?_
    rintro (h | h | h | h)
    · exact h1 h
    · exact h2 h
    · exact h3 h
    · exact h4 h

theorem greaterD_iff (p q : ℕ × ℕ) :
    greaterD p q = true ↔ keyD q < keyD p := by
  rw [greaterD_eq_true_iff]
  rcases lt_trichotomy p.1 p.2 with hp | hp | hp <;>
    rcases lt_trichotomy q.1 q.2 with hq | hq | hq
  · rw [keyD_loss p hp, keyD_loss q hq, lex3_lt_iff]
    omega
  · rw [keyD_loss p hp, keyD_tie q hq, lex3_lt_iff]
    omega
  · rw [keyD_loss p hp, keyD_win q hq, lex3_lt_iff]
    omega
  · rw [keyD_tie p hp, keyD_loss q hq, lex3_lt_iff]
    omega
  · rw [keyD_tie p hp, keyD_tie q hq, lex3_lt_iff]
    omega
  · rw [keyD_tie p hp, keyD_win q hq, lex3_lt_iff]
    omega
  · rw [keyD_win p hp, keyD_loss q hq, lex3_lt_iff]
    omega
  · rw [keyD_win p hp, keyD_tie q hq, lex3_lt_iff]
    omega
  · rw [keyD_win p hp, keyD_win q hq, lex3_lt_iff]
    omega

theorem keyD_maxD (p q : ℕ × ℕ) :
    keyD (maxD p q) = max (keyD p) (keyD q) := by
  unfold maxD
  by_cases h : greaterD p q = true
  · rw [if_pos h]
    exact (max_eq_left (le_of_lt ((greaterD_iff p q).mp h))).symm
  · rw [if_neg h]
    have hle : keyD p ≤ keyD q :=
      le_of_not_lt (fun hlt => h ((greaterD_iff p q).mpr hlt))
    exact (max_eq_right hle).symm

theorem keyD_minD (p q : ℕ × ℕ) :
    keyD (minD p q) = min (keyD p) (keyD q) := by
  unfold minD
  by_cases h : greaterD p q = true
  · rw [if_pos h]
    exact (min_eq_right (le_of_lt ((greaterD_iff p q).mp h))).symm
  · rw [if_neg h]
    have hle : keyD p ≤ keyD q :=
      le_of_not_lt (fun hlt => h ((greaterD_iff p q).mpr hlt))
    exact (min_eq_left hle).symm

theorem maxD_eq_or (p q : ℕ × ℕ) : maxD p q = p ∨ maxD p q = q := by
  unfold maxD
  by_cases h : greaterD p q = true
  · rw [if_pos h]; exact Or.inl rfl
  · rw [if_neg h]; exact Or.inr rfl

theorem minD_eq_or (p q : ℕ × ℕ) : minD p q = p ∨ minD p q = q := by
  unfold minD
  by_cases h : greaterD p q = true
  · rw [if_pos h]; exact Or.inr rfl
  · rw [if_neg h]; exact Or.inl rfl

/-- Pointwise update of a two-argument function at one entry. -/
def updf2 {β : Type} (f : α → α → β) (a b : α) (x : β) : α → α → β :=
  fun u v => if u = a ∧ v = b then x else f u v

/-- The beatpath strength matrix `PD` after the Floyd–Warshall-style
triple loop of `beatpath_potential_winners` (pivot `i` outermost, as in
the source). -/
def PDmat (A : List α) (pref : α → α → ℕ) : α → α → ℕ × ℕ :=
  A.foldl (fun PD i =>
    A.foldl (fun PD j =>
      if i ≠ j then
        A.foldl (fun PD k =>
          if i ≠ k ∧ j ≠ k then
            updf2 PD j k (maxD (PD j k) (minD (PD j i) (PD i k)))
          else PD) PD
      else PD) PD)
    (fun i j => (pref i j, pref j i))

/-- `beatpath_potential_winners(A, P, params)` from `vs.py`.  The source
builds a Python set and discards dominated alternatives; the returned
collection is modelled as the sublist of `A` of undiscarded
alternatives (same membership). -/
def beatpath_potential_winners (A : List α) (P : Profile α)
    (params : Params) : List α :=
  let pref := pairwise_prefs A P params
  let PD := PDmat A pref
  A.filter (fun i =>
    ! A.any (fun j => decide (j ≠ i) && greaterD (PD j i) (PD i j)))

/-- Every adjacent step of the walk has edge key at least `K`. -/
def chainGe (pref : α → α → ℕ) (K : ℤ ×ₗ (ℤ ×ₗ ℤ)) : List α → Prop
  | u :: v :: rest => K ≤ keyD (pref u v, pref v u) ∧
      chainGe pref K (v :: rest)
  | _ => True

theorem chainGe_anti (pref : α → α → ℕ) (K K' : ℤ ×ₗ (ℤ ×ₗ ℤ))
    (h : K' ≤ K) : ∀ l, chainGe pref K l → chainGe pref K' l := by
  intro l
  induction l with
  | nil => intro _; trivial
  | cons u rest ih =>
      cases rest with
      | nil => intro _; trivial
      | cons v rest2 =>
          intro hc
          obtain ⟨h1, h2⟩ := hc
          exact ⟨le_trans h h1, ih h2⟩

theorem chainGe_glue (pref : α → α → ℕ) (K : ℤ ×ₗ (ℤ ×ₗ ℤ)) (x : α) :
    ∀ (l1 l2 : List α), chainGe pref K (l1 ++ [x]) →
    chainGe pref K (x :: l2) → chainGe pref K (l1 ++ x :: l2) := by
  intro l1
  induction l1 with
  | nil =>
      intro l2 _ h2
      exact h2
  | cons u t ih =>
      intro l2 h1 h2
      cases t with
      | nil =>
          obtain ⟨he, _⟩ := h1
          exact ⟨he, h2⟩
      | cons w t' =>
          obtain ⟨he, hrest⟩ := h1
          exact ⟨he, ih l2 hrest h2⟩

theorem chainGe_split (pref : α → α → ℕ) (K : ℤ ×ₗ (ℤ ×ₗ ℤ)) (x : α) :
    ∀ (l1 l2 : List α), chainGe pref K (l1 ++ x :: l2) →
    chainGe pref K (l1 ++ [x]) ∧ chainGe pref K (x :: l2) := by
  intro l1
  induction l1 with
  | nil =>
      intro l2 h
      exact ⟨trivial, h⟩
  | cons u t ih =>
      intro l2 h
      cases t with
      | nil =>
          obtain ⟨he, hrest⟩ := h
          exact ⟨⟨he, trivial⟩, hrest⟩
      | cons w t' =>
          obtain ⟨he, hrest⟩ := h
          obtain ⟨ha, hb⟩ := ih l2 hrest
          exact ⟨⟨he, ha⟩, hb⟩

theorem chainGe_edge (pref : α → α → ℕ) (K : ℤ ×ₗ (ℤ ×ₗ ℤ)) (x y : α) :
    ∀ (l1 l2 : List α), chainGe pref K (l1 ++ x :: y :: l2) →
    K ≤ keyD (pref x y, pref y x) := by
  intro l1 l2 h
  have := (chainGe_split pref K x l1 (y :: l2) h).2
  exact this.1

/-- Split a list at the first occurrence of `i`. -/
theorem first_split (i : α) : ∀ (l : List α), i ∈ l →
    ∃ l1 l2, l = l1 ++ i :: l2 ∧ i ∉ l1 := by
  intro l
  induction l with
  | nil => intro h; exact absurd h (List.not_mem_nil i)
  | cons u t ih =>
      intro h
      by_cases hu : u = i
      · subst hu
        exact ⟨[], t, rfl, List.not_mem_nil u⟩
      · have : i ∈ t := by
          rcases List.mem_cons.mp h with h1 | h2
          · exact absurd h1.symm hu
          · exact h2
        obtain ⟨l1, l2, heq, hnm⟩ := ih this
        refine ⟨u :: l1, l2, by rw [List.cons_append, heq], ?_⟩
        intro hmem
        rcases List.mem_cons.mp hmem with h1 | h2
        · exact hu h1.symm
        · exact hnm h2

/-- A walk from outside `T` to inside `T` has a crossing step. -/
theorem walk_crossing (T : List α) (w : α) (hw : w ∈ T) :
    ∀ (mid : List α) (u : α), u ∉ T →
    ∃ l1 x y l2, u :: mid ++ [w] = l1 ++ x :: y :: l2 ∧ x ∉ T ∧ y ∈ T := by
  intro mid
  induction mid with
  | nil =>
      intro u hu
      exact ⟨[], u, w, [], rfl, hu, hw⟩
  | cons c mid' ih =>
      intro u hu
      by_cases hc : c ∈ T
      · exact ⟨[], u, c, mid' ++ [w], rfl, hu, hc⟩
      · obtain ⟨l1, x, y, l2, heq, hx, hy⟩ := ih c hc
        refine ⟨u :: l1, x, y, l2, ?_, hx, hy⟩
        show u :: (c :: mid') ++ [w] = u :: l1 ++ x :: y :: l2
        rw [List.cons_append, heq]
        rfl

/-- Every `PD` entry is supported by an actual walk through `A`. -/
def SoundPD (pref : α → α → ℕ) (A : List α)
    (PD : α → α → ℕ × ℕ) : Prop :=
  ∀ j ∈ A, ∀ k ∈ A, j ≠ k → ∃ mid, (∀ x ∈ mid, x ∈ A) ∧
    chainGe pref (keyD (PD j k)) (j :: mid ++ [k])

/-- `PD` dominates the strength of every walk with intermediate vertices
among the processed pivots `S`. -/
def CompletePD (pref : α → α → ℕ) (A : List α) (S : List α)
    (PD : α → α → ℕ × ℕ) : Prop :=
  ∀ j ∈ A, ∀ k ∈ A, j ≠ k → ∀ K mid, (∀ x ∈ mid, x ∈ S) →
    chainGe pref K (j :: mid ++ [k]) → K ≤ keyD (PD j k)

/-- One iteration of the innermost (`k`) loop of the beatpath update. -/
def innerStep (i j : α) (PD : α → α → ℕ × ℕ) (k : α) : α → α → ℕ × ℕ :=
  if i ≠ k ∧ j ≠ k then
    updf2 PD j k (maxD (PD j k) (minD (PD j i) (PD i k)))
  else PD

/-- One iteration of the middle (`j`) loop of the beatpath update. -/
def midStep (A : List α) (i : α) (PD : α → α → ℕ × ℕ) (j : α) :
    α → α → ℕ × ℕ :=
  if i ≠ j then A.foldl (innerStep i j) PD else PD

/-- One pivot round (`i`) of the beatpath update. -/
def outStep (A : List α) (PD : α → α → ℕ × ℕ) (i : α) : α → α → ℕ × ℕ :=
  A.foldl (midStep A i) PD

theorem PDmat_eq (A : List α) (pref : α → α → ℕ) :
    PDmat A pref = A.foldl (outStep A) (fun i j => (pref i j, pref j i)) :=
  rfl

theorem innerStep_mono (i j : α) (PD : α → α → ℕ × ℕ) (k x y : α) :
    keyD (PD x y) ≤ keyD (innerStep i j PD k x y) := by
  unfold innerStep
  split_ifs with h
  · unfold updf2
    by_cases hxy : x = j ∧ y = k
    · rw [if_pos hxy, keyD_maxD]
      obtain ⟨hx, hy⟩ := hxy
      subst hx
      subst hy
      exact le_max_left _ _
    · rw [if_neg hxy]
  · exact le_refl _

theorem innerFold_mono (i j : α) :
    ∀ (ks : List α) (PD : α → α → ℕ × ℕ) (x y : α),
    keyD (PD x y) ≤ keyD ((ks.foldl (innerStep i j) PD) x y) := by
  intro ks
  induction ks with
  | nil => intro PD x y; exact le_refl _
  | cons k0 ks ih =>
      intro PD x y
      rw [List.foldl_cons]
      exact le_trans (innerStep_mono i j PD k0 x y) (ih _ x y)

theorem innerStep_freeze (i j : α) (hij : i ≠ j) (PD : α → α → ℕ × ℕ)
    (k x : α) :
    innerStep i j PD k x i = PD x i ∧ innerStep i j PD k i x = PD i x := by
  unfold innerStep
  split_ifs with h
  · unfold updf2
    constructor
    · rw [if_neg (fun hc => h.1 hc.2)]
    · rw [if_neg (fun hc => hij hc.1)]
  · exact ⟨rfl, rfl⟩

theorem innerFold_freeze (i j : α) (hij : i ≠ j) :
    ∀ (ks : List α) (PD : α → α → ℕ × ℕ) (x : α),
    (ks.foldl (innerStep i j) PD) x i = PD x i ∧
    (ks.foldl (innerStep i j) PD) i x = PD i x := by
  intro ks
  induction ks with
  | nil => intro PD x; exact ⟨rfl, rfl⟩
  | cons k0 ks ih =>
      intro PD x
      rw [List.foldl_cons]
      obtain ⟨h1, h2⟩ := ih (innerStep i j PD k0) x
      obtain ⟨g1, g2⟩ := innerStep_freeze i j hij PD k0 x
      exact ⟨h1.trans g1, h2.trans g2⟩

theorem innerFold_target (i j : α) (hij : i ≠ j) :
    ∀ (ks : List α) (PD : α → α → ℕ × ℕ) (k : α), k ∈ ks →
    i ≠ k → j ≠ k →
    min (keyD (PD j i)) (keyD (PD i k)) ≤
      keyD ((ks.foldl (innerStep i j) PD) j k) := by
  intro ks
  induction ks with
  | nil => intro PD k hk; exact absurd hk (List.not_mem_nil k)
  | cons k0 ks ih =>
      intro PD k hk hik hjk
      rw [List.foldl_cons]
      rcases List.mem_cons.mp hk with hk0 | hk'
      · subst hk0
        have hstep : keyD (innerStep i j PD k j k) =
            max (keyD (PD j k)) (min (keyD (PD j i)) (keyD (PD i k))) := by
          unfold innerStep
          rw [if_pos ⟨hik, hjk⟩]
          unfold updf2
          rw [if_pos ⟨rfl, rfl⟩, keyD_maxD, keyD_minD]
        have h1 : min (keyD (PD j i)) (keyD (PD i k)) ≤
            keyD (innerStep i j PD k j k) := by
          rw [hstep]
          exact le_max_right _ _
        exact le_trans h1 (innerFold_mono i j ks _ j k)
      · have hfr := innerStep_freeze i j hij PD k0
        have e1 : innerStep i j PD k0 j i = PD j i := (hfr j).1
        have e2 : innerStep i j PD k0 i k = PD i k := (hfr k).2
        have := ih (innerStep i j PD k0) k hk' hik hjk
        rw [e1, e2] at this
        exact this

theorem midStep_mono (A : List α) (i : α) (PD : α → α → ℕ × ℕ)
    (j x y : α) :
    keyD (PD x y) ≤ keyD (midStep A i PD j x y) := by
  unfold midStep
  split_ifs with h
  · exact innerFold_mono i j A PD x y
  · exact le_refl _

theorem midFold_mono (A : List α) (i : α) :
    ∀ (js : List α) (PD : α → α → ℕ × ℕ) (x y : α),
    keyD (PD x y) ≤ keyD ((js.foldl (midStep A i) PD) x y) := by
  intro js
  induction js with
  | nil => intro PD x y; exact le_refl _
  | cons j0 js ih =>
      intro PD x y
      rw [List.foldl_cons]
      exact le_trans (midStep_mono A i PD j0 x y) (ih _ x y)

theorem midStep_freeze (A : List α) (i : α) (PD : α → α → ℕ × ℕ)
    (j x : α) :
    midStep A i PD j x i = PD x i ∧ midStep A i PD j i x = PD i x := by
  unfold midStep
  split_ifs with h
  · exact innerFold_freeze i j h A PD x
  · exact ⟨rfl, rfl⟩

theorem midFold_freeze (A : List α) (i : α) :
    ∀ (js : List α) (PD : α → α → ℕ × ℕ) (x : α),
    (js.foldl (midStep A i) PD) x i = PD x i ∧
    (js.foldl (midStep A i) PD) i x = PD i x := by
  intro js
  induction js with
  | nil => intro PD x; exact ⟨rfl, rfl⟩
  | cons j0 js ih =>
      intro PD x
      rw [List.foldl_cons]
      obtain ⟨h1, h2⟩ := ih (midStep A i PD j0) x
      obtain ⟨g1, g2⟩ := midStep_freeze A i PD j0 x
      exact ⟨h1.trans g1, h2.trans g2⟩

theorem midFold_target (A : List α) (i : α) :
    ∀ (js : List α) (PD : α → α → ℕ × ℕ) (j k : α), j ∈ js → k ∈ A →
    i ≠ j → i ≠ k → j ≠ k →
    min (keyD (PD j i)) (keyD (PD i k)) ≤
      keyD ((js.foldl (midStep A i) PD) j k) := by
  intro js
  induction js with
  | nil => intro PD j k hj; exact absurd hj (List.not_mem_nil j)
  | cons j0 js ih =>
      intro PD j k hj hk hij hik hjk
      rw [List.foldl_cons]
      rcases List.mem_cons.mp hj with hj0 | hj'
      · subst hj0
        have h1 : min (keyD (PD j i)) (keyD (PD i k)) ≤
            keyD (midStep A i PD j j k) := by
          unfold midStep
          rw [if_pos hij]
          exact innerFold_target i j hij A PD k hk hik hjk
        exact le_trans h1 (midFold_mono A i js _ j k)
      · have hfr := midStep_freeze A i PD j0
        have e1 : midStep A i PD j0 j i = PD j i := (hfr j).1
        have e2 : midStep A i PD j0 i k = PD i k := (hfr k).2
        have := ih (midStep A i PD j0) j k hj' hk hij hik hjk
        rw [e1, e2] at this
        exact this

theorem outStep_mono (A : List α) (PD : α → α → ℕ × ℕ) (i x y : α) :
    keyD (PD x y) ≤ keyD (outStep A PD i x y) :=
  midFold_mono A i A PD x y

theorem outStep_freeze (A : List α) (PD : α → α → ℕ × ℕ) (i x : α) :
    outStep A PD i x i = PD x i ∧ outStep A PD i i x = PD i x :=
  midFold_freeze A i A PD x

theorem outStep_target (A : List α) (PD : α → α → ℕ × ℕ) (i j k : α)
    (hj : j ∈ A) (hk : k ∈ A) (hij : i ≠ j) (hik : i ≠ k) (hjk : j ≠ k) :
    min (keyD (PD j i)) (keyD (PD i k)) ≤ keyD (outStep A PD i j k) :=
  midFold_target A i A PD j k hj hk hij hik hjk

theorem innerStep_sound (pref : α → α → ℕ) (A : List α) (i j : α)
    (hiA : i ∈ A) (hij : i ≠ j) (PD : α → α → ℕ × ℕ) (k : α)
    (hS : SoundPD pref A PD) : SoundPD pref A (innerStep i j PD k) := by
  intro x hx y hy hxy
  unfold innerStep
  split_ifs with hg
  · unfold updf2
    by_cases hcase : x = j ∧ y = k
    · rw [if_pos hcase]
      obtain ⟨hx1, hy1⟩ := hcase
      subst hx1
      subst hy1
      rcases maxD_eq_or (PD x y) (minD (PD x i) (PD i y)) with hm | hm
      · rw [hm]
        exact hS x hx y hy hxy
      · rw [hm, keyD_minD]
        have hxi : x ≠ i := fun h => hij h.symm
        obtain ⟨m1, hm1, hc1⟩ := hS x hx i hiA hxi
        obtain ⟨m2, hm2, hc2⟩ := hS i hiA y hy hg.1
        refine ⟨m1 ++ i :: m2, ?_, ?_⟩
        · intro z hz
          rcases List.mem_append.mp hz with h1 | h2
          · exact hm1 z h1
          · rcases List.mem_cons.mp h2 with h3 | h4
            · exact h3 ▸ hiA
            · exact hm2 z h4
        · have hc1' := chainGe_anti pref _ _
            (min_le_left (keyD (PD x i)) (keyD (PD i y))) _ hc1
          have hc2' := chainGe_anti pref _ _
            (min_le_right (keyD (PD x i)) (keyD (PD i y))) _ hc2
          have hglue := chainGe_glue pref _ i (x :: m1) (m2 ++ [y])
            hc1' hc2'
          have heq : x :: (m1 ++ i :: m2) ++ [y] =
              (x :: m1) ++ i :: (m2 ++ [y]) := by simp
          rw [heq]
          exact hglue
    · rw [if_neg hcase]
      exact hS x hx y hy hxy
  · exact hS x hx y hy hxy

theorem innerFold_sound (pref : α → α → ℕ) (A : List α) (i j : α)
    (hiA : i ∈ A) (hij : i ≠ j) :
    ∀ (ks : List α) (PD : α → α → ℕ × ℕ),
    SoundPD pref A PD → SoundPD pref A (ks.foldl (innerStep i j) PD) := by
  intro ks
  induction ks with
  | nil => intro PD h; exact h
  | cons k0 ks ih =>
      intro PD h
      rw [List.foldl_cons]
      exact ih _ (innerStep_sound pref A i j hiA hij PD k0 h)

theorem midFold_sound (pref : α → α → ℕ) (A : List α) (i : α)
    (hiA : i ∈ A) :
    ∀ (js : List α) (PD : α → α → ℕ × ℕ),
    SoundPD pref A PD → SoundPD pref A (js.foldl (midStep A i) PD) := by
  intro js
  induction js with
  | nil => intro PD h; exact h
  | cons j0 js ih =>
      intro PD h
      rw [List.foldl_cons]
      apply ih
      unfold midStep
      split_ifs with hij
      · exact innerFold_sound pref A i j0 hiA hij A PD h
      · exact h

theorem outFold_sound (pref : α → α → ℕ) (A : List α) :
    ∀ (pivots : List α), (∀ x ∈ pivots, x ∈ A) →
    ∀ (PD : α → α → ℕ × ℕ), SoundPD pref A PD →
    SoundPD pref A (pivots.foldl (outStep A) PD) := by
  intro pivots
  induction pivots with
  | nil => intro _ PD h; exact h
  | cons i ps ih =>
      intro hsub PD h
      rw [List.foldl_cons]
      exact ih (fun x hx => hsub x (List.mem_cons_of_mem _ hx)) _
        (midFold_sound pref A i (hsub i (List.mem_cons_self i ps)) A PD h)

theorem CompletePD_mono (pref : α → α → ℕ) (A : List α)
    (S S' : List α) (PD : α → α → ℕ × ℕ)
    (hss : ∀ x ∈ S', x ∈ S) (h : CompletePD pref A S PD) :
    CompletePD pref A S' PD :=
  fun j hj k hk hjk K mid hmid hchain =>
    h j hj k hk hjk K mid (fun x hx => hss x (hmid x hx)) hchain

theorem Complete_step (pref : α → α → ℕ) (A : List α) (i : α)
    (hiA : i ∈ A) (S : List α) (PD : α → α → ℕ × ℕ)
    (hC : CompletePD pref A S PD) :
    CompletePD pref A (i :: S) (outStep A PD i) := by
  have claim2 : ∀ n (m2 : List α), m2.length ≤ n →
      (∀ x ∈ m2, x ∈ i :: S) → ∀ k, k ∈ A → i ≠ k → ∀ K,
      chainGe pref K (i :: m2 ++ [k]) → K ≤ keyD (PD i k) := by
    intro n
    induction n with
    | zero =>
        intro m2 hlen hsub k hk hik K hchain
        have hnil : m2 = [] := List.eq_nil_of_length_eq_zero (by omega)
        subst hnil
        exact hC i hiA k hk hik K []
          (fun x hx => absurd hx (List.not_mem_nil x)) hchain
    | succ n ih =>
        intro m2 hlen hsub k hk hik K hchain
        by_cases hin : i ∈ m2
        · obtain ⟨n1, n2, heq, hnm⟩ := first_split i m2 hin
          subst heq
          have heq2 : i :: (n1 ++ i :: n2) ++ [k] =
              (i :: n1) ++ i :: (n2 ++ [k]) := by simp
          rw [heq2] at hchain
          have hsuf := (chainGe_split pref K i (i :: n1) (n2 ++ [k])
            hchain).2
          apply ih n2 ?_ ?_ k hk hik K hsuf
          · have h1 : (n1 ++ i :: n2).length = n1.length + n2.length + 1 :=
              by simp; omega
            omega
          · intro x hx
            exact hsub x
              (List.mem_append_right _ (List.mem_cons_of_mem _ hx))
        · apply hC i hiA k hk hik K m2 ?_ hchain
          intro x hx
          rcases List.mem_cons.mp (hsub x hx) with h1 | h2
          · exact absurd (h1 ▸ hx) hin
          · exact h2
  intro j hj k hk hjk K mid hmid hchain
  by_cases hin : i ∈ mid
  · by_cases hji : j = i
    · subst hji
      have h1 := claim2 mid.length mid (le_refl _) hmid k hk hjk K hchain
      rw [(outStep_freeze A PD j k).2]
      exact h1
    · by_cases hki : k = i
      · subst hki
        obtain ⟨m1, m2, heq, hnm⟩ := first_split k mid hin
        subst heq
        have heq2 : j :: (m1 ++ k :: m2) ++ [k] =
            (j :: m1) ++ k :: (m2 ++ [k]) := by simp
        rw [heq2] at hchain
        have hpre := (chainGe_split pref K k (j :: m1) (m2 ++ [k])
          hchain).1
        have hKji : K ≤ keyD (PD j k) := by
          apply hC j hj k hk hjk K m1 ?_ hpre
          intro x hx
          rcases List.mem_cons.mp (hmid x (List.mem_append_left _ hx)) with
            h1 | h2
          · exact absurd (h1 ▸ hx) hnm
          · exact h2
        rw [(outStep_freeze A PD k j).1]
        exact hKji
      · obtain ⟨m1, m2, heq, hnm⟩ := first_split i mid hin
        subst heq
        have heq2 : j :: (m1 ++ i :: m2) ++ [k] =
            (j :: m1) ++ i :: (m2 ++ [k]) := by simp
        rw [heq2] at hchain
        obtain ⟨hpre, hsuf⟩ := chainGe_split pref K i (j :: m1)
          (m2 ++ [k]) hchain
        have hKji : K ≤ keyD (PD j i) := by
          apply hC j hj i hiA hji K m1 ?_ hpre
          intro x hx
          rcases List.mem_cons.mp (hmid x (List.mem_append_left _ hx)) with
            h1 | h2
          · exact absurd (h1 ▸ hx) hnm
          · exact h2
        have hKik : K ≤ keyD (PD i k) := by
          apply claim2 m2.length m2 (le_refl _) ?_ k hk
            (fun h => hki h.symm) K hsuf
          intro x hx
          exact hmid x
            (List.mem_append_right _ (List.mem_cons_of_mem _ hx))
        exact le_trans (le_min hKji hKik)
          (outStep_target A PD i j k hj hk (fun h => hji h.symm)
            (fun h => hki h.symm) hjk)
  · have h1 : K ≤ keyD (PD j k) := by
      apply hC j hj k hk hjk K mid ?_ hchain
      intro x hx
      rcases List.mem_cons.mp (hmid x hx) with h1 | h2
      · exact absurd (h1 ▸ hx) hin
      · exact h2
    exact le_trans h1 (outStep_mono A PD i j k)

theorem outFold_complete (pref : α → α → ℕ) (A : List α) :
    ∀ (pivots : List α), (∀ x ∈ pivots, x ∈ A) →
    ∀ (S : List α) (PD : α → α → ℕ × ℕ), CompletePD pref A S PD →
    CompletePD pref A (pivots.reverse ++ S)
      (pivots.foldl (outStep A) PD) := by
  intro pivots
  induction pivots with
  | nil => intro _ S PD h; exact h
  | cons i ps ih =>
      intro hsub S PD h
      rw [List.foldl_cons]
      have h1 := ih (fun x hx => hsub x (List.mem_cons_of_mem _ hx))
        (i :: S) (outStep A PD i)
        (Complete_step pref A i (hsub i (List.mem_cons_self i ps)) S PD h)
      apply CompletePD_mono pref A (ps.reverse ++ i :: S) _ _ ?_ h1
      intro x hx
      simp only [List.reverse_cons, List.mem_append, List.mem_cons,
        List.mem_reverse] at hx ⊢
      tauto

theorem PDmat_sound (A : List α) (pref : α → α → ℕ) :
    SoundPD pref A (PDmat A pref) := by
  rw [PDmat_eq]
  apply outFold_sound pref A A (fun x hx => hx)
  intro j hj k hk hjk
  refine ⟨[], fun x hx => absurd hx (List.not_mem_nil x), ?_⟩
  exact ⟨le_refl _, trivial⟩

theorem PDmat_complete (A : List α) (pref : α → α → ℕ) :
    CompletePD pref A A (PDmat A pref) := by
  rw [PDmat_eq]
  have hbase : CompletePD pref A [] (fun i j => (pref i j, pref j i)) := by
    intro j hj k hk hjk K mid hmid hchain
    cases mid with
    | nil => exact hchain.1
    | cons c t =>
        exact absurd (hmid c (List.mem_cons_self c t)) (List.not_mem_nil c)
  have h1 := outFold_complete pref A A (fun x hx => hx) [] _ hbase
  apply CompletePD_mono pref A (A.reverse ++ []) _ _ ?_ h1
  intro x hx
  simp only [List.append_nil, List.mem_reverse]
  exact hx

theorem PDmat_mono (A : List α) (pref : α → α → ℕ) (x y : α) :
    keyD (pref x y, pref y x) ≤ keyD (PDmat A pref x y) := by
  rw [PDmat_eq]
  have : ∀ (pivots : List α) (PD : α → α → ℕ × ℕ),
      keyD (PD x y) ≤ keyD ((pivots.foldl (outStep A) PD) x y) := by
    intro pivots
    induction pivots with
    | nil => intro PD; exact le_refl _
    | cons i ps ih =>
        intro PD
        rw [List.foldl_cons]
        exact le_trans (outStep_mono A PD i x y) (ih _)
  exact this A (fun i j => (pref i j, pref j i))

/-- The beatpath triangle inequality for the final strength matrix. -/
theorem PDmat_triangle (A : List α) (pref : α → α → ℕ) (i j k : α)
    (hiA : i ∈ A) (hjA : j ∈ A) (hkA : k ∈ A)
    (hij : i ≠ j) (hik : i ≠ k) (hjk : j ≠ k) :
    min (keyD (PDmat A pref j i)) (keyD (PDmat A pref i k)) ≤
      keyD (PDmat A pref j k) := by
  obtain ⟨m1, hm1, hc1⟩ := PDmat_sound A pref j hjA i hiA (fun h => hij h.symm)
  obtain ⟨m2, hm2, hc2⟩ := PDmat_sound A pref i hiA k hkA hik
  have hc1' := chainGe_anti pref _ _
    (min_le_left (keyD (PDmat A pref j i)) (keyD (PDmat A pref i k))) _ hc1
  have hc2' := chainGe_anti pref _ _
    (min_le_right (keyD (PDmat A pref j i)) (keyD (PDmat A pref i k))) _ hc2
  have hglue := chainGe_glue pref _ i (j :: m1) (m2 ++ [k]) hc1' hc2'
  have heq : (j :: m1) ++ i :: (m2 ++ [k]) =
      j :: (m1 ++ i :: m2) ++ [k] := by simp
  rw [heq] at hglue
  apply PDmat_complete A pref j hjA k hkA hjk _ (m1 ++ i :: m2) ?_ hglue
  intro x hx
  rcases List.mem_append.mp hx with h1 | h2
  · exact hm1 x h1
  · rcases List.mem_cons.mp h2 with h3 | h4
    · exact h3 ▸ hiA
    · exact hm2 x h4

/-- Transitivity of the Schulze beatpath domination on the final matrix. -/
theorem Dom_trans (A : List α) (pref : α → α → ℕ) (a b c : α)
    (haA : a ∈ A) (hbA : b ∈ A) (hcA : c ∈ A)
    (hab : a ≠ b) (hbc : b ≠ c) (hac : a ≠ c)
    (h1 : greaterD (PDmat A pref a b) (PDmat A pref b a) = true)
    (h2 : greaterD (PDmat A pref b c) (PDmat A pref c b) = true) :
    greaterD (PDmat A pref a c) (PDmat A pref c a) = true := by
  rw [greaterD_iff] at h1 h2 ⊢
  have T1 := PDmat_triangle A pref b a c hbA haA hcA
    (fun h => hab h.symm) hbc hac
  have T2 := PDmat_triangle A pref a c b haA hcA hbA
    hac hab (fun h => hbc h.symm)
  have T3 := PDmat_triangle A pref c b a hcA hbA haA
    (fun h => hbc h.symm) (fun h => hac h.symm) (fun h => hab h.symm)
  by_contra hcon
  push_neg at hcon
  rcases le_total (keyD (PDmat A pref a b)) (keyD (PDmat A pref b c)) with
    hle | hle
  · have e1 : keyD (PDmat A pref a b) ≤ keyD (PDmat A pref a c) :=
      le_trans (le_min (le_refl _) hle) T1
    have e2 : keyD (PDmat A pref a b) ≤ keyD (PDmat A pref c a) :=
      le_trans e1 hcon
    have e3 : keyD (PDmat A pref a b) ≤ keyD (PDmat A pref b a) :=
      le_trans (le_min hle e2) T3
    exact absurd h1 (not_lt.mpr e3)
  · have e1 : keyD (PDmat A pref b c) ≤ keyD (PDmat A pref a c) :=
      le_trans (le_min hle (le_refl _)) T1
    have e2 : keyD (PDmat A pref b c) ≤ keyD (PDmat A pref c a) :=
      le_trans e1 hcon
    have e3 : keyD (PDmat A pref b c) ≤ keyD (PDmat A pref c b) :=
      le_trans (le_min e2 hle) T2
    exact absurd h2 (not_lt.mpr e3)

/-- A finite nonempty list under an irreflexive, asymmetric and
(conditionally) transitive relation has an undominated element. -/
theorem exists_undominated {r : α → α → Prop}
    (hirr : ∀ a, ¬ r a a)
    (hasym : ∀ a b, r a b → ¬ r b a)
    (htrans : ∀ a b c, a ≠ b → b ≠ c → a ≠ c → r a b → r b c → r a c) :
    ∀ l : List α, l ≠ [] → ∃ a ∈ l, ∀ b ∈ l, ¬ r b a := by
  intro l
  induction l with
  | nil => intro h; exact absurd rfl h
  | cons x t ih =>
      intro _
      by_cases ht : t = []
      · subst ht
        refine ⟨x, List.mem_cons_self x [], ?_⟩
        intro b hb
        have hbx : b = x := by simpa using hb
        subst hbx
        exact hirr b
      · obtain ⟨a, ha, hund⟩ := ih ht
        by_cases hxa : r x a
        · refine ⟨x, List.mem_cons_self x t, ?_⟩
          intro b hb hbx
          rcases List.mem_cons.mp hb with h1 | h2
          · subst h1
            exact hirr b hbx
          · by_cases hba : b = a
            · subst hba
              exact hasym x b hxa hbx
            · by_cases hbx2 : b = x
              · subst hbx2
                exact hirr b hbx
              · by_cases hxa2 : x = a
                · subst hxa2
                  exact hirr x hxa
                · exact hund b h2 (htrans b x a hbx2 hxa2 hba hbx hxa)
        · refine ⟨a, List.mem_cons_of_mem x ha, ?_⟩
          intro b hb
          rcases List.mem_cons.mp hb with h1 | h2
          · subst h1
            exact hxa
          · exact hund b h2

theorem bpw_mem (A : List α) (P : Profile α) (params : Params) (i : α) :
    i ∈ beatpath_potential_winners A P params ↔
    i ∈ A ∧ ∀ j ∈ A, j ≠ i →
      ¬ greaterD (PDmat A (pairwise_prefs A P params) j i)
          (PDmat A (pairwise_prefs A P params) i j) = true := by
  unfold beatpath_potential_winners
  rw [List.mem_filter]
  constructor
  · rintro ⟨h1, h2⟩
    refine ⟨h1, ?_⟩
    intro j hj hji hgt
    have hany : (A.any (fun j =>
        decide (j ≠ i) &&
          greaterD (PDmat A (pairwise_prefs A P params) j i)
            (PDmat A (pairwise_prefs A P params) i j))) = true :=
      List.any_eq_true.mpr ⟨j, hj,
        by rw [Bool.and_eq_true]; exact ⟨decide_eq_true hji, hgt⟩⟩
    rw [hany] at h2
    exact Bool.noConfusion h2
  · rintro ⟨h1, h2⟩
    refine ⟨h1, ?_⟩
    rcases hany : (A.any (fun j =>
        decide (j ≠ i) &&
          greaterD (PDmat A (pairwise_prefs A P params) j i)
            (PDmat A (pairwise_prefs A P params) i j))) with _ | _
    · rfl
    · exfalso
      obtain ⟨j, hj, hp⟩ := List.any_eq_true.mp hany
      rw [Bool.and_eq_true] at hp
      obtain ⟨hd, hg⟩ := hp
      exact h2 j hj (of_decide_eq_true hd) hg

/-- C4: the Schulze potential-winner set computed by
`beatpath_potential_winners` is nonempty and contained in the Smith set. -/
theorem beatpath_potential_winners_spec (A : List α) (P : Profile α)
    (params : Params) (hA : A ≠ []) :
    beatpath_potential_winners A P params ≠ [] ∧
    ∀ i ∈ beatpath_potential_winners A P params,
      i ∈ Smith_set A P params := by
  obtain ⟨r0, hr0A, hnd, hiff, hrall⟩ := Smith_set_main A P params hA
  have htop : ∀ v, v ∈ Smith_set A P params ↔
      v ∈ A ∧ ∀ b ∈ A, reachA (pairwise_prefs A P params) A v b := by
    intro v
    rw [hiff v]
    constructor
    · rintro ⟨hvA, _, hvr⟩
      exact ⟨hvA, fun b hb => Relation.ReflTransGen.trans hvr (hrall b hb)⟩
    · rintro ⟨hvA, hall2⟩
      exact ⟨hvA, hrall v hvA, hall2 r0 hr0A⟩
  have hdom : ∀ w ∈ Smith_set A P params, ∀ b ∈ A,
      b ∉ Smith_set A P params →
      pairwise_prefs A P params b w < pairwise_prefs A P params w b := by
    intro w hw b hbA hbW
    by_contra hcon
    push_neg at hcon
    have hbw : b ≠ w := fun h => hbW (h ▸ hw)
    have he : edgeA (pairwise_prefs A P params) A b w :=
      ⟨hbA, ((hiff w).mp hw).1, hbw, hcon⟩
    have hwall := ((htop w).mp hw).2
    exact hbW ((htop b).mpr ⟨hbA, fun c hc =>
      Relation.ReflTransGen.head he (hwall c hc)⟩)
  constructor
  · -- nonemptiness via an undominated element
    obtain ⟨a, ha, hund⟩ := exists_undominated
      (r := fun u v => u ∈ A ∧ v ∈ A ∧
        greaterD (PDmat A (pairwise_prefs A P params) u v)
          (PDmat A (pairwise_prefs A P params) v u) = true)
      (fun a hcon => by
        have := (greaterD_iff _ _).mp hcon.2.2
        exact absurd this (lt_irrefl _))
      (fun a b h1 h2 => by
        have g1 := (greaterD_iff _ _).mp h1.2.2
        have g2 := (greaterD_iff _ _).mp h2.2.2
        exact absurd g2 (not_lt.mpr (le_of_lt g1)))
      (fun a b c hab hbc hac h1 h2 =>
        ⟨h1.1, h2.2.1, Dom_trans A (pairwise_prefs A P params) a b c
          h1.1 h1.2.1 h2.2.1 hab hbc hac h1.2.2 h2.2.2⟩)
      A hA
    apply List.ne_nil_of_mem (a := a)
    rw [bpw_mem]
    refine ⟨ha, ?_⟩
    intro j hj hji hg
    exact hund j hj ⟨hj, ha, hg⟩
  · intro i hi
    by_contra hiW
    obtain ⟨hiA, hno⟩ := (bpw_mem A P params i).mp hi
    have hWne : Smith_set A P params ≠ [] := by
      apply List.ne_nil_of_mem (a := r0)
      exact (hiff r0).mpr ⟨hr0A, Relation.ReflTransGen.refl,
        Relation.ReflTransGen.refl⟩
    obtain ⟨w, hw⟩ := List.exists_mem_of_ne_nil _ hWne
    have hwA : w ∈ A := ((hiff w).mp hw).1
    have hwi : w ≠ i := fun h => hiW (h ▸ hw)
    have hiw : i ≠ w := fun h => hwi h.symm
    -- the direct margin w → i is a win
    have hwin : pairwise_prefs A P params i w <
        pairwise_prefs A P params w i := hdom w hw i hiA hiW
    have hkey1 : keyD (pairwise_prefs A P params w i,
        pairwise_prefs A P params i w) =
        toLex ((2:ℤ), toLex ((pairwise_prefs A P params w i : ℤ),
          -(pairwise_prefs A P params i w : ℤ))) :=
      keyD_win _ hwin
    have h1 := PDmat_mono A (pairwise_prefs A P params) w i
    rw [hkey1] at h1
    -- every walk i → w crosses into the Smith set on a losing edge
    obtain ⟨mid, hmid, hchain⟩ :=
      PDmat_sound A (pairwise_prefs A P params) i hiA w hwA hiw
    obtain ⟨l1, x, y, l2, heq, hx, hy⟩ :=
      walk_crossing (Smith_set A P params) w hw mid i hiW
    have hedge := chainGe_edge (pairwise_prefs A P params) _ x y l1 l2
      (by rw [← heq]; exact hchain)
    have hallA : ∀ z, z ∈ i :: mid ++ [w] → z ∈ A := by
      intro z hz
      rcases List.mem_cons.mp hz with h1 | h2
      · exact h1 ▸ hiA
      · rcases List.mem_append.mp h2 with h3 | h4
        · exact hmid z h3
        · have : z = w := by simpa using h4
          exact this ▸ hwA
    have hxA : x ∈ A := by
      apply hallA
      rw [heq]
      simp
    have hloss : pairwise_prefs A P params x y <
        pairwise_prefs A P params y x := hdom y hy x hxA hx
    have hkey2 : keyD (pairwise_prefs A P params x y,
        pairwise_prefs A P params y x) = toLex ((0:ℤ), toLex (0, 0)) :=
      keyD_loss _ hloss
    rw [hkey2] at hedge
    have hlt : keyD (PDmat A (pairwise_prefs A P params) i w) <
        keyD (PDmat A (pairwise_prefs A P params) w i) := by
      apply lt_of_le_of_lt hedge
      apply lt_of_lt_of_le ?_ h1
      rw [lex3_lt_iff]
      omega
    exact hno w hwA hwi ((greaterD_iff _ _).mpr hlt)

/-- C4 witness: a concrete instance of the Schulze theorem. -/
theorem beatpath_potential_winners_spec_witness :
    (([0, 1] : List ℕ) ≠ []) ∧
    (beatpath_potential_winners [0, 1] [([some 0, some 1], 1)] none ≠ [] ∧
      ∀ i ∈ beatpath_potential_winners [0, 1] [([some 0, some 1], 1)] none,
        i ∈ Smith_set [0, 1] [([some 0, some 1], 1)] none) :=
  ⟨by decide, beatpath_potential_winners_spec [0, 1]
    [([some 0, some 1], 1)] none (by decide)⟩

end VS
